import Mathlib

/-!
# Pack job execution: catalog update and delete-after-export

A shallow embedding of `handler/datasource/pack.go` (function `Pack`).

The relational catalog is a record of row lists.  Every database statement of
`Pack` consumes one entry of a fault script carried by the connection, so that
a run with injected database errors is a run with a non-empty script.  The
calls the properties speak about (`Remove`, `AddFile`, `AddFileFromLinks`,
directory loads, writes of `File.cid`) are recorded in a ghost log of the
connection; the log is never rolled back.

Byte offsets, lengths and sizes are the non-negative `int64` values of the data
model and are natural numbers here; `uint64(fileRange.Length)` is then the
identity.
-/

namespace Singularity

/-! ## Data model -/

/-- A defined content identifier.  A nullable `cid` column (and a `cid.Cid`
that may be `cid.Undef`) is an `Option Cid`. -/
abbrev Cid := Nat

/-- Row of table `files` (`model.File`). -/
structure File where
  id : Nat
  directoryId : Option Nat
  path : List Char
  size : Nat
  cid : Option Cid
deriving DecidableEq, Repr

/-- Row of table `file_ranges` (`model.FileRange` without its preloaded file). -/
structure FileRange where
  id : Nat
  fileId : Nat
  offset : Nat
  length : Nat
  cid : Option Cid
deriving DecidableEq, Repr

/-- An element of `packJob.FileRanges`: the in-memory `model.FileRange` together
with its preloaded `File`. -/
structure JobRange where
  id : Nat
  fileId : Nat
  offset : Nat
  length : Nat
  file : File
deriving DecidableEq, Repr

/-- Row of table `directories` (`model.Directory`). -/
structure Directory where
  id : Nat
  parentId : Option Nat
  cid : Option Cid
  data : List Nat
  exported : Bool
deriving DecidableEq, Repr

/-- Row of table `car_blocks`. -/
structure CarBlock where
  carId : Nat
  cid : Cid
  carOffset : Nat
  varintSize : Nat
  rawBlockSize : Nat
deriving DecidableEq, Repr

/-- Row of table `cars` (`model.Car`). -/
structure Car where
  id : Nat
  pieceCID : Cid
  pieceSize : Nat
  rootCID : Cid
  fileSize : Nat
  filePath : List Char
  packJobId : Nat
  datasetId : Nat
  sourceId : Nat
  header : List Nat
deriving DecidableEq, Repr

/-- One element of `result.CarResults` (`pack.CarResult`). -/
structure CarResult where
  pieceCID : Cid
  pieceSize : Nat
  rootCID : Cid
  carFileSize : Nat
  carFilePath : List Char
  header : List Nat
  carBlocks : List CarBlock
deriving DecidableEq, Repr

/-- The value returned by `pack.AssembleCar`.  `fileRangeCIDs` and `objects` are
Go maps, here association lists read with `List.lookup`.  The CID recorded for a
range is the root of the DAG built for it, a defined CID. -/
structure PackResult where
  fileRangeCIDs : List (Nat × Cid)
  carResults : List CarResult
  objects : List (Nat × Nat)
deriving DecidableEq, Repr

/-- The pack job with the fields of its source and dataset that `Pack` reads. -/
structure PackJob where
  id : Nat
  sourceId : Nat
  datasetId : Nat
  deleteAfterExport : Bool
  fileRanges : List JobRange
deriving DecidableEq, Repr

/-- The catalog tables touched by `Pack`; `carSeq` is the last id given to a car. -/
structure Catalog where
  files : List File
  fileRanges : List FileRange
  directories : List Directory
  cars : List Car
  carBlocks : List CarBlock
  carSeq : Nat
deriving DecidableEq, Repr

/-- A `format.Link` built from a file range. -/
structure Link where
  size : Nat
  cid : Option Cid
deriving DecidableEq, Repr

/-- Class of an error inside a retried operation: `transient` errors are the
ones `DoRetry` retries. -/
inductive Fault where
  | transient
  | fatal
deriving DecidableEq, Repr

/-- Calls and writes recorded in the ghost log. -/
inductive Event where
  | loadDir (dirId : Nat)
  | addFile (dirId : Nat) (name : List Char) (c : Cid) (length : Nat)
  | addFileFromLinks (dirId : Nat) (name : List Char) (links : List Link)
  | setFileCid (fileId : Nat) (c : Cid)
  | remove (fileId : Nat)
  | countFailed (fileId : Nat)
deriving DecidableEq, Repr

/-- The database connection: the catalog, the script of injected faults (one
entry per statement still to come, `none` or a missing entry meaning success)
and the ghost log. -/
structure Db where
  cat : Catalog
  faults : List (Option Fault)
  log : List Event
deriving DecidableEq, Repr

/-- Result of an operation that may be retried: `ok` and `fail` carry the
captured variables of the closure and the connection, `diverge` is a loop that
does not end. -/
inductive Res (ε σ : Type) where
  | ok (s : σ) (db : Db)
  | fail (e : ε) (s : σ) (db : Db)
  | diverge
deriving DecidableEq, Repr

/-- The error returned by `Pack`, one constructor per wrapping message. -/
inductive PackErr where
  | failedToGetDatasourceHandler
  | failedToPackFiles
  | filePartNotFound
  | failedToUpdateCidOfFile
  | failedToSaveCar
  | failedToUpdateDirectoryCIDs
deriving DecidableEq, Repr

/-- What a call of `Pack` does: return the cars, return an error, panic, or
never return.  The connection is the state left behind. -/
inductive Outcome where
  | success (cars : List Car) (db : Db)
  | failure (e : PackErr) (db : Db)
  | panicked (db : Db)
  | diverge
deriving DecidableEq, Repr

/-- A `daggen.DirectoryData` held in `dirCache`: the `Directory` field assigned by
`Pack` and the UnixFS directory state owned by package `daggen`. -/
structure DirectoryData (D : Type) where
  directory : Directory
  node : D
deriving DecidableEq, Repr

/-- Package `daggen`, which is not part of the sources at hand, as a parameter.
Its operations work on the UnixFS state and leave the `Directory` field alone;
`none` is a returned error. -/
structure Daggen (D : Type) where
  UnmarshallBinary : List Nat → Option D
  AddFile : D → List Char → Cid → Nat → Option D
  AddFileFromLinks : D → List Char → List Link → Option (D × Cid)
  MarshalBinary : D → Option (List Nat)
  nodeCid : D → Cid
  ResolveDirectoryTree : Nat → List (Nat × DirectoryData D) → List (Nat × List Nat) →
    Option (List (Nat × DirectoryData D))

/-- The collaborators of `Pack`: the handler resolver, `pack.AssembleCar` (`none`
is a returned error), the number of retries `DoRetry` grants after the first
attempt, and package `daggen`. -/
structure Env (D : Type) where
  Resolve : Bool
  AssembleCar : List JobRange → Option PackResult
  retries : Nat
  dag : Daggen D

/-! ## Catalog statements -/

/-- `UPDATE file_ranges SET cid = c WHERE id = id`. -/
def Catalog.setRangeCid (cat : Catalog) (id : Nat) (c : Cid) : Catalog :=
  let upd : FileRange → FileRange := fun r => if r.id = id then { r with cid := some c } else r
  { cat with fileRanges := cat.fileRanges.map upd }

/-- `UPDATE files SET cid = c WHERE id = id`. -/
def Catalog.setFileCid (cat : Catalog) (id : Nat) (c : Cid) : Catalog :=
  let upd : File → File := fun f => if f.id = id then { f with cid := some c } else f
  { cat with files := cat.files.map upd }

/-- `INSERT INTO cars`: the row gets the next id. -/
def Catalog.createCar (cat : Catalog) (car : Car) : Catalog :=
  { cat with cars := cat.cars ++ [{ car with id := cat.carSeq + 1 }],
             carSeq := cat.carSeq + 1 }

/-- `INSERT INTO car_blocks`. -/
def Catalog.createCarBlocks (cat : Catalog) (bs : List CarBlock) : Catalog :=
  { cat with carBlocks := cat.carBlocks ++ bs }

/-- `SELECT * FROM directories WHERE id = id ... LIMIT 1`. -/
def Catalog.firstDirectory (cat : Catalog) (id : Nat) : Option Directory :=
  cat.directories.find? (fun d => decide (d.id = id))

/-- `UPDATE directories SET cid, data, exported = false WHERE id = id`. -/
def Catalog.updateDirectory (cat : Catalog) (id : Nat) (c : Cid) (bytes : List Nat) :
    Catalog :=
  let upd : Directory → Directory := fun d =>
    if d.id = id then { d with cid := some c, data := bytes, exported := false } else d
  { cat with directories := cat.directories.map upd }

/-- Insertion into a list of ranges ordered by offset. -/
def insertByOffset (r : FileRange) : List FileRange → List FileRange
  | [] => [r]
  | x :: xs => if r.offset < x.offset then r :: x :: xs else x :: insertByOffset r xs

/-- Stable sort of ranges by ascending offset. -/
def sortByOffset : List FileRange → List FileRange
  | [] => []
  | x :: xs => insertByOffset x (sortByOffset xs)

/-- `SELECT * FROM file_ranges WHERE file_id = fid ORDER BY "offset" ASC`. -/
def Catalog.rangesOfFile (cat : Catalog) (fid : Nat) : List FileRange :=
  sortByOffset (cat.fileRanges.filter (fun r => decide (r.fileId = fid)))

/-- `SELECT count(*) FROM file_ranges WHERE file_id = fid AND cid IS NULL`. -/
def Catalog.unfinishedCount (cat : Catalog) (fid : Nat) : Nat :=
  (cat.fileRanges.filter (fun r => decide (r.fileId = fid) && r.cid.isNone)).length

/-- Modelled from the spec: `Source.RootDirectoryID`, which is not part of the
sources at hand; the root is the directory whose `parentId` is null. -/
def Catalog.RootDirectoryID (cat : Catalog) : Option Nat :=
  (cat.directories.find? (fun d => d.parentId.isNone)).map (fun d => d.id)

/-- The next entry of the fault script is consumed by the statement about to run. -/
def Db.next (db : Db) : Option Fault × Db :=
  match db.faults with
  | [] => (none, db)
  | f :: fs => (f, { db with faults := fs })

/-- Append an event to the ghost log. -/
def Db.record (db : Db) (e : Event) : Db :=
  { db with log := db.log ++ [e] }

/-- Apply a write to the catalog. -/
def Db.write (db : Db) (f : Catalog → Catalog) : Db :=
  { db with cat := f db.cat }

/-- The write of `File.cid` of file `id`, recorded in the log. -/
abbrev Db.setFileCid (db : Db) (id : Nat) (c : Cid) : Db :=
  (db.write (fun cat => cat.setFileCid id c)).record (.setFileCid id c)

/-! ## Retry and transactions -/

/-- Modelled from the spec: `database.DoRetry`, which is not part of the sources
at hand.  The operation is run again while it fails with a transient error and
retries are left; any other result is returned.  The captured variables `s` of
the closure survive from one attempt to the next. -/
def DoRetry {σ : Type} (op : σ → Db → Res Fault σ) : Nat → σ → Db → Res Fault σ
  | 0, s, db => op s db
  | n + 1, s, db =>
    match op s db with
    | .fail .transient s1 db1 => DoRetry op n s1 db1
    | r => r

/-- The transaction of `gorm.DB`: the body runs on the connection; an error of
the body or of the commit restores the catalog, success keeps it. -/
def Transaction {σ : Type} (body : σ → Db → Res Fault σ) (s : σ) (db : Db) : Res Fault σ :=
  match body s db with
  | .ok s1 db1 =>
    match db1.next with
    | (some e, db2) => .fail e s1 { db2 with cat := db.cat }
    | (none, db2) => .ok s1 db2
  | .fail e s1 db1 => .fail e s1 { db1 with cat := db.cat }
  | .diverge => .diverge

/-! ## Go maps and strings -/

/-- Assignment `m[k] = v` on a Go map kept as an association list. -/
def mapSet {β : Type} (m : List (Nat × β)) (k : Nat) (v : β) : List (Nat × β) :=
  match m with
  | [] => [(k, v)]
  | (k1, v1) :: rest => if k1 = k then (k, v) :: rest else (k1, v1) :: mapSet rest k v

/-- The value `m[k]` of a map of slices: the empty slice when the key is absent. -/
def mapGetList (m : List (Nat × List Nat)) (k : Nat) : List Nat :=
  (m.lookup k).getD []

/-- The result of `strings.LastIndex(s, "/")` counted from position `i` of the
whole string: `-1` when there is no slash. -/
def lastIndexFrom (i : Nat) : List Char → Int
  | [] => -1
  | c :: cs =>
    let rest := lastIndexFrom (i + 1) cs
    if rest ≠ -1 then rest else if c = '/' then (i : Int) else -1

/-- `strings.LastIndex(s, "/")`. -/
def LastIndex (s : List Char) : Int :=
  lastIndexFrom 0 s

/-- The name `fileRange.File.Path[strings.LastIndex(fileRange.File.Path, "/")+1:]`. -/
def baseName (path : List Char) : List Char :=
  path.drop (LastIndex path + 1).toNat

/-- The test `fileRange.Offset == 0 && fileRange.Length == fileRange.File.Size`. -/
def JobRange.wholeFile (r : JobRange) : Bool :=
  decide (r.offset = 0) && decide (r.length = r.file.size)

/-! ## Per-range CID updates (lines 80-104) -/

/-- The closure updating `file_ranges.cid` of one range. -/
def updateRangeCid (id : Nat) (c : Cid) (_ : Unit) (db : Db) : Res Fault Unit :=
  match db.next with
  | (some e, db1) => .fail e () db1
  | (none, db1) => .ok () (db1.write (fun cat => cat.setRangeCid id c))

/-- The closure updating `files.cid` of one file. -/
def updateFileCid (id : Nat) (c : Cid) (_ : Unit) (db : Db) : Res Fault Unit :=
  match db.next with
  | (some e, db1) => .fail e () db1
  | (none, db1) => .ok () (db1.setFileCid id c)

/-- The first loop of `Pack` over `packJob.FileRanges`. -/
def rangeLoop (retries : Nat) (res : PackResult) : List JobRange → Db → Res PackErr Unit
  | [], db => .ok () db
  | r :: rs, db =>
    match res.fileRangeCIDs.lookup r.id with
    | none => .fail .filePartNotFound () db
    | some c =>
      match DoRetry (updateRangeCid r.id c) retries () db with
      | .diverge => .diverge
      | .fail _ _ db1 => .fail .failedToUpdateCidOfFile () db1
      | .ok _ db1 =>
        if r.wholeFile then
          match DoRetry (updateFileCid r.fileId c) retries () db1 with
          | .diverge => .diverge
          | .fail _ _ db2 => .fail .failedToUpdateCidOfFile () db2
          | .ok _ db2 => rangeLoop retries res rs db2
        else rangeLoop retries res rs db1

/-! ## CAR insertion (lines 106-142) -/

/-- The `model.Car` built from a `CarResult`, before the database gives it an id. -/
def carOf (job : PackJob) (cr : CarResult) : Car :=
  { id := 0, pieceCID := cr.pieceCID, pieceSize := cr.pieceSize, rootCID := cr.rootCID,
    fileSize := cr.carFileSize, filePath := cr.carFilePath, packJobId := job.id,
    datasetId := job.datasetId, sourceId := job.sourceId, header := cr.header }

/-- The body of the CAR-insert transaction.  The slice `cars` is declared outside
the closure handed to `DoRetry`, so it is a captured variable.  The batches of one
`CreateInBatches` call are one statement of the fault script. -/
def carTxBody (job : PackJob) : List CarResult → List Car → Db → Res Fault (List Car)
  | [], cars, db => .ok cars db
  | cr :: crs, cars, db =>
    match db.next with
    | (some e, db1) => .fail e cars db1
    | (none, db1) =>
      let car : Car := { carOf job cr with id := db1.cat.carSeq + 1 }
      let db2 := db1.write (fun cat => cat.createCar car)
      match db2.next with
      | (some e, db3) => .fail e cars db3
      | (none, db3) =>
        let blocks := cr.carBlocks.map (fun b => { b with carId := car.id })
        carTxBody job crs (cars ++ [car]) (db3.write (fun cat => cat.createCarBlocks blocks))

/-! ## Directory reconciliation (lines 144-257) -/

/-- The maps `dirCache` and `childrenCache`, local to one run of the transaction body. -/
structure WalkState (D : Type) where
  dirCache : List (Nat × DirectoryData D)
  childrenCache : List (Nat × List Nat)
deriving DecidableEq, Repr

/-- Result of lines 152-170. -/
inductive Loaded (D : Type) where
  | ok (dirData : DirectoryData D) (st : WalkState D) (db : Db)
  | fail (e : Fault) (st : WalkState D) (db : Db)

/-- Lines 152-170: the entry of `dirCache` for directory `d`; when there is none
the row is read, unmarshalled, cached and appended to the children of its parent. -/
def loadDir {D : Type} (dag : Daggen D) (d : Nat) (st : WalkState D) (db : Db) : Loaded D :=
  match st.dirCache.lookup d with
  | some dirData => .ok dirData st db
  | none =>
    match db.next with
    | (some e, db1) => .fail e st db1
    | (none, db1) =>
      match db1.cat.firstDirectory d with
      | none => .fail .fatal st db1
      | some dir =>
        match dag.UnmarshallBinary dir.data with
        | none => .fail .fatal st db1
        | some node =>
          let dirData : DirectoryData D := { directory := dir, node := node }
          let children :=
            match dir.parentId with
            | some p => mapSet st.childrenCache p (mapGetList st.childrenCache p ++ [d])
            | none => st.childrenCache
          .ok dirData { dirCache := mapSet st.dirCache d dirData, childrenCache := children }
            (db1.record (.loadDir d))

/-- The links built from all parts of a file. -/
def linksOf (parts : List FileRange) : List Link :=
  parts.map (fun p => { size := p.length, cid := p.cid })

/-- Lines 174-221: the update of the immediate parent directory `d` of range `r`. -/
def mergeRange {D : Type} (dag : Daggen D) (res : PackResult) (r : JobRange) (d : Nat)
    (dirData : DirectoryData D) (db : Db) : Res Fault (DirectoryData D) :=
  match res.fileRangeCIDs.lookup r.id with
  | none => .fail .fatal dirData db
  | some c =>
    match db.next with
    | (some e, db1) => .fail e dirData db1
    | (none, db1) =>
      let db2 := db1.write (fun cat => cat.setRangeCid r.id c)
      let name := baseName r.file.path
      if r.wholeFile then
        match dag.AddFile dirData.node name c r.length with
        | none => .fail .fatal dirData (db2.record (.addFile d name c r.length))
        | some node => .ok { dirData with node := node } (db2.record (.addFile d name c r.length))
      else
        match db2.next with
        | (some e, db3) => .fail e dirData db3
        | (none, db3) =>
          let allParts := db3.cat.rangesOfFile r.fileId
          if allParts.all (fun p => p.cid.isSome) then
            let db4 := db3.record (.addFileFromLinks d name (linksOf allParts))
            match dag.AddFileFromLinks dirData.node name (linksOf allParts) with
            | none => .fail .fatal dirData db4
            | some (node, c1) =>
              match db4.next with
              | (some e, db5) => .fail e { dirData with node := node } db5
              | (none, db5) =>
                .ok { dirData with node := node } (db5.setFileCid r.fileId c1)
          else .ok dirData db3

/-- The loop `for dirID != nil` of one range (lines 151-226).  `first` holds
during the first iteration only: the test `dirID == fileRange.File.DirectoryID`
compares pointers, and later values of `dirID` point into the cached directory.
`fuel` bounds the number of iterations; running out of it is a loop that does
not end. -/
def walk {D : Type} (dag : Daggen D) (res : PackResult) (r : JobRange) :
    Nat → Bool → Option Nat → WalkState D → Db → Res Fault (WalkState D)
  | _, _, none, st, db => .ok st db
  | 0, _, some _, _, _ => .diverge
  | fuel + 1, first, some d, st, db =>
    match loadDir dag d st db with
    | .fail e st1 db1 => .fail e st1 db1
    | .ok dirData st1 db1 =>
      if first then
        match mergeRange dag res r d dirData db1 with
        | .diverge => .diverge
        | .fail e _ db2 => .fail e st1 db2
        | .ok dirData2 db2 =>
          walk dag res r fuel false dirData2.directory.parentId
            { st1 with dirCache := mapSet st1.dirCache d dirData2 } db2
      else walk dag res r fuel false dirData.directory.parentId st1 db1

/-- The loop over `packJob.FileRanges` inside the directory transaction. -/
def walkRanges {D : Type} (dag : Daggen D) (res : PackResult) (fuel : Nat) :
    List JobRange → WalkState D → Db → Res Fault (WalkState D)
  | [], st, db => .ok st db
  | r :: rs, st, db =>
    match walk dag res r fuel true r.file.directoryId st db with
    | .ok st1 db1 => walkRanges dag res fuel rs st1 db1
    | other => other

/-- Lines 238-251: every cached directory is written back.  A Go map is visited
in no fixed order; the keys are distinct, so the order does not show in the
catalog. -/
def updateDirectories {D : Type} (dag : Daggen D) :
    List (Nat × DirectoryData D) → Db → Res Fault Unit
  | [], db => .ok () db
  | (id, dirData) :: rest, db =>
    match dag.MarshalBinary dirData.node with
    | none => .fail .fatal () db
    | some bytes =>
      match db.next with
      | (some e, db1) => .fail e () db1
      | (none, db1) =>
        updateDirectories dag rest
          (db1.write (fun cat => cat.updateDirectory id (dag.nodeCid dirData.node) bytes))

/-- The body of the directory transaction. -/
def dirTxBody {D : Type} (dag : Daggen D) (job : PackJob) (res : PackResult) (fuel : Nat)
    (_ : Unit) (db : Db) : Res Fault Unit :=
  match walkRanges dag res fuel job.fileRanges { dirCache := [], childrenCache := [] } db with
  | .diverge => .diverge
  | .fail e _ db1 => .fail e () db1
  | .ok st db1 =>
    match db1.next with
    | (some e, db2) => .fail e () db2
    | (none, db2) =>
      match db2.cat.RootDirectoryID with
      | none => .fail .fatal () db2
      | some root =>
        match dag.ResolveDirectoryTree root st.dirCache st.childrenCache with
        | none => .fail .fatal () db2
        | some cache => updateDirectories dag cache db2

/-! ## Delete after export (lines 259-295) and `Pack` -/

/-- The loop of lines 263-294; `false` is a panic (a method called on the nil
object of a file id missing from `result.Objects`). -/
def deleteLoop (res : PackResult) : List JobRange → List Nat → Db → Bool × Db
  | [], _, db => (true, db)
  | r :: rs, handled, db =>
    if r.fileId ∈ handled then deleteLoop res rs handled db
    else if r.wholeFile then
      match res.objects.lookup r.fileId with
      | none => (false, db)
      | some _ => deleteLoop res rs (r.fileId :: handled) (db.record (.remove r.fileId))
    else
      match db.next with
      | (some _, db1) =>
        deleteLoop res rs (r.fileId :: handled) (db1.record (.countFailed r.fileId))
      | (none, db1) =>
        if db1.cat.unfinishedCount r.fileId > 0 then
          deleteLoop res rs (r.fileId :: handled) db1
        else
          match res.objects.lookup r.fileId with
          | none => (false, db1)
          | some _ => deleteLoop res rs (r.fileId :: handled) (db1.record (.remove r.fileId))

/-- The catalog update of `Pack` after `AssembleCar` (lines 80-257). -/
def catalogUpdate {D : Type} (env : Env D) (fuel : Nat) (job : PackJob) (res : PackResult)
    (db : Db) : Res PackErr (List Car) :=
  match rangeLoop env.retries res job.fileRanges db with
  | .diverge => .diverge
  | .fail e _ db1 => .fail e [] db1
  | .ok _ db1 =>
    match DoRetry (Transaction (carTxBody job res.carResults)) env.retries [] db1 with
    | .diverge => .diverge
    | .fail _ _ db2 => .fail .failedToSaveCar [] db2
    | .ok cars db2 =>
      match DoRetry (Transaction (dirTxBody env.dag job res fuel)) env.retries () db2 with
      | .diverge => .diverge
      | .fail _ _ db3 => .fail .failedToUpdateDirectoryCIDs [] db3
      | .ok _ db3 => .ok cars db3

/-- Lines 259-296: the deletion of the source objects and the return of the cars. -/
def deleteStage (job : PackJob) (res : PackResult) (cars : List Car) (db : Db) : Outcome :=
  if job.deleteAfterExport then
    match res.carResults with
    | [] => .panicked db
    | cr :: _ =>
      if cr.carFilePath ≠ [] then
        match deleteLoop res job.fileRanges [] db with
        | (true, db1) => .success cars db1
        | (false, db1) => .panicked db1
      else .success cars db
  else .success cars db

/-- The function `Pack`.  The choice of the output directory (lines 60-69) is an
argument of `AssembleCar` only and has no part here. -/
def Pack {D : Type} (env : Env D) (fuel : Nat) (job : PackJob) (db : Db) : Outcome :=
  if env.Resolve then
    match env.AssembleCar job.fileRanges with
    | none => .failure .failedToPackFiles db
    | some res =>
      match catalogUpdate env fuel job res db with
      | .diverge => .diverge
      | .fail e _ db1 => .failure e db1
      | .ok cars db1 => deleteStage job res cars db1
  else .failure .failedToGetDatasourceHandler db

/-! ## A concrete instance of package `daggen` -/

/-- Modelled from the spec: the CID of a directory node or of a file node built
from links, which package `daggen` (not part of the sources at hand) computes
by hashing; here a positional code of the serialized state. -/
def codeCid (data : List Nat) : Cid :=
  data.foldl (fun h x => 31 * h + x + 1) 7

/-- Modelled from the spec: the UnixFS state of a directory, the links
`name → (cid, size)` of its children, one per name. -/
abbrev LinkNode := List (Nat × (Cid × Nat))

/-- Modelled from the spec: the name of a file as the key of its link. -/
def fileKey (name : List Char) : Nat :=
  2 * name.foldl (fun h ch => 1114112 * h + ch.toNat + 1) 0 + 1

/-- Modelled from the spec: the name of a child directory as the key of its link.
The name is a column of the row of the child, which `Pack` never writes; the id
of the row stands for it. -/
def dirKey (id : Nat) : Nat :=
  2 * id

/-- Modelled from the spec: `dir.setLink(name, cid, size)`; a link of that name
is replaced. -/
def setLink (node : LinkNode) (key : Nat) (c : Cid) (size : Nat) : LinkNode :=
  (key, (c, size)) :: node.filter (fun e => decide (e.1 ≠ key))

/-- Several links set one after the other. -/
def applyLinks (ws : List (Nat × (Cid × Nat))) (node : LinkNode) : LinkNode :=
  ws.foldl (fun n w => setLink n w.1 w.2.1 w.2.2) node

/-- Modelled from the spec: the serialized form of a directory state
(`MarshalBinary`). -/
def encodeLinks : LinkNode → List Nat
  | [] => []
  | (k, (c, s)) :: rest => k :: c :: s :: encodeLinks rest

/-- Modelled from the spec: `UnmarshallBinary`, with
`unmarshal (marshal dir) = dir`; data that is no serialized state is an error. -/
def decodeLinks : List Nat → Option LinkNode
  | [] => some []
  | [_] => none
  | [_, _] => none
  | k :: c :: s :: rest => (decodeLinks rest).map (fun l => (k, (c, s)) :: l)

/-- Modelled from the spec: the CID of a directory, computed from its state. -/
def linkNodeCid (node : LinkNode) : Cid :=
  codeCid (encodeLinks node)

/-- Modelled from the spec: the size of a directory, the sum of the sizes of its
links. -/
def linkNodeSize (node : LinkNode) : Nat :=
  (node.map (fun e => e.2.2)).sum

/-- Modelled from the spec: the CID of the file node built from the links of the
parts of a file. -/
def linksCid (links : List Link) : Cid :=
  codeCid (links.map (fun l => l.size + l.cid.getD 0))

/-- Modelled from the spec: the size of the file node built from the links of the
parts of a file. -/
def linksSize (links : List Link) : Nat :=
  (links.map (fun l => l.size)).sum

/-- The links `childName → (child.cid, child.size)` of the children `ks` of a
directory, once each child is resolved; `none` when a child is not. -/
def childLinks (resolved : Nat → Option LinkNode) : List Nat → Option (List (Nat × (Cid × Nat)))
  | [] => some []
  | k :: ks =>
    match resolved k, childLinks resolved ks with
    | some n, some ls => some ((dirKey k, (linkNodeCid n, linkNodeSize n)) :: ls)
    | _, _ => none

/-- Modelled from the spec: the post-order pass of `daggen.ResolveDirectoryTree`
(not part of the sources at hand) at directory `id`: its children in
`childrenCache` are resolved first, then the link of each child is set on the
directory.  `fuel` bounds the depth of the pass; a directory or a child missing
from the cache is an error. -/
def resolveNode (cache : List (Nat × DirectoryData LinkNode)) (children : List (Nat × List Nat)) :
    Nat → Nat → Option LinkNode
  | 0, _ => none
  | fuel + 1, id =>
    match cache.lookup id with
    | none => none
    | some dirData =>
      match childLinks (resolveNode cache children fuel) (mapGetList children id) with
      | none => none
      | some ls => some (applyLinks ls dirData.node)

/-- Modelled from the spec: the entries of the cache after the pass, each with
its resolved state. -/
def resolveAll (cache : List (Nat × DirectoryData LinkNode)) (children : List (Nat × List Nat))
    (fuel : Nat) : List (Nat × DirectoryData LinkNode) → Option (List (Nat × DirectoryData LinkNode))
  | [] => some []
  | (id, dirData) :: rest =>
    match resolveNode cache children fuel id, resolveAll cache children fuel rest with
    | some node, some out => some ((id, { dirData with node := node }) :: out)
    | _, _ => none

/-- Modelled from the spec: package `daggen`, which is not part of the sources at
hand.  The directory state is the map of its links; `AddFile` sets the link of a
file, `AddFileFromLinks` builds the file node from the links of its parts, sets
the link of the file and returns the CID of the file node;
`ResolveDirectoryTree` resolves every directory of the cache, all of which lie
under the root directory, where the pass starts. -/
def specDaggen : Daggen LinkNode where
  UnmarshallBinary := decodeLinks
  AddFile := fun node name c size => some (setLink node (fileKey name) c size)
  AddFileFromLinks := fun node name links =>
    some (setLink node (fileKey name) (linksCid links) (linksSize links), linksCid links)
  MarshalBinary := fun node => some (encodeLinks node)
  nodeCid := linkNodeCid
  ResolveDirectoryTree := fun _ cache children =>
    resolveAll cache children (cache.length + 1) cache

/-! ## Vocabulary of the statements -/

/-- The connection a call of `Pack` leaves behind, when it returns or panics. -/
def Outcome.final : Outcome → Option Db
  | .success _ db => some db
  | .failure _ db => some db
  | .panicked db => some db
  | .diverge => none

/-- The cars returned with a nil error. -/
def Outcome.returned : Outcome → Option (List Car)
  | .success cars _ => some cars
  | _ => none

/-- The error returned. -/
def Outcome.error : Outcome → Option PackErr
  | .failure e _ => some e
  | _ => none

/-- The connection of a result. -/
def Res.final {ε σ : Type} : Res ε σ → Option Db
  | .ok _ db => some db
  | .fail _ _ db => some db
  | .diverge => none

/-- The number of calls of `Remove` on the object of file `fid` recorded in a log. -/
def removeCount (fid : Nat) (log : List Event) : Nat :=
  log.count (.remove fid)

/-- Events of the catalog update, as opposed to those of the deletion step. -/
def Event.isUpdate : Event → Bool
  | .remove _ => false
  | .countFailed _ => false
  | _ => true

/-- Events that merge a file into a directory. -/
def Event.isMerge : Event → Bool
  | .addFile _ _ _ _ => true
  | .addFileFromLinks _ _ _ => true
  | _ => false

/-- Events that load a directory into `dirCache`. -/
def Event.isLoad : Event → Bool
  | .loadDir _ => true
  | _ => false

/-- The ranges `rs`, taken in the given order, tile the bytes from `start` to `size`. -/
def tiles : Nat → List FileRange → Nat → Bool
  | start, [], size => decide (start = size)
  | start, x :: xs, size => decide (x.offset = start) && tiles (start + x.length) xs size

/-- The data-model invariant on the ranges of file `fid` of size `size`: ordered
by offset they partition the bytes `[0, size)` without overlap; the parts of a
partition into several ranges are non-empty. -/
def Catalog.partitions (cat : Catalog) (fid : Nat) (size : Nat) : Bool :=
  let rs := cat.rangesOfFile fid
  tiles 0 rs size && (decide (rs.length = 1) || rs.all (fun x => decide (0 < x.length)))

/-- The in-memory range of a pack job agrees with the catalog: its row is in
`file_ranges` and the size of its preloaded file is the one of the row of `files`
with its file id. -/
def JobRange.inCatalog (cat : Catalog) (r : JobRange) : Prop :=
  (∃ row ∈ cat.fileRanges,
      row.id = r.id ∧ row.fileId = r.fileId ∧ row.offset = r.offset ∧ row.length = r.length) ∧
    ∃ f ∈ cat.files, f.id = r.fileId ∧ f.size = r.file.size

/-- Directory `k` is directory `d` or one of its ancestors along `parentId`. -/
inductive Reach (cat : Catalog) : Nat → Nat → Prop where
  | refl (d : Nat) : Reach cat d d
  | step {d p k : Nat} {dir : Directory} :
      cat.firstDirectory d = some dir → dir.parentId = some p → Reach cat p k → Reach cat d k

/-- The pure effect of the first loop of `Pack` on the catalog. -/
def applyRangeCids (res : PackResult) : List JobRange → Catalog → Catalog
  | [], cat => cat
  | r :: rs, cat =>
    match res.fileRangeCIDs.lookup r.id with
    | none => cat
    | some c =>
      let cat1 := cat.setRangeCid r.id c
      applyRangeCids res rs (if r.wholeFile then cat1.setFileCid r.fileId c else cat1)

/-! ## Concrete inputs -/

/-- File `sub/a` of 10 bytes in directory 11, packed as one range. -/
def fileA : File :=
  { id := 1, directoryId := some 11, path := ['s', 'u', 'b', '/', 'a'], size := 10, cid := none }

/-- File `b` of 20 bytes in the root directory 10, split into two ranges. -/
def fileB : File :=
  { id := 2, directoryId := some 10, path := ['b'], size := 20, cid := none }

/-- File `c` of 6 bytes without a directory, split into two ranges. -/
def fileC : File :=
  { id := 3, directoryId := none, path := ['c'], size := 6, cid := none }

/-- A catalog with three files, nothing packed yet. -/
def exCatalog : Catalog :=
  { files := [fileA, fileB, fileC],
    fileRanges := [⟨1, 1, 0, 10, none⟩, ⟨2, 2, 0, 8, none⟩, ⟨3, 2, 8, 12, none⟩,
      ⟨4, 3, 0, 3, none⟩, ⟨5, 3, 3, 3, none⟩],
    directories := [⟨10, none, none, [], true⟩, ⟨11, some 10, none, [], true⟩],
    cars := [],
    carBlocks := [],
    carSeq := 0 }

/-- A connection on the example catalog with a fault script. -/
def exDb (faults : List (Option Fault)) : Db :=
  { cat := exCatalog, faults := faults, log := [] }

/-- One CAR written to `path`. -/
def exCarResult (path : List Char) : CarResult :=
  { pieceCID := 900, pieceSize := 1024, rootCID := 901, carFileSize := 500,
    carFilePath := path, header := [1, 2], carBlocks := [⟨0, 101, 0, 1, 10⟩] }

/-- A result of `AssembleCar` with a CID for each of the five ranges. -/
def exResult (cars : List CarResult) : PackResult :=
  { fileRangeCIDs := [(1, 101), (2, 102), (3, 103), (4, 104), (5, 105)],
    carResults := cars,
    objects := [(1, 1), (2, 2), (3, 3)] }

/-- Collaborators returning the given result of `AssembleCar`. -/
def exEnv (res : PackResult) : Env LinkNode :=
  { Resolve := true, AssembleCar := fun _ => some res, retries := 9, dag := specDaggen }

/-- A pack job over the given ranges with `deleteAfterExport` set. -/
def exJob (ranges : List JobRange) : PackJob :=
  { id := 5, sourceId := 6, datasetId := 7, deleteAfterExport := true, fileRanges := ranges }

/-- The whole-file range of `sub/a`. -/
def rangeA : JobRange := ⟨1, 1, 0, 10, fileA⟩

/-- The first range of `b`. -/
def rangeB1 : JobRange := ⟨2, 2, 0, 8, fileB⟩

/-- The second range of `b`. -/
def rangeB2 : JobRange := ⟨3, 2, 8, 12, fileB⟩

/-- The first range of `c`. -/
def rangeC1 : JobRange := ⟨4, 3, 0, 3, fileC⟩

/-- The second range of `c`. -/
def rangeC2 : JobRange := ⟨5, 3, 3, 3, fileC⟩

/-- The catalog invariant on `File.cid` as a test: the cid of every file is set
exactly when all ranges of the file have a cid. -/
def Catalog.fileCidIffAllRanges (cat : Catalog) : Bool :=
  cat.files.all (fun f =>
    f.cid.isSome == (cat.fileRanges.filter (fun r => decide (r.fileId = f.id))).all
      (fun r => r.cid.isSome))

/-! ## Invariants of results -/

/-- Both the catalog and the log of the connection a result carries satisfy the
given properties; nothing is asked of a loop that does not end. -/
def Res.All {ε σ : Type} (J : Catalog → Prop) (K : List Event → Prop) : Res ε σ → Prop
  | .ok _ db => J db.cat ∧ K db.log
  | .fail _ _ db => J db.cat ∧ K db.log
  | .diverge => True

/-- The same for the result of `loadDir`. -/
def Loaded.All {D : Type} (J : Catalog → Prop) (K : List Event → Prop) : Loaded D → Prop
  | .ok _ _ db => J db.cat ∧ K db.log
  | .fail _ _ db => J db.cat ∧ K db.log

/-- A property of the catalog kept by the updates of cid columns. -/
def CidStable (J : Catalog → Prop) : Prop :=
  (∀ cat id c, J cat → J (cat.setRangeCid id c)) ∧ (∀ cat id c, J cat → J (cat.setFileCid id c))

/-- A property of the catalog kept by the insertion of cars and car blocks. -/
def CarStable (J : Catalog → Prop) : Prop :=
  (∀ cat car, J cat → J (cat.createCar car)) ∧ (∀ cat bs, J cat → J (cat.createCarBlocks bs))

/-- A property of the catalog kept by the update of a directory. -/
def DirStable (J : Catalog → Prop) : Prop :=
  ∀ cat id c bytes, J cat → J (cat.updateDirectory id c bytes)

/-- A property of the log kept when an event of the catalog update is appended. -/
def LogStable (K : List Event → Prop) : Prop :=
  ∀ l e, e.isUpdate = true → K l → K (l ++ [e])

/-- The cid of the range row `id` after the first loop of `Pack`, from its cid before. -/
def rangeCidAfter (res : PackResult) : List JobRange → Nat → Option Cid → Option Cid
  | [], _, c0 => c0
  | r :: rs, id, c0 =>
    match res.fileRangeCIDs.lookup r.id with
    | none => c0
    | some c => rangeCidAfter res rs id (if id = r.id then some c else c0)

/-- The cid of the file row `id` after the first loop of `Pack`, from its cid before. -/
def fileCidAfter (res : PackResult) : List JobRange → Nat → Option Cid → Option Cid
  | [], _, c0 => c0
  | r :: rs, id, c0 =>
    match res.fileRangeCIDs.lookup r.id with
    | none => c0
    | some c => fileCidAfter res rs id (if r.wholeFile = true ∧ id = r.fileId then some c else c0)

/-- The directories loaded according to a log, in order. -/
def loadedDirs (log : List Event) : List Nat :=
  log.filterMap (fun e => match e with
    | .loadDir d => some d
    | _ => none)

/-- The directory rows held in `dirCache`, by key. -/
def dirsOf {D : Type} (m : List (Nat × DirectoryData D)) : List (Nat × Directory) :=
  m.map (fun kv => (kv.1, kv.2.directory))

/-- The chain of `parentId` from `dirID` ends within `fuel` directories. -/
def chainWithin (cat : Catalog) : Nat → Option Nat → Bool
  | _, none => true
  | 0, some _ => false
  | n + 1, some d =>
    match cat.firstDirectory d with
    | none => true
    | some dir => chainWithin cat n dir.parentId

/-- The loop invariant of the directory walk: no directory row has changed; the
keys of `dirCache` are the directories loaded so far, each once; every entry
holds the row of its key; and `childrenCache[p]` lists the keys of the entries
whose parent is `p`. -/
def WalkInv {D : Type} (cat : Catalog) (l0 : List Nat) (st : WalkState D) (db : Db) : Prop :=
  db.cat.directories = cat.directories ∧
  loadedDirs db.log = l0 ++ st.dirCache.map Prod.fst ∧
  (st.dirCache.map Prod.fst).Nodup ∧
  (∀ kd ∈ dirsOf st.dirCache, cat.firstDirectory kd.1 = some kd.2) ∧
  (∀ p, mapGetList st.childrenCache p =
    ((dirsOf st.dirCache).filter (fun kd => decide (kd.2.parentId = some p))).map Prod.fst)

/-- Where a value written to `File.cid` of file `fid` by a run of `Pack` on
catalog `cat` comes from: a range `r` of the job with that file id; for a
whole-file `r` the value is the cid of the range, `result.FileRangeCIDs[r.id]`;
for any other `r` every range of the file has a cid once the first loop is done
and the value is the cid returned by `AddFileFromLinks` for the name of the file
and the links of all its ranges. -/
def FileCidSource {D : Type} (dag : Daggen D) (res : PackResult) (job : PackJob)
    (cat : Catalog) (fid : Nat) (c1 : Cid) : Prop :=
  ∃ r ∈ job.fileRanges, fid = r.fileId ∧ ∃ c, res.fileRangeCIDs.lookup r.id = some c ∧
    ((r.wholeFile = true ∧ c1 = c) ∨
     (r.wholeFile = false ∧ ∃ (dirData : DirectoryData D) (node : D),
        ((applyRangeCids res job.fileRanges cat).rangesOfFile r.fileId).all
          (fun p => p.cid.isSome) = true ∧
        dag.AddFileFromLinks dirData.node (baseName r.file.path)
          (linksOf ((applyRangeCids res job.fileRanges cat).rangesOfFile r.fileId)) =
            some (node, c1)))

/-- The log `l` extends `l0` by events whose writes of `File.cid` all satisfy `P`. -/
def WritesFrom (P : Nat → Cid → Prop) (l0 l : List Event) : Prop :=
  ∃ evs, l = l0 ++ evs ∧ ∀ fid c1, Event.setFileCid fid c1 ∈ evs → P fid c1

/-! ## Definitions for the second application of the catalog update -/

/-- Several writes of `File.cid`, one after the other, on the rows of table `files`. -/
def applyFileCids (ws : List (Nat × Cid)) (fs : List File) : List File :=
  ws.foldl (fun acc w => acc.map (fun f => if f.id = w.1 then { f with cid := some w.2 } else f)) fs

/-- The cid of the file row `id` after the writes `ws`, from its cid before. -/
def cidAfterWrites (ws : List (Nat × Cid)) (id : Nat) (c0 : Option Cid) : Option Cid :=
  ws.foldl (fun acc w => if id = w.1 then some w.2 else acc) c0

/-- What the update of the parent directory of range `r` writes when it succeeds
with `specDaggen` on catalog `cat`: the links set on the directory and the cids
written to `File.cid`. -/
def mergeWrites (res : PackResult) (r : JobRange) (cat : Catalog) :
    List (Nat × (Cid × Nat)) × List (Nat × Cid) :=
  match res.fileRangeCIDs.lookup r.id with
  | none => ([], [])
  | some c =>
    if r.wholeFile then ([(fileKey (baseName r.file.path), (c, r.length))], [])
    else
      let links := linksOf ((cat.setRangeCid r.id c).rangesOfFile r.fileId)
      if ((cat.setRangeCid r.id c).rangesOfFile r.fileId).all (fun p => p.cid.isSome) then
        ([(fileKey (baseName r.file.path), (linksCid links, linksSize links))],
          [(r.fileId, linksCid links)])
      else ([], [])

/-- The row of a directory once the resolved state `node` is written back. -/
def writtenRow (node : LinkNode) (row : Directory) : Directory :=
  { row with cid := some (linkNodeCid node), data := encodeLinks node, exported := false }

/-- The pure effect on the catalog of writing back the directories of the cache. -/
def writeBack (cache : List (Nat × DirectoryData LinkNode)) (cat : Catalog) : Catalog :=
  cache.foldl (fun acc e =>
    acc.updateDirectory e.1 (linkNodeCid e.2.node) (encodeLinks e.2.node)) cat

/-- The state of directory `d` as unmarshalled from table `directories`. -/
def nodeOf (ds : List Directory) (d : Nat) : Option LinkNode :=
  (ds.find? (fun row => decide (row.id = d))).bind (fun row => decodeLinks row.data)

/-- Two entries of `dirCache`, one of each of two runs of the walk on the
directory tables `dA` and `dB`: the same key and parent, and states made from the
unmarshalled ones by the same links. -/
def EntryRel (dA dB : List Directory) (ea eb : Nat × DirectoryData LinkNode) : Prop :=
  ea.1 = eb.1 ∧ ea.2.directory.parentId = eb.2.directory.parentId ∧
  ∃ ws na nb, nodeOf dA ea.1 = some na ∧ nodeOf dB eb.1 = some nb ∧
    ea.2.node = applyLinks ws na ∧ eb.2.node = applyLinks ws nb

/-- Two runs of the walk in step: related caches, the same `childrenCache`, the
same table `file_ranges`, unchanged directory tables, and tables `files` made from
the initial ones by the same writes. -/
def Sim (F : List FileRange) (dA dB : List Directory) (fA fB : List File)
    (sa sb : WalkState LinkNode) (ca cb : Catalog) : Prop :=
  List.Forall₂ (EntryRel dA dB) sa.dirCache sb.dirCache ∧
  sa.childrenCache = sb.childrenCache ∧
  ca.fileRanges = F ∧ cb.fileRanges = F ∧
  ca.directories = dA ∧ cb.directories = dB ∧
  ∃ wl, ca.files = applyFileCids wl fA ∧ cb.files = applyFileCids wl fB

/-! ## The connection -/

theorem Db.next_cat (db : Db) : db.next.2.cat = db.cat := by
  unfold Db.next; split <;> rfl

theorem Db.next_log (db : Db) : db.next.2.log = db.log := by
  unfold Db.next; split <;> rfl

theorem Db.next_eq {db db1 : Db} {f : Option Fault} (h : db.next = (f, db1)) :
    db1.cat = db.cat ∧ db1.log = db.log := by
  have h2 : db1 = db.next.2 := by rw [h]
  subst h2
  exact ⟨Db.next_cat db, Db.next_log db⟩

/-! ## Invariants through retries and transactions -/

theorem DoRetry_All {σ : Type} {J : Catalog → Prop} {K : List Event → Prop}
    (op : σ → Db → Res Fault σ)
    (hop : ∀ s db, J db.cat → K db.log → (op s db).All J K) :
    ∀ n s db, J db.cat → K db.log → (DoRetry op n s db).All J K := by
  intro n
  induction n with
  | zero => intro s db hJ hK; simpa [DoRetry] using hop s db hJ hK
  | succ n ih =>
    intro s db hJ hK
    have h := hop s db hJ hK
    unfold DoRetry
    split
    · next s1 db1 heq =>
      rw [heq] at h
      exact ih s1 db1 h.1 h.2
    · exact h

theorem Transaction_All {σ : Type} {J : Catalog → Prop} {K : List Event → Prop}
    (body : σ → Db → Res Fault σ)
    (hbody : ∀ s db, J db.cat → K db.log → (body s db).All J K)
    (s : σ) (db : Db) (hJ : J db.cat) (hK : K db.log) :
    (Transaction body s db).All J K := by
  have h := hbody s db hJ hK
  unfold Transaction
  split
  · next s1 db1 heq =>
    rw [heq] at h
    split
    · next e db2 hn =>
      have := Db.next_eq hn
      exact ⟨hJ, by simpa [this.2] using h.2⟩
    · next db2 hn =>
      have := Db.next_eq hn
      exact ⟨by simpa [this.1] using h.1, by simpa [this.2] using h.2⟩
  · next e s1 db1 heq =>
    rw [heq] at h
    exact ⟨hJ, h.2⟩
  · trivial

/-- A failed transaction leaves the catalog as it was, also after retries. -/
theorem DoRetry_Transaction_fail {σ : Type} (body : σ → Db → Res Fault σ) :
    ∀ n s db e s1 db1, DoRetry (Transaction body) n s db = .fail e s1 db1 → db1.cat = db.cat := by
  have htx : ∀ s db e s1 db1, Transaction body s db = .fail e s1 db1 → db1.cat = db.cat := by
    intro s db e s1 db1 h
    unfold Transaction at h
    split at h
    · split at h
      · cases h; rfl
      · cases h
    · cases h; rfl
    · cases h
  intro n
  induction n with
  | zero => intro s db e s1 db1 h; exact htx s db e s1 db1 (by simpa [DoRetry] using h)
  | succ n ih =>
    intro s db e s1 db1 h
    unfold DoRetry at h
    split at h
    · next s2 db2 heq =>
      rw [ih s2 db2 e s1 db1 h]
      exact htx s db _ s2 db2 heq
    · exact htx s db e s1 db1 h

@[simp] theorem Db.write_cat (db : Db) (f : Catalog → Catalog) : (db.write f).cat = f db.cat := rfl

@[simp] theorem Db.write_log (db : Db) (f : Catalog → Catalog) : (db.write f).log = db.log := rfl

@[simp] theorem Db.record_cat (db : Db) (e : Event) : (db.record e).cat = db.cat := rfl

@[simp] theorem Db.record_log (db : Db) (e : Event) : (db.record e).log = db.log ++ [e] := rfl

/-! ## Invariants through the stages of the catalog update -/

theorem updateRangeCid_All {J : Catalog → Prop} {K : List Event → Prop} (hJ : CidStable J)
    (id : Nat) (c : Cid) (s : Unit) (db : Db) (h1 : J db.cat) (h2 : K db.log) :
    (updateRangeCid id c s db).All J K := by
  unfold updateRangeCid
  split
  · next e db1 hn =>
    have := Db.next_eq hn
    simp only [Res.All, this.1, this.2]; exact ⟨h1, h2⟩
  · next db1 hn =>
    have := Db.next_eq hn
    simp only [Res.All, Db.write_cat, Db.write_log, this.1, this.2]
    exact ⟨hJ.1 _ _ _ h1, h2⟩

theorem updateFileCid_All {J : Catalog → Prop} {K : List Event → Prop} (hJ : CidStable J)
    (hK : LogStable K) (id : Nat) (c : Cid) (s : Unit) (db : Db) (h1 : J db.cat)
    (h2 : K db.log) : (updateFileCid id c s db).All J K := by
  unfold updateFileCid
  split
  · next e db1 hn =>
    have := Db.next_eq hn
    simp only [Res.All, this.1, this.2]; exact ⟨h1, h2⟩
  · next db1 hn =>
    have := Db.next_eq hn
    simp only [Res.All, Db.write_cat, Db.write_log, Db.record_cat, Db.record_log, this.1, this.2]
    exact ⟨hJ.2 _ _ _ h1, hK _ _ rfl h2⟩

theorem rangeLoop_All {J : Catalog → Prop} {K : List Event → Prop} (hJ : CidStable J)
    (hK : LogStable K) (retries : Nat) (res : PackResult) :
    ∀ (rs : List JobRange) (db : Db), J db.cat → K db.log →
      (rangeLoop retries res rs db).All J K := by
  intro rs
  induction rs with
  | nil => intro db h1 h2; exact ⟨h1, h2⟩
  | cons r rs ih =>
    intro db h1 h2
    unfold rangeLoop
    split
    · exact ⟨h1, h2⟩
    · next c _ =>
      have hr := DoRetry_All (updateRangeCid r.id c)
        (fun s db a b => updateRangeCid_All hJ r.id c s db a b) retries () db h1 h2
      split
      · trivial
      · next heq => rw [heq] at hr; exact hr
      · next db1 heq =>
        rw [heq] at hr
        split
        · have hf := DoRetry_All (updateFileCid r.fileId c)
            (fun s db a b => updateFileCid_All hJ hK r.fileId c s db a b) retries () db1 hr.1 hr.2
          split
          · trivial
          · next heq2 => rw [heq2] at hf; exact hf
          · next db2 heq2 => rw [heq2] at hf; exact ih db2 hf.1 hf.2
        · exact ih db1 hr.1 hr.2

theorem carTxBody_All {J : Catalog → Prop} {K : List Event → Prop} (hJ : CarStable J)
    (job : PackJob) :
    ∀ (crs : List CarResult) (cars : List Car) (db : Db), J db.cat → K db.log →
      (carTxBody job crs cars db).All J K := by
  intro crs
  induction crs with
  | nil => intro cars db h1 h2; exact ⟨h1, h2⟩
  | cons cr crs ih =>
    intro cars db h1 h2
    unfold carTxBody
    split
    · next e db1 hn =>
      have := Db.next_eq hn
      simp only [Res.All, this.1, this.2]; exact ⟨h1, h2⟩
    · next db1 hn =>
      have h := Db.next_eq hn
      dsimp only
      split
      · next e db3 hn3 =>
        have h3 := Db.next_eq hn3
        simp only [Db.write_cat, Db.write_log] at h3
        simp only [Res.All, h3.1, h3.2, h.1, h.2]
        exact ⟨hJ.1 _ _ h1, h2⟩
      · next db3 hn3 =>
        have h3 := Db.next_eq hn3
        simp only [Db.write_cat, Db.write_log] at h3
        apply ih
        · simp only [Db.write_cat, h3.1, h.1]
          exact hJ.2 _ _ (hJ.1 _ _ h1)
        · simp only [Db.write_log, h3.2, h.2]; exact h2

theorem loadDir_All {D : Type} {J : Catalog → Prop} {K : List Event → Prop}
    (hK : LogStable K) (dag : Daggen D) (d : Nat) (st : WalkState D) (db : Db)
    (h1 : J db.cat) (h2 : K db.log) : (loadDir dag d st db).All J K := by
  unfold loadDir
  split
  · exact ⟨h1, h2⟩
  · split
    · next e db1 hn =>
      have := Db.next_eq hn
      simp only [Loaded.All, this.1, this.2]; exact ⟨h1, h2⟩
    · next db1 hn =>
      have := Db.next_eq hn
      split
      · simp only [Loaded.All, this.1, this.2]; exact ⟨h1, h2⟩
      · split
        · simp only [Loaded.All, this.1, this.2]; exact ⟨h1, h2⟩
        · simp only [Loaded.All, Db.record_cat, Db.record_log, this.1, this.2]
          exact ⟨h1, hK _ _ rfl h2⟩

theorem mergeRange_All {D : Type} {J : Catalog → Prop} {K : List Event → Prop}
    (hJ : CidStable J) (hK : LogStable K) (dag : Daggen D) (res : PackResult) (r : JobRange)
    (d : Nat) (dirData : DirectoryData D) (db : Db) (h1 : J db.cat) (h2 : K db.log) :
    (mergeRange dag res r d dirData db).All J K := by
  unfold mergeRange
  split
  · exact ⟨h1, h2⟩
  · next c _ =>
    split
    · next e db1 hn =>
      have := Db.next_eq hn
      simp only [Res.All, this.1, this.2]; exact ⟨h1, h2⟩
    · next db1 hn =>
      have h := Db.next_eq hn
      have hJ1 : J (db1.write (fun cat => cat.setRangeCid r.id c)).cat := by
        simp only [Db.write_cat, h.1]; exact hJ.1 _ _ _ h1
      have hK1 : K (db1.write (fun cat => cat.setRangeCid r.id c)).log := by
        simp only [Db.write_log, h.2]; exact h2
      dsimp only
      split
      · split
        · exact ⟨hJ1, hK _ _ rfl hK1⟩
        · exact ⟨hJ1, hK _ _ rfl hK1⟩
      · split
        · next e db3 hn3 =>
          have h3 := Db.next_eq hn3
          simp only [Res.All, h3.1, h3.2]; exact ⟨hJ1, hK1⟩
        · next db3 hn3 =>
          have h3 := Db.next_eq hn3
          split
          · split
            · simp only [Res.All, Db.record_cat, Db.record_log, h3.1, h3.2]
              exact ⟨hJ1, hK _ _ rfl hK1⟩
            · split
              · next e db5 hn5 =>
                have h5 := Db.next_eq hn5
                simp only [Db.record_cat, Db.record_log] at h5
                simp only [Res.All, h5.1, h5.2, h3.1, h3.2]
                exact ⟨hJ1, hK _ _ rfl hK1⟩
              · next db5 hn5 =>
                have h5 := Db.next_eq hn5
                simp only [Db.record_cat, Db.record_log] at h5
                simp only [Res.All, Db.record_cat, Db.record_log, Db.write_cat, Db.write_log,
                  h5.1, h5.2, h3.1, h3.2]
                exact ⟨hJ.2 _ _ _ hJ1, hK _ _ rfl (hK _ _ rfl hK1)⟩
          · simp only [Res.All, h3.1, h3.2]; exact ⟨hJ1, hK1⟩

theorem walk_All {D : Type} {J : Catalog → Prop} {K : List Event → Prop}
    (hJ : CidStable J) (hK : LogStable K) (dag : Daggen D) (res : PackResult) (r : JobRange) :
    ∀ (fuel : Nat) (first : Bool) (dirID : Option Nat) (st : WalkState D) (db : Db),
      J db.cat → K db.log → (walk dag res r fuel first dirID st db).All J K := by
  intro fuel
  induction fuel with
  | zero =>
    intro first dirID st db h1 h2
    cases dirID with
    | none => simp only [walk]; exact ⟨h1, h2⟩
    | some d => simp only [walk]; trivial
  | succ fuel ih =>
    intro first dirID st db h1 h2
    cases dirID with
    | none => simp only [walk]; exact ⟨h1, h2⟩
    | some d =>
      simp only [walk]
      have hl := loadDir_All (J := J) hK dag d st db h1 h2
      split
      · next e st1 db1 heq => rw [heq] at hl; exact hl
      · next dirData st1 db1 heq =>
        rw [heq] at hl
        split
        · have hm := mergeRange_All hJ hK dag res r d dirData db1 hl.1 hl.2
          split
          · trivial
          · next heq2 => rw [heq2] at hm; exact hm
          · next dirData2 db2 heq2 => rw [heq2] at hm; exact ih _ _ _ _ hm.1 hm.2
        · exact ih _ _ _ _ hl.1 hl.2

theorem walkRanges_All {D : Type} {J : Catalog → Prop} {K : List Event → Prop}
    (hJ : CidStable J) (hK : LogStable K) (dag : Daggen D) (res : PackResult) (fuel : Nat) :
    ∀ (rs : List JobRange) (st : WalkState D) (db : Db),
      J db.cat → K db.log → (walkRanges dag res fuel rs st db).All J K := by
  intro rs
  induction rs with
  | nil => intro st db h1 h2; exact ⟨h1, h2⟩
  | cons r rs ih =>
    intro st db h1 h2
    have hw := walk_All hJ hK dag res r fuel true r.file.directoryId st db h1 h2
    unfold walkRanges
    split
    · next st1 db1 heq => rw [heq] at hw; exact ih st1 db1 hw.1 hw.2
    · exact hw

theorem updateDirectories_All {D : Type} {J : Catalog → Prop} {K : List Event → Prop}
    (hJ : DirStable J) (dag : Daggen D) :
    ∀ (cache : List (Nat × DirectoryData D)) (db : Db),
      J db.cat → K db.log → (updateDirectories dag cache db).All J K := by
  intro cache
  induction cache with
  | nil => intro db h1 h2; exact ⟨h1, h2⟩
  | cons kv rest ih =>
    intro db h1 h2
    obtain ⟨id, dirData⟩ := kv
    unfold updateDirectories
    split
    · exact ⟨h1, h2⟩
    · split
      · next e db1 hn =>
        have := Db.next_eq hn
        simp only [Res.All, this.1, this.2]; exact ⟨h1, h2⟩
      · next db1 hn =>
        have := Db.next_eq hn
        apply ih
        · simp only [Db.write_cat, this.1]; exact hJ _ _ _ _ h1
        · simp only [Db.write_log, this.2]; exact h2

theorem dirTxBody_All {D : Type} {J : Catalog → Prop} {K : List Event → Prop}
    (hJ : CidStable J) (hD : DirStable J) (hK : LogStable K) (dag : Daggen D) (job : PackJob)
    (res : PackResult) (fuel : Nat) (s : Unit) (db : Db) (h1 : J db.cat) (h2 : K db.log) :
    (dirTxBody dag job res fuel s db).All J K := by
  unfold dirTxBody
  have hw := walkRanges_All hJ hK dag res fuel job.fileRanges
    { dirCache := [], childrenCache := [] } db h1 h2
  split
  · trivial
  · next heq => rw [heq] at hw; exact hw
  · next st db1 heq =>
    rw [heq] at hw
    split
    · next e db2 hn =>
      have := Db.next_eq hn
      simp only [Res.All, this.1, this.2]; exact hw
    · next db2 hn =>
      have := Db.next_eq hn
      split
      · simp only [Res.All, this.1, this.2]; exact hw
      · split
        · simp only [Res.All, this.1, this.2]; exact hw
        · apply updateDirectories_All hD
          · rw [this.1]; exact hw.1
          · rw [this.2]; exact hw.2

/-- Every property of the catalog kept by all writes and every property of the
log kept by update events holds after the catalog update, however it ends. -/
theorem catalogUpdate_All {D : Type} {J : Catalog → Prop} {K : List Event → Prop}
    (hJ : CidStable J) (hC : CarStable J) (hD : DirStable J) (hK : LogStable K)
    (env : Env D) (fuel : Nat) (job : PackJob) (res : PackResult) (db : Db)
    (h1 : J db.cat) (h2 : K db.log) : (catalogUpdate env fuel job res db).All J K := by
  unfold catalogUpdate
  have hr := rangeLoop_All hJ hK env.retries res job.fileRanges db h1 h2
  split
  · trivial
  · next heq => rw [heq] at hr; exact hr
  · next db1 heq =>
    rw [heq] at hr
    have hc := DoRetry_All (Transaction (carTxBody job res.carResults))
      (fun s db a b => Transaction_All _ (fun s db a b => carTxBody_All hC job _ s db a b) s db a b)
      env.retries [] db1 hr.1 hr.2
    split
    · trivial
    · next heq2 => rw [heq2] at hc; exact hc
    · next cars db2 heq2 =>
      rw [heq2] at hc
      have hd := DoRetry_All (Transaction (dirTxBody env.dag job res fuel))
        (fun s db a b => Transaction_All _
          (fun s db a b => dirTxBody_All hJ hD hK env.dag job res fuel s db a b) s db a b)
        env.retries () db2 hc.1 hc.2
      split
      · trivial
      · next heq3 => rw [heq3] at hd; exact hd
      · next db3 heq3 => rw [heq3] at hd; exact hd

/-! ## Failure of `Pack` -/

theorem rangeLoop_fail_error (retries : Nat) (res : PackResult) :
    ∀ (rs : List JobRange) (db : Db) (e : PackErr) (s : Unit) (db1 : Db),
      rangeLoop retries res rs db = .fail e s db1 →
      e = .filePartNotFound ∨ e = .failedToUpdateCidOfFile := by
  intro rs
  induction rs with
  | nil => intro db e s db1 h; simp [rangeLoop] at h
  | cons r rs ih =>
    intro db e s db1 h
    unfold rangeLoop at h
    split at h
    · cases h; exact Or.inl rfl
    · split at h
      · cases h
      · cases h; exact Or.inr rfl
      · split at h
        · split at h
          · cases h
          · cases h; exact Or.inr rfl
          · exact ih _ _ _ _ h
        · exact ih _ _ _ _ h

theorem removeCount_of_update_events (fid : Nat) (l evs : List Event)
    (h : ∀ ev ∈ evs, ev.isUpdate = true) : removeCount fid (l ++ evs) = removeCount fid l := by
  unfold removeCount
  rw [List.count_append]
  have : List.count (Event.remove fid) evs = 0 := by
    rw [List.count_eq_zero]
    intro hmem
    have := h _ hmem
    simp [Event.isUpdate] at this
  omega

theorem logStable_ext (l0 : List Event) :
    LogStable (fun l => ∃ evs, l = l0 ++ evs ∧ ∀ ev ∈ evs, ev.isUpdate = true) := by
  intro l e he h
  obtain ⟨evs, rfl, hall⟩ := h
  refine ⟨evs ++ [e], by simp, ?_⟩
  intro ev hev
  rcases List.mem_append.1 hev with h1 | h1
  · exact hall ev h1
  · simp at h1; subst h1; exact he

theorem logStable_true : LogStable (fun _ => True) := fun _ _ _ _ => trivial

theorem catalogUpdate_fail {D : Type} (env : Env D) (fuel : Nat) (job : PackJob)
    (res : PackResult) (db : Db) (e : PackErr) (s : List Car) (db1 : Db)
    (h : catalogUpdate env fuel job res db = .fail e s db1) :
    db1.cat.directories = db.cat.directories ∧
    e ≠ .failedToGetDatasourceHandler ∧ e ≠ .failedToPackFiles ∧
    (e ≠ .failedToUpdateDirectoryCIDs →
      db1.cat.cars = db.cat.cars ∧ db1.cat.carBlocks = db.cat.carBlocks) := by
  have hJ : CidStable (fun cat => cat.directories = db.cat.directories ∧
      cat.cars = db.cat.cars ∧ cat.carBlocks = db.cat.carBlocks) :=
    ⟨fun _ _ _ h => h, fun _ _ _ h => h⟩
  have hC : CarStable (fun cat => cat.directories = db.cat.directories) :=
    ⟨fun _ _ h => h, fun _ _ h => h⟩
  have hr := rangeLoop_All hJ logStable_true env.retries res job.fileRanges db ⟨rfl, rfl, rfl⟩
    trivial
  unfold catalogUpdate at h
  split at h
  · cases h
  · next e1 s1 db2 heq =>
    cases h
    rw [heq] at hr
    have he := rangeLoop_fail_error _ _ _ _ _ _ _ heq
    refine ⟨hr.1.1, ?_, ?_, fun _ => hr.1.2⟩ <;> rcases he with he | he <;> simp [he]
  · next db2 heq =>
    rw [heq] at hr
    have hc := DoRetry_All (K := fun _ => True) (Transaction (carTxBody job res.carResults))
      (fun s db a b => Transaction_All _ (fun s db a b => carTxBody_All hC job _ s db a b) s db a b)
      env.retries [] db2 hr.1.1 trivial
    split at h
    · cases h
    · next e2 s2 db3 heq2 =>
      cases h
      have := DoRetry_Transaction_fail _ _ _ _ _ _ _ heq2
      rw [this]
      exact ⟨hr.1.1, by simp, by simp, fun _ => hr.1.2⟩
    · next cars db3 heq2 =>
      rw [heq2] at hc
      split at h
      · cases h
      · next e3 s3 db4 heq3 =>
        cases h
        have := DoRetry_Transaction_fail _ _ _ _ _ _ _ heq3
        rw [this]
        exact ⟨hc.1, by simp, by simp, fun hne => absurd rfl hne⟩
      · cases h

theorem catalogUpdate_log {D : Type} (env : Env D) (fuel : Nat) (job : PackJob)
    (res : PackResult) (db : Db) :
    (catalogUpdate env fuel job res db).All (fun _ => True)
      (fun l => ∃ evs, l = db.log ++ evs ∧ ∀ ev ∈ evs, ev.isUpdate = true) :=
  catalogUpdate_All ⟨fun _ _ _ _ => trivial, fun _ _ _ _ => trivial⟩
    ⟨fun _ _ _ => trivial, fun _ _ _ => trivial⟩ (fun _ _ _ _ _ => trivial)
    (logStable_ext db.log) env fuel job res db trivial ⟨[], by simp, by simp⟩

/-- C4 (amended): whenever `Pack` returns an error, `Remove` has not been called on
any source object and table `directories` is as before the call; after a failure
of handler resolution or of `AssembleCar` the whole connection is as before; and
unless the error is the one of the directory transaction, tables `cars` and
`car_blocks` are as before.  (The cids written by the first loop are not undone,
and the cars stay when the directory transaction fails.) -/
theorem Pack_error_state {D : Type} (env : Env D) (fuel : Nat) (job : PackJob) (db : Db)
    (e : PackErr) (db1 : Db) (h : Pack env fuel job db = Outcome.failure e db1) :
    (∀ fid, removeCount fid db1.log = removeCount fid db.log) ∧
    db1.cat.directories = db.cat.directories ∧
    (e = .failedToGetDatasourceHandler ∨ e = .failedToPackFiles → db1 = db) ∧
    (e ≠ .failedToUpdateDirectoryCIDs →
      db1.cat.cars = db.cat.cars ∧ db1.cat.carBlocks = db.cat.carBlocks) := by
  unfold Pack at h
  split at h
  · split at h
    · cases h
      exact ⟨fun _ => rfl, rfl, fun _ => rfl, fun _ => ⟨rfl, rfl⟩⟩
    · next res hres =>
      split at h
      · cases h
      · next e1 s1 db2 heq =>
        cases h
        have hf := catalogUpdate_fail env fuel job res db _ _ _ heq
        have hl := catalogUpdate_log env fuel job res db
        rw [heq] at hl
        obtain ⟨evs, hlog, hall⟩ := hl.2
        refine ⟨fun fid => ?_, hf.1, ?_, hf.2.2.2⟩
        · rw [hlog]; exact removeCount_of_update_events fid _ _ hall
        · intro he
          rcases he with he | he
          · exact absurd he hf.2.1
          · exact absurd he hf.2.2.1
      · next cars db2 heq =>
        unfold deleteStage at h
        split at h
        · split at h
          · cases h
          · split at h
            · split at h <;> cases h
            · cases h
        · cases h
  · cases h
    exact ⟨fun _ => rfl, rfl, fun _ => rfl, fun _ => ⟨rfl, rfl⟩⟩

/-- Witness of `Pack_error_state`: the run whose CAR-insert transaction fails. -/
theorem Pack_error_state_witness :
    ∃ db1, Pack (exEnv (exResult [exCarResult ['x']])) 4 (exJob [rangeA])
        (exDb [none, none, some Fault.fatal]) = Outcome.failure PackErr.failedToSaveCar db1 ∧
      (∀ fid, removeCount fid db1.log = removeCount fid (exDb [none, none, some Fault.fatal]).log) ∧
      db1.cat.directories = exCatalog.directories ∧
      db1.cat.cars = [] :=
  ⟨_, rfl,
    (Pack_error_state (exEnv (exResult [exCarResult ['x']])) 4 (exJob [rangeA])
      (exDb [none, none, some Fault.fatal]) _ _ rfl).1,
    (Pack_error_state (exEnv (exResult [exCarResult ['x']])) 4 (exJob [rangeA])
      (exDb [none, none, some Fault.fatal]) _ _ rfl).2.1,
    ((Pack_error_state (exEnv (exResult [exCarResult ['x']])) 4 (exJob [rangeA])
      (exDb [none, none, some Fault.fatal]) _ _ rfl).2.2.2 (by decide)).1⟩

/-! ## The first loop: exact effect and idempotence -/

theorem updateRangeCid_fail {id : Nat} {c : Cid} {s s1 : Unit} {db db1 : Db} {e : Fault}
    (h : updateRangeCid id c s db = .fail e s1 db1) : db1.cat = db.cat ∧ db1.log = db.log := by
  unfold updateRangeCid at h
  split at h
  · next hn => cases h; exact Db.next_eq hn
  · cases h

theorem updateRangeCid_ok {id : Nat} {c : Cid} {s s1 : Unit} {db db1 : Db}
    (h : updateRangeCid id c s db = .ok s1 db1) :
    db1.cat = db.cat.setRangeCid id c ∧ db1.log = db.log := by
  unfold updateRangeCid at h
  split at h
  · cases h
  · next hn =>
    cases h
    have := Db.next_eq hn
    simp [this.1, this.2]

theorem DoRetry_updateRangeCid_ok (id : Nat) (c : Cid) :
    ∀ (n : Nat) (s s1 : Unit) (db db1 : Db),
      DoRetry (updateRangeCid id c) n s db = .ok s1 db1 →
      db1.cat = db.cat.setRangeCid id c ∧ db1.log = db.log := by
  intro n
  induction n with
  | zero => intro s s1 db db1 h; exact updateRangeCid_ok (by simpa [DoRetry] using h)
  | succ n ih =>
    intro s s1 db db1 h
    unfold DoRetry at h
    split at h
    · next s2 db2 heq =>
      have h2 := updateRangeCid_fail heq
      have h3 := ih _ _ _ _ h
      rw [h3.1, h3.2, h2.1, h2.2]; exact ⟨rfl, rfl⟩
    · exact updateRangeCid_ok h

theorem updateFileCid_fail {id : Nat} {c : Cid} {s s1 : Unit} {db db1 : Db} {e : Fault}
    (h : updateFileCid id c s db = .fail e s1 db1) : db1.cat = db.cat ∧ db1.log = db.log := by
  unfold updateFileCid at h
  split at h
  · next hn => cases h; exact Db.next_eq hn
  · cases h

theorem updateFileCid_ok {id : Nat} {c : Cid} {s s1 : Unit} {db db1 : Db}
    (h : updateFileCid id c s db = .ok s1 db1) :
    db1.cat = db.cat.setFileCid id c ∧ db1.log = db.log ++ [Event.setFileCid id c] := by
  unfold updateFileCid at h
  split at h
  · cases h
  · next hn =>
    cases h
    have := Db.next_eq hn
    simp [this.1, this.2]

theorem DoRetry_updateFileCid_ok (id : Nat) (c : Cid) :
    ∀ (n : Nat) (s s1 : Unit) (db db1 : Db),
      DoRetry (updateFileCid id c) n s db = .ok s1 db1 →
      db1.cat = db.cat.setFileCid id c ∧ db1.log = db.log ++ [Event.setFileCid id c] := by
  intro n
  induction n with
  | zero => intro s s1 db db1 h; exact updateFileCid_ok (by simpa [DoRetry] using h)
  | succ n ih =>
    intro s s1 db db1 h
    unfold DoRetry at h
    split at h
    · next s2 db2 heq =>
      have h2 := updateFileCid_fail heq
      have h3 := ih _ _ _ _ h
      rw [h3.1, h3.2, h2.1, h2.2]; exact ⟨rfl, rfl⟩
    · exact updateFileCid_ok h

theorem DoRetry_updateFileCid_fail (id : Nat) (c : Cid) :
    ∀ (n : Nat) (s s1 : Unit) (db db1 : Db) (e : Fault),
      DoRetry (updateFileCid id c) n s db = .fail e s1 db1 →
      db1.cat = db.cat ∧ db1.log = db.log := by
  intro n
  induction n with
  | zero => intro s s1 db db1 e h; exact updateFileCid_fail (by simpa [DoRetry] using h)
  | succ n ih =>
    intro s s1 db db1 e h
    unfold DoRetry at h
    split at h
    · next s2 db2 heq =>
      have h2 := updateFileCid_fail heq
      have h3 := ih _ _ _ _ _ h
      rw [h3.1, h3.2, h2.1, h2.2]; exact ⟨rfl, rfl⟩
    · exact updateFileCid_fail h

theorem DoRetry_updateRangeCid_fail (id : Nat) (c : Cid) :
    ∀ (n : Nat) (s s1 : Unit) (db db1 : Db) (e : Fault),
      DoRetry (updateRangeCid id c) n s db = .fail e s1 db1 →
      db1.cat = db.cat ∧ db1.log = db.log := by
  intro n
  induction n with
  | zero => intro s s1 db db1 e h; exact updateRangeCid_fail (by simpa [DoRetry] using h)
  | succ n ih =>
    intro s s1 db db1 e h
    unfold DoRetry at h
    split at h
    · next s2 db2 heq =>
      have h2 := updateRangeCid_fail heq
      have h3 := ih _ _ _ _ _ h
      rw [h3.1, h3.2, h2.1, h2.2]; exact ⟨rfl, rfl⟩
    · exact updateRangeCid_fail h

/-- A successful first loop has the pure effect `applyRangeCids` on the catalog. -/
theorem rangeLoop_ok_cat (retries : Nat) (res : PackResult) :
    ∀ (rs : List JobRange) (db : Db) (s : Unit) (db1 : Db),
      rangeLoop retries res rs db = .ok s db1 → db1.cat = applyRangeCids res rs db.cat := by
  intro rs
  induction rs with
  | nil => intro db s db1 h; simp only [rangeLoop] at h; cases h; rfl
  | cons r rs ih =>
    intro db s db1 h
    unfold rangeLoop at h
    unfold applyRangeCids
    split at h
    · cases h
    · next c hc =>
      dsimp only
      split at h
      · cases h
      · cases h
      · next s2 db2 heq =>
        have h2 := DoRetry_updateRangeCid_ok _ _ _ _ _ _ _ heq
        split at h
        · next hw =>
          split at h
          · cases h
          · cases h
          · next s3 db3 heq3 =>
            have h3 := DoRetry_updateFileCid_ok _ _ _ _ _ _ _ heq3
            rw [ih _ _ _ h, h3.1, h2.1, if_pos hw]
        · next hw =>
          rw [ih _ _ _ h, h2.1, if_neg hw]

theorem applyRangeCids_eq (res : PackResult) :
    ∀ (rs : List JobRange) (cat : Catalog),
      applyRangeCids res rs cat =
        { cat with
          fileRanges := cat.fileRanges.map
            (fun row => { row with cid := rangeCidAfter res rs row.id row.cid }),
          files := cat.files.map
            (fun f => { f with cid := fileCidAfter res rs f.id f.cid }) } := by
  intro rs
  induction rs with
  | nil => intro cat; simp [applyRangeCids, rangeCidAfter, fileCidAfter]
  | cons r rs ih =>
    intro cat
    unfold applyRangeCids
    split
    · next hc => simp [rangeCidAfter, fileCidAfter, hc]
    · next c hc =>
      dsimp only
      rw [ih]
      by_cases hw : r.wholeFile = true
      · simp only [hw, if_true, Catalog.setRangeCid, Catalog.setFileCid, List.map_map]
        congr 1
        · apply List.map_congr_left
          intro f _
          by_cases hf : f.id = r.fileId <;> simp [fileCidAfter, hc, hf, hw]
        · apply List.map_congr_left
          intro row _
          by_cases hr : row.id = r.id <;> simp [rangeCidAfter, hc, hr]
      · have hw2 : r.wholeFile = false := by simpa using hw
        simp only [hw2, Bool.false_eq_true, if_false, Catalog.setRangeCid, List.map_map]
        congr 1
        · apply List.map_congr_left
          intro f _
          simp [fileCidAfter, hc, hw]
        · apply List.map_congr_left
          intro row _
          by_cases hr : row.id = r.id <;> simp [rangeCidAfter, hc, hr]

theorem rangeCidAfter_idem (res : PackResult) (id : Nat) :
    ∀ (rs : List JobRange) (c0 : Option Cid),
      rangeCidAfter res rs id (rangeCidAfter res rs id c0) = rangeCidAfter res rs id c0 := by
  intro rs
  induction rs with
  | nil => intro c0; rfl
  | cons r rs ih =>
    intro c0
    cases hc : res.fileRangeCIDs.lookup r.id with
    | none => simp [rangeCidAfter, hc]
    | some c =>
      by_cases h : id = r.id
      · simp [rangeCidAfter, hc, h]
      · simp only [rangeCidAfter, hc, h, if_false]; exact ih c0

theorem fileCidAfter_idem (res : PackResult) (id : Nat) :
    ∀ (rs : List JobRange) (c0 : Option Cid),
      fileCidAfter res rs id (fileCidAfter res rs id c0) = fileCidAfter res rs id c0 := by
  intro rs
  induction rs with
  | nil => intro c0; rfl
  | cons r rs ih =>
    intro c0
    cases hc : res.fileRangeCIDs.lookup r.id with
    | none => simp [fileCidAfter, hc]
    | some c =>
      by_cases h : r.wholeFile = true ∧ id = r.fileId
      · simp [fileCidAfter, hc, h]
      · simp only [fileCidAfter, hc, h, if_false]; exact ih c0

theorem applyRangeCids_idem (res : PackResult) (rs : List JobRange) (cat : Catalog) :
    applyRangeCids res rs (applyRangeCids res rs cat) = applyRangeCids res rs cat := by
  rw [applyRangeCids_eq res rs (applyRangeCids res rs cat), applyRangeCids_eq res rs cat]
  simp only [List.map_map]
  congr 1
  · apply List.map_congr_left
    intro f _
    simp [fileCidAfter_idem]
  · apply List.map_congr_left
    intro row _
    simp [rangeCidAfter_idem]

/-- The first loop of `Pack`, which writes `FileRange.cid` of every range of the
job and `File.cid` of its whole-file ranges, leaves the catalog it left before
when it succeeds a second time with the same `PackResult`. -/
theorem rangeLoop_idempotent (retries : Nat) (res : PackResult) (rs : List JobRange)
    (db db1 db2 : Db) (faults : List (Option Fault)) (s1 s2 : Unit)
    (h1 : rangeLoop retries res rs db = Res.ok s1 db1)
    (h2 : rangeLoop retries res rs { db1 with faults := faults } = Res.ok s2 db2) :
    db2.cat = db1.cat := by
  rw [rangeLoop_ok_cat _ _ _ _ _ _ h2, rangeLoop_ok_cat _ _ _ _ _ _ h1]
  exact applyRangeCids_idem res rs db.cat

/-! ## The deletion loop -/

theorem removeCount_append_remove (fid g : Nat) (l : List Event) :
    removeCount fid (l ++ [Event.remove g]) = removeCount fid l + (if g = fid then 1 else 0) := by
  unfold removeCount
  rw [List.count_append]
  by_cases h : g = fid
  · subst h; simp
  · have : ¬ (Event.remove g = Event.remove fid) := fun he => h (by injection he)
    simp [h, List.count_cons, this]

theorem removeCount_append_countFailed (fid g : Nat) (l : List Event) :
    removeCount fid (l ++ [Event.countFailed g]) = removeCount fid l := by
  unfold removeCount
  rw [List.count_append]
  simp [List.count_cons]

theorem deleteLoop_cat_log (res : PackResult) :
    ∀ (rs : List JobRange) (handled : List Nat) (db : Db) (b : Bool) (db1 : Db),
      deleteLoop res rs handled db = (b, db1) →
      db1.cat = db.cat ∧ ∃ evs, db1.log = db.log ++ evs := by
  intro rs
  induction rs with
  | nil =>
    intro handled db b db1 h
    simp only [deleteLoop] at h
    cases h
    exact ⟨rfl, [], by simp⟩
  | cons r rs ih =>
    intro handled db b db1 h
    unfold deleteLoop at h
    split at h
    · exact ih _ _ _ _ h
    · split at h
      · split at h
        · cases h; exact ⟨rfl, [], by simp⟩
        · obtain ⟨h1, evs, h2⟩ := ih _ _ _ _ h
          exact ⟨h1, Event.remove r.fileId :: evs, by simp [h2]⟩
      · split at h
        · next e db2 hn =>
          have hn2 := Db.next_eq hn
          obtain ⟨h1, evs, h2⟩ := ih _ _ _ _ h
          exact ⟨by simp [h1, hn2.1], Event.countFailed r.fileId :: evs, by simp [h2, hn2.2]⟩
        · next db2 hn =>
          have hn2 := Db.next_eq hn
          split at h
          · obtain ⟨h1, evs, h2⟩ := ih _ _ _ _ h
            exact ⟨by simp [h1, hn2.1], evs, by simp [h2, hn2.2]⟩
          · split at h
            · cases h; exact ⟨hn2.1, [], by simp [hn2.2]⟩
            · obtain ⟨h1, evs, h2⟩ := ih _ _ _ _ h
              exact ⟨by simp [h1, hn2.1], Event.remove r.fileId :: evs, by simp [h2, hn2.2]⟩

theorem deleteLoop_handled (res : PackResult) (fid : Nat) :
    ∀ (rs : List JobRange) (handled : List Nat) (db : Db) (b : Bool) (db1 : Db),
      deleteLoop res rs handled db = (b, db1) → fid ∈ handled →
      removeCount fid db1.log = removeCount fid db.log := by
  intro rs
  induction rs with
  | nil =>
    intro handled db b db1 h _
    simp only [deleteLoop] at h
    cases h; rfl
  | cons r rs ih =>
    intro handled db b db1 h hmem
    have hmem2 : fid ∈ r.fileId :: handled := List.mem_cons_of_mem _ hmem
    unfold deleteLoop at h
    split at h
    · exact ih _ _ _ _ h hmem
    · next hnot =>
      have hne : r.fileId ≠ fid := fun he => hnot (he ▸ hmem)
      split at h
      · split at h
        · cases h; rfl
        · rw [ih _ _ _ _ h hmem2, Db.record_log, removeCount_append_remove, if_neg hne]; rfl
      · split at h
        · next e db2 hn =>
          have hn2 := Db.next_eq hn
          rw [ih _ _ _ _ h hmem2, Db.record_log, removeCount_append_countFailed, hn2.2]
        · next db2 hn =>
          have hn2 := Db.next_eq hn
          split at h
          · rw [ih _ _ _ _ h hmem2, hn2.2]
          · split at h
            · cases h; rw [hn2.2]
            · rw [ih _ _ _ _ h hmem2, Db.record_log, removeCount_append_remove, if_neg hne,
                hn2.2]; rfl

/-- While a range of the file is unfinished and no range of the file in the job is
whole-file, the loop does not remove the object of the file. -/
theorem deleteLoop_unfinished (res : PackResult) (fid : Nat) :
    ∀ (rs : List JobRange) (handled : List Nat) (db : Db) (b : Bool) (db1 : Db),
      deleteLoop res rs handled db = (b, db1) →
      (∀ r ∈ rs, r.fileId = fid → r.wholeFile = false) →
      0 < db.cat.unfinishedCount fid →
      removeCount fid db1.log = removeCount fid db.log := by
  intro rs
  induction rs with
  | nil =>
    intro handled db b db1 h _ _
    simp only [deleteLoop] at h
    cases h; rfl
  | cons r rs ih =>
    intro handled db b db1 h hw hcount
    have hw2 : ∀ r1 ∈ rs, r1.fileId = fid → r1.wholeFile = false :=
      fun r1 hr1 => hw r1 (List.mem_cons_of_mem _ hr1)
    unfold deleteLoop at h
    split at h
    · exact ih _ _ _ _ h hw2 hcount
    · split at h
      · next hwhole =>
        have hne : r.fileId ≠ fid := by
          intro he
          have := hw r (List.mem_cons_self _ _) he
          rw [this] at hwhole
          exact absurd hwhole (by decide)
        split at h
        · cases h; rfl
        · rw [ih _ _ _ _ h hw2 (by simpa using hcount), Db.record_log,
            removeCount_append_remove, if_neg hne]; rfl
      · split at h
        · next e db2 hn =>
          have hn2 := Db.next_eq hn
          rw [ih _ _ _ _ h hw2 (by simpa [hn2.1] using hcount), Db.record_log,
            removeCount_append_countFailed, hn2.2]
        · next db2 hn =>
          have hn2 := Db.next_eq hn
          split at h
          · rw [ih _ _ _ _ h hw2 (by simpa [hn2.1] using hcount), hn2.2]
          · next hzero =>
            have hne : r.fileId ≠ fid := by
              intro he
              rw [he, hn2.1] at hzero
              exact hzero hcount
            split at h
            · cases h; rw [hn2.2]
            · rw [ih _ _ _ _ h hw2 (by simpa [hn2.1] using hcount), Db.record_log,
                removeCount_append_remove, if_neg hne, hn2.2]; rfl

/-- When the loop completes, the object of a file of the job that is not handled
yet, has no unfinished range and whose count query does not fail is removed
exactly once. -/
theorem deleteLoop_once (res : PackResult) (fid : Nat) :
    ∀ (rs : List JobRange) (handled : List Nat) (db : Db) (db1 : Db),
      deleteLoop res rs handled db = (true, db1) →
      fid ∉ handled → (∃ r ∈ rs, r.fileId = fid) →
      db.cat.unfinishedCount fid = 0 →
      Event.countFailed fid ∉ db1.log →
      removeCount fid db1.log = removeCount fid db.log + 1 := by
  intro rs
  induction rs with
  | nil =>
    intro handled db db1 _ _ hex _ _
    obtain ⟨r, hr, _⟩ := hex
    cases hr
  | cons r rs ih =>
    intro handled db db1 h hnot hex hzero hlog
    unfold deleteLoop at h
    by_cases hfid : r.fileId = fid
    · -- the first range of the file in the job
      rw [if_neg (by rw [hfid]; exact hnot)] at h
      have hin : fid ∈ r.fileId :: handled := by rw [hfid]; exact List.mem_cons_self _ _
      split at h
      · split at h
        · cases h
        · rw [deleteLoop_handled res fid _ _ _ _ _ h hin, Db.record_log,
            removeCount_append_remove, if_pos hfid]
      · split at h
        · next e db2 hn =>
          exfalso
          obtain ⟨_, evs, hl⟩ := deleteLoop_cat_log res _ _ _ _ _ h
          apply hlog
          rw [hl, Db.record_log, hfid]
          simp
        · next db2 hn =>
          have hn2 := Db.next_eq hn
          split at h
          · next hpos =>
            rw [hfid, hn2.1, hzero] at hpos
            exact absurd hpos (by decide)
          · split at h
            · cases h
            · rw [deleteLoop_handled res fid _ _ _ _ _ h hin, Db.record_log,
                removeCount_append_remove, if_pos hfid, hn2.2]
    · -- a range of another file
      have hex2 : ∃ r1 ∈ rs, r1.fileId = fid := by
        obtain ⟨r1, hr1, hf1⟩ := hex
        rcases List.mem_cons.1 hr1 with h1 | h1
        · subst h1; exact absurd hf1 hfid
        · exact ⟨r1, h1, hf1⟩
      have hnot2 : fid ∉ r.fileId :: handled := by
        intro hm
        rcases List.mem_cons.1 hm with h1 | h1
        · exact hfid h1.symm
        · exact hnot h1
      split at h
      · exact ih _ _ _ h hnot hex2 hzero hlog
      · split at h
        · split at h
          · cases h
          · rw [ih _ _ _ h hnot2 hex2 (by simpa using hzero) hlog, Db.record_log,
              removeCount_append_remove, if_neg hfid]
        · split at h
          · next e db2 hn =>
            have hn2 := Db.next_eq hn
            rw [ih _ _ _ h hnot2 hex2 (by simpa [hn2.1] using hzero) hlog, Db.record_log,
              removeCount_append_countFailed, hn2.2]
          · next db2 hn =>
            have hn2 := Db.next_eq hn
            split at h
            · rw [ih _ _ _ h hnot2 hex2 (by simpa [hn2.1] using hzero) hlog, hn2.2]
            · split at h
              · cases h
              · rw [ih _ _ _ h hnot2 hex2 (by simpa [hn2.1] using hzero) hlog, Db.record_log,
                  removeCount_append_remove, if_neg hfid, hn2.2]

/-! ## Ranges of a file -/

theorem insertByOffset_perm (r : FileRange) :
    ∀ l : List FileRange, (insertByOffset r l).Perm (r :: l) := by
  intro l
  induction l with
  | nil => exact List.Perm.refl _
  | cons x xs ih =>
    unfold insertByOffset
    split
    · exact List.Perm.refl _
    · exact (List.Perm.cons x ih).trans (List.Perm.swap r x xs)

theorem sortByOffset_perm : ∀ l : List FileRange, (sortByOffset l).Perm l := by
  intro l
  induction l with
  | nil => exact List.Perm.refl _
  | cons x xs ih =>
    unfold sortByOffset
    exact (insertByOffset_perm x _).trans (List.Perm.cons x ih)

theorem mem_rangesOfFile {cat : Catalog} {fid : Nat} {row : FileRange} :
    row ∈ cat.rangesOfFile fid ↔ row ∈ cat.fileRanges ∧ row.fileId = fid := by
  unfold Catalog.rangesOfFile
  rw [(sortByOffset_perm _).mem_iff]
  simp

theorem tiles_le : ∀ (xs : List FileRange) (s size : Nat), tiles s xs size = true → s ≤ size := by
  intro xs
  induction xs with
  | nil => intro s size h; simp [tiles] at h; omega
  | cons x xs ih =>
    intro s size h
    simp only [tiles, Bool.and_eq_true] at h
    have := ih _ _ h.2
    omega

theorem tiles_offset_ge :
    ∀ (xs : List FileRange) (s size : Nat), tiles s xs size = true → ∀ y ∈ xs, s ≤ y.offset := by
  intro xs
  induction xs with
  | nil => intro s size _ y hy; cases hy
  | cons x xs ih =>
    intro s size h y hy
    simp only [tiles, Bool.and_eq_true, decide_eq_true_eq] at h
    rcases List.mem_cons.1 hy with h1 | h1
    · subst h1; omega
    · have := ih _ _ h.2 y h1
      omega

/-- In a partition of a file, a range that covers the whole file is its only range. -/
theorem partitions_whole_unique {cat : Catalog} {fid size : Nat} {row : FileRange}
    (hp : cat.partitions fid size = true) (hrow : row ∈ cat.fileRanges)
    (hfid : row.fileId = fid) (hoff : row.offset = 0) (hlen : row.length = size) :
    ∀ row1 ∈ cat.fileRanges, row1.fileId = fid → row1 = row := by
  intro row1 hrow1 hfid1
  have hm : row ∈ cat.rangesOfFile fid := mem_rangesOfFile.2 ⟨hrow, hfid⟩
  have hm1 : row1 ∈ cat.rangesOfFile fid := mem_rangesOfFile.2 ⟨hrow1, hfid1⟩
  unfold Catalog.partitions at hp
  simp only [Bool.and_eq_true, Bool.or_eq_true, decide_eq_true_eq, List.all_eq_true] at hp
  obtain ⟨ht, hcases⟩ := hp
  generalize cat.rangesOfFile fid = rs at hm hm1 ht hcases
  rcases hcases with hone | hpos
  · match rs, hone with
    | [x], _ =>
      simp only [List.mem_singleton] at hm hm1
      rw [hm, hm1]
  · cases rs with
    | nil => cases hm
    | cons x xs =>
      simp only [tiles, Bool.and_eq_true, decide_eq_true_eq] at ht
      have hge := tiles_offset_ge xs _ _ ht.2
      have hxpos := hpos x (List.mem_cons_self _ _)
      have hrx : row = x := by
        rcases List.mem_cons.1 hm with h1 | h1
        · exact h1
        · have := hge row h1
          omega
      subst hrx
      have hxs : xs = [] := by
        cases xs with
        | nil => rfl
        | cons y ys =>
          exfalso
          simp only [tiles, Bool.and_eq_true, decide_eq_true_eq] at ht
          have h1 := tiles_le _ _ _ ht.2.2
          have h2 := hpos y (List.mem_cons_of_mem _ (List.mem_cons_self _ _))
          omega
      subst hxs
      simpa using hm1

theorem unfinishedCount_eq_zero {cat : Catalog} {fid : Nat}
    (h : ∀ row ∈ cat.fileRanges, row.fileId = fid → row.cid.isSome = true) :
    cat.unfinishedCount fid = 0 := by
  unfold Catalog.unfinishedCount
  rw [List.length_eq_zero, List.filter_eq_nil_iff]
  intro row hrow
  simp only [Bool.and_eq_true, decide_eq_true_eq, not_and]
  intro hf
  have := h row hrow hf
  cases hc : row.cid with
  | none => rw [hc] at this; cases this
  | some c => simp

theorem unfinishedCount_pos {cat : Catalog} {fid : Nat}
    (h : ∃ row ∈ cat.fileRanges, row.fileId = fid ∧ row.cid = none) :
    0 < cat.unfinishedCount fid := by
  obtain ⟨row, hrow, hf, hc⟩ := h
  unfold Catalog.unfinishedCount
  apply List.length_pos_of_mem (a := row)
  rw [List.mem_filter]
  exact ⟨hrow, by simp [hf, hc]⟩

/-! ## Ranges of the job after the catalog update -/

theorem carStage_All {J : Catalog → Prop} {K : List Event → Prop} (hC : CarStable J)
    (job : PackJob) (crs : List CarResult) (n : Nat) (cars : List Car) (db : Db)
    (h1 : J db.cat) (h2 : K db.log) :
    (DoRetry (Transaction (carTxBody job crs)) n cars db).All J K :=
  DoRetry_All (Transaction (carTxBody job crs))
    (fun s db a b => Transaction_All _ (fun s db a b => carTxBody_All hC job _ s db a b) s db a b)
    n cars db h1 h2

theorem dirStage_All {D : Type} {J : Catalog → Prop} {K : List Event → Prop}
    (hJ : CidStable J) (hD : DirStable J) (hK : LogStable K) (dag : Daggen D) (job : PackJob)
    (res : PackResult) (fuel n : Nat) (db : Db) (h1 : J db.cat) (h2 : K db.log) :
    (DoRetry (Transaction (dirTxBody dag job res fuel)) n () db).All J K :=
  DoRetry_All (Transaction (dirTxBody dag job res fuel))
    (fun s db a b => Transaction_All _
      (fun s db a b => dirTxBody_All hJ hD hK dag job res fuel s db a b) s db a b)
    n () db h1 h2

theorem rangeLoop_ok_lookup (retries : Nat) (res : PackResult) :
    ∀ (rs : List JobRange) (db : Db) (s : Unit) (db1 : Db),
      rangeLoop retries res rs db = .ok s db1 →
      ∀ r ∈ rs, ∃ c, res.fileRangeCIDs.lookup r.id = some c := by
  intro rs
  induction rs with
  | nil => intro db s db1 _ r hr; cases hr
  | cons r rs ih =>
    intro db s db1 h r1 hr1
    unfold rangeLoop at h
    split at h
    · cases h
    · next c hc =>
      have hrest : ∀ r2 ∈ rs, ∃ c, res.fileRangeCIDs.lookup r2.id = some c := by
        split at h
        · cases h
        · cases h
        · split at h
          · split at h
            · cases h
            · cases h
            · exact ih _ _ _ h
          · exact ih _ _ _ h
      rcases List.mem_cons.1 hr1 with h1 | h1
      · subst h1; exact ⟨c, hc⟩
      · exact hrest r1 h1

theorem rangeCidAfter_isSome (res : PackResult) (id : Nat) :
    ∀ (rs : List JobRange) (c0 : Option Cid),
      (∀ r ∈ rs, ∃ c, res.fileRangeCIDs.lookup r.id = some c) →
      (c0.isSome = true ∨ ∃ r ∈ rs, r.id = id) →
      (rangeCidAfter res rs id c0).isSome = true := by
  intro rs
  induction rs with
  | nil =>
    intro c0 _ h
    rcases h with h | ⟨r, hr, _⟩
    · simpa [rangeCidAfter] using h
    · cases hr
  | cons r rs ih =>
    intro c0 hl h
    obtain ⟨c, hc⟩ := hl r (List.mem_cons_self _ _)
    have hl2 : ∀ r2 ∈ rs, ∃ c, res.fileRangeCIDs.lookup r2.id = some c :=
      fun r2 hr2 => hl r2 (List.mem_cons_of_mem _ hr2)
    simp only [rangeCidAfter, hc]
    apply ih _ hl2
    by_cases hid : id = r.id
    · left; simp [hid]
    · rcases h with h | ⟨r2, hr2, hid2⟩
      · left; simpa [hid] using h
      · rcases List.mem_cons.1 hr2 with h1 | h1
        · subst h1; exact absurd hid2.symm hid
        · right; exact ⟨r2, h1, hid2⟩

/-- The identity columns of a range row. -/
theorem rangeKeys_stable (ks : List (Nat × Nat)) (ids : List Nat) :
    CidStable (fun cat => cat.fileRanges.map (fun row => (row.id, row.fileId)) = ks ∧
      ∀ row ∈ cat.fileRanges, row.id ∈ ids → row.cid.isSome = true) := by
  refine ⟨fun cat id c h => ⟨?_, ?_⟩, fun cat id c h => h⟩
  · rw [← h.1]
    simp only [Catalog.setRangeCid, List.map_map]
    apply List.map_congr_left
    intro row _
    by_cases hr : row.id = id <;> simp [hr]
  · intro row1 hrow1 hid
    simp only [Catalog.setRangeCid, List.mem_map] at hrow1
    obtain ⟨row, hrow, rfl⟩ := hrow1
    by_cases hr : row.id = id
    · simp [hr]
    · simp only [hr, if_false] at hid ⊢
      exact h.2 row hrow hid

/-- After a successful catalog update the range rows have the identity columns
they had, and the rows of the ranges of the job have a cid. -/
theorem catalogUpdate_ok_ranges {D : Type} (env : Env D) (fuel : Nat) (job : PackJob)
    (res : PackResult) (db : Db) (cars : List Car) (db1 : Db)
    (h : catalogUpdate env fuel job res db = .ok cars db1) :
    db1.cat.fileRanges.map (fun row => (row.id, row.fileId)) =
        db.cat.fileRanges.map (fun row => (row.id, row.fileId)) ∧
      ∀ row ∈ db1.cat.fileRanges, row.id ∈ job.fileRanges.map (fun r => r.id) →
        row.cid.isSome = true := by
  have hJ := rangeKeys_stable (db.cat.fileRanges.map (fun row => (row.id, row.fileId)))
    (job.fileRanges.map (fun r => r.id))
  have hC : CarStable (fun cat => cat.fileRanges.map (fun row => (row.id, row.fileId)) =
      db.cat.fileRanges.map (fun row => (row.id, row.fileId)) ∧
      ∀ row ∈ cat.fileRanges, row.id ∈ job.fileRanges.map (fun r => r.id) →
        row.cid.isSome = true) := ⟨fun _ _ h => h, fun _ _ h => h⟩
  have hD : DirStable (fun cat => cat.fileRanges.map (fun row => (row.id, row.fileId)) =
      db.cat.fileRanges.map (fun row => (row.id, row.fileId)) ∧
      ∀ row ∈ cat.fileRanges, row.id ∈ job.fileRanges.map (fun r => r.id) →
        row.cid.isSome = true) := fun _ _ _ _ h => h
  unfold catalogUpdate at h
  split at h
  · cases h
  · cases h
  · next s2 db2 heq =>
    have hcat := rangeLoop_ok_cat _ _ _ _ _ _ heq
    have hlook := rangeLoop_ok_lookup _ _ _ _ _ _ heq
    have h2 : db2.cat.fileRanges.map (fun row => (row.id, row.fileId)) =
        db.cat.fileRanges.map (fun row => (row.id, row.fileId)) ∧
        ∀ row ∈ db2.cat.fileRanges, row.id ∈ job.fileRanges.map (fun r => r.id) →
          row.cid.isSome = true := by
      rw [hcat, applyRangeCids_eq]
      refine ⟨by simp [List.map_map, Function.comp_def], ?_⟩
      intro row1 hrow1 hid
      simp only [List.mem_map] at hrow1 hid
      obtain ⟨row, _, rfl⟩ := hrow1
      obtain ⟨r, hr, hrid⟩ := hid
      exact rangeCidAfter_isSome res _ _ _ hlook (Or.inr ⟨r, hr, hrid⟩)
    have hc := carStage_All (K := fun _ => True) hC job res.carResults env.retries [] db2 h2
      trivial
    split at h
    · cases h
    · cases h
    · next cars3 db3 heq3 =>
      rw [heq3] at hc
      have hd := dirStage_All hJ hD logStable_true env.dag job res fuel env.retries db3 hc.1
        trivial
      split at h
      · cases h
      · cases h
      · next s4 db4 heq4 =>
        rw [heq4] at hd
        cases h
        exact hd.1

/-! ## Delete after export -/

theorem deleteStage_final (job : PackJob) (res : PackResult) (cars : List Car) (db db1 : Db)
    (h : (deleteStage job res cars db).final = some db1) :
    db1 = db ∨ ∃ b, deleteLoop res job.fileRanges [] db = (b, db1) := by
  unfold deleteStage at h
  split at h
  · split at h
    · simp only [Outcome.final, Option.some.injEq] at h; exact Or.inl h.symm
    · split at h
      · split at h
        · next db2 heq =>
          simp only [Outcome.final, Option.some.injEq] at h
          subst h; exact Or.inr ⟨true, heq⟩
        · next db2 heq =>
          simp only [Outcome.final, Option.some.injEq] at h
          subst h; exact Or.inr ⟨false, heq⟩
      · simp only [Outcome.final, Option.some.injEq] at h; exact Or.inl h.symm
  · simp only [Outcome.final, Option.some.injEq] at h; exact Or.inl h.symm

theorem catalogUpdate_removeCount {D : Type} (env : Env D) (fuel : Nat) (job : PackJob)
    (res : PackResult) (db : Db) (fid : Nat) :
    ∀ db1, (catalogUpdate env fuel job res db).final = some db1 →
      removeCount fid db1.log = removeCount fid db.log := by
  intro db1 h
  have hl := catalogUpdate_log env fuel job res db
  cases hr : catalogUpdate env fuel job res db with
  | diverge => rw [hr] at h; cases h
  | ok s db2 =>
    rw [hr] at h hl
    simp only [Res.final, Option.some.injEq] at h
    subst h
    obtain ⟨evs, hlog, hall⟩ := hl.2
    rw [hlog]; exact removeCount_of_update_events fid _ _ hall
  | fail e s db2 =>
    rw [hr] at h hl
    simp only [Res.final, Option.some.injEq] at h
    subst h
    obtain ⟨evs, hlog, hall⟩ := hl.2
    rw [hlog]; exact removeCount_of_update_events fid _ _ hall

/-- C1: let the ranges of the job be rows of the catalog and let the ranges of
file `fid` partition the file.  If, when `Pack` has returned (or panicked), some
range of the file still has a null cid, then `Pack` has not called `Remove` on the
object of the file. -/
theorem Pack_keeps_object_of_unfinished_file {D : Type} (env : Env D) (fuel : Nat)
    (job : PackJob) (db : Db) (fid : Nat) (db1 : Db)
    (hcons : ∀ r ∈ job.fileRanges, r.inCatalog db.cat)
    (hpart : ∀ f ∈ db.cat.files, f.id = fid → db.cat.partitions fid f.size = true)
    (hfinal : (Pack env fuel job db).final = some db1)
    (hnull : ∃ row ∈ db1.cat.fileRanges, row.fileId = fid ∧ row.cid = none) :
    removeCount fid db1.log = removeCount fid db.log := by
  unfold Pack at hfinal
  split at hfinal
  · split at hfinal
    · simp only [Outcome.final, Option.some.injEq] at hfinal; subst hfinal; rfl
    · next res hres =>
      cases hcu : catalogUpdate env fuel job res db with
      | diverge => rw [hcu] at hfinal; cases hfinal
      | fail e s db2 =>
        rw [hcu] at hfinal
        simp only [Outcome.final, Option.some.injEq] at hfinal
        subst hfinal
        exact catalogUpdate_removeCount env fuel job res db fid _ (by rw [hcu]; rfl)
      | ok cars db2 =>
        rw [hcu] at hfinal
        dsimp only at hfinal
        have hrc := catalogUpdate_removeCount env fuel job res db fid db2 (by rw [hcu]; rfl)
        rcases deleteStage_final job res cars db2 db1 hfinal with h1 | ⟨b, hloop⟩
        · subst h1; exact hrc
        · obtain ⟨hcat, _⟩ := deleteLoop_cat_log res _ _ _ _ _ hloop
          obtain ⟨hkeys, hdone⟩ := catalogUpdate_ok_ranges env fuel job res db cars db2 hcu
          rw [← hrc]
          apply deleteLoop_unfinished res fid _ _ _ _ _ hloop
          · intro r hr hrf
            cases hw : r.wholeFile with
            | false => rfl
            | true =>
              exfalso
              simp only [JobRange.wholeFile, Bool.and_eq_true, decide_eq_true_eq] at hw
              obtain ⟨⟨rowr, hrowr, hid, hf, hoff, hlen⟩, f, hfm, hfid, hsize⟩ := hcons r hr
              have hp := hpart f hfm (hfid.trans hrf)
              have huniq := partitions_whole_unique hp hrowr (hf.trans hrf)
                (hoff.trans hw.1) (by rw [hlen, hw.2, hsize])
              obtain ⟨row0, hrow0, hf0, hc0⟩ := hnull
              rw [hcat] at hrow0
              have hk : (row0.id, row0.fileId) ∈
                  db2.cat.fileRanges.map (fun row => (row.id, row.fileId)) :=
                List.mem_map.2 ⟨row0, hrow0, rfl⟩
              rw [hkeys] at hk
              obtain ⟨row2, hrow2, hk2⟩ := List.mem_map.1 hk
              simp only [Prod.mk.injEq] at hk2
              have h2 := huniq row2 hrow2 (hk2.2.trans hf0)
              have hid0 : row0.id = r.id := by rw [← hk2.1, h2, hid]
              have := hdone row0 hrow0 (List.mem_map.2 ⟨r, hr, hid0.symm⟩)
              rw [hc0] at this
              cases this
          · rw [← hcat]; exact unfinishedCount_pos hnull
  · simp only [Outcome.final, Option.some.injEq] at hfinal; subst hfinal; rfl

/-- Witness of `Pack_keeps_object_of_unfinished_file`: only the first range of
file `b` is packed, with `deleteAfterExport` set. -/
theorem Pack_keeps_object_of_unfinished_file_witness :
    ∃ cars db1, Pack (exEnv (exResult [exCarResult ['x']])) 4 (exJob [rangeB1]) (exDb []) =
        Outcome.success cars db1 ∧
      (∃ row ∈ db1.cat.fileRanges, row.fileId = 2 ∧ row.cid = none) ∧
      removeCount 2 db1.log = removeCount 2 (exDb []).log :=
  ⟨_, _, rfl, by decide,
    Pack_keeps_object_of_unfinished_file (exEnv (exResult [exCarResult ['x']])) 4
      (exJob [rangeB1]) (exDb []) 2 _
      (by
        intro r hr
        have hr2 : r = rangeB1 := by simpa [exJob] using hr
        subst hr2
        exact ⟨⟨⟨2, 2, 0, 8, none⟩, by decide, rfl, rfl, rfl, rfl⟩, ⟨fileB, by decide, rfl, rfl⟩⟩)
      (by decide) rfl (by decide)⟩

/-- C2 (amended): on a pack job with `deleteAfterExport` on which `Pack` succeeds
and whose first `CarResult` has a non-empty `CarFilePath`, for every file
referenced by the ranges of the job all of whose ranges have a cid after the
catalog update and whose count query did not fail, `Pack` calls `Remove` on the
object of the file exactly once. -/
theorem Pack_removes_finished_object_once {D : Type} (env : Env D) (fuel : Nat)
    (job : PackJob) (db : Db) (cars : List Car) (db1 : Db) (res : PackResult)
    (cr : CarResult) (rest : List CarResult) (fid : Nat)
    (h : Pack env fuel job db = Outcome.success cars db1)
    (hdel : job.deleteAfterExport = true)
    (hres : env.AssembleCar job.fileRanges = some res)
    (hcars : res.carResults = cr :: rest)
    (hpath : cr.carFilePath ≠ [])
    (hfile : ∃ r ∈ job.fileRanges, r.fileId = fid)
    (hdone : ∀ row ∈ db1.cat.fileRanges, row.fileId = fid → row.cid.isSome = true)
    (hcount : Event.countFailed fid ∉ db1.log) :
    removeCount fid db1.log = removeCount fid db.log + 1 := by
  unfold Pack at h
  split at h
  · rw [hres] at h
    dsimp only at h
    cases hcu : catalogUpdate env fuel job res db with
    | diverge => rw [hcu] at h; cases h
    | fail e s db2 => rw [hcu] at h; cases h
    | ok cars2 db2 =>
      rw [hcu] at h
      dsimp only at h
      have hrc := catalogUpdate_removeCount env fuel job res db fid db2 (by rw [hcu]; rfl)
      unfold deleteStage at h
      rw [if_pos hdel, hcars] at h
      dsimp only at h
      rw [if_pos hpath] at h
      split at h
      · next db3 hloop =>
        cases h
        obtain ⟨hcat, _⟩ := deleteLoop_cat_log res _ _ _ _ _ hloop
        rw [← hrc]
        apply deleteLoop_once res fid _ _ _ _ hloop (by simp) hfile _ hcount
        rw [← hcat]
        exact unfinishedCount_eq_zero hdone
      · cases h
  · cases h

/-- Witness of `Pack_removes_finished_object_once`: both ranges of file `b` are in
the job and its object is removed once. -/
theorem Pack_removes_finished_object_once_witness :
    ∃ cars db1, Pack (exEnv (exResult [exCarResult ['x']])) 4
        (exJob [rangeA, rangeB1, rangeB2]) (exDb []) = Outcome.success cars db1 ∧
      removeCount 2 db1.log = removeCount 2 (exDb []).log + 1 :=
  ⟨_, _, rfl,
    Pack_removes_finished_object_once (exEnv (exResult [exCarResult ['x']])) 4
      (exJob [rangeA, rangeB1, rangeB2]) (exDb []) _ _ (exResult [exCarResult ['x']])
      (exCarResult ['x']) [] 2 rfl rfl rfl rfl (by decide) ⟨rangeB1, by decide, rfl⟩
      (by decide) (by decide)⟩

/-! ## Runs on concrete inputs -/

/-- C9: with `deleteAfterExport` set and an `AssembleCar` result without any
`CarResult`, the catalog transactions succeed and `Pack` then panics on
`result.CarResults[0]` instead of returning the cars. -/
theorem Pack_panics_without_car_results :
    ∃ db, Pack (exEnv (exResult [])) 4 (exJob [rangeA]) (exDb []) = Outcome.panicked db ∧
      db.cat.fileRanges.head? = some ⟨1, 1, 0, 10, some 101⟩ :=
  ⟨_, rfl, by decide⟩

/-- C3: when the commit of the CAR-insert transaction fails transiently once and
the retry succeeds, `Pack` returns two cars for the single `CarResult`, whereas
the run without injected error returns one and both runs leave the same catalog.
With two `CarResult`s and a transient failure of the second `db.Create`, `Pack`
returns three cars. -/
theorem Pack_retry_returns_car_twice :
    ((Pack (exEnv (exResult [exCarResult ['x']])) 4 (exJob [rangeA])
        (exDb [none, none, none, none, some Fault.transient])).returned.map List.length = some 2) ∧
    ((Pack (exEnv (exResult [exCarResult ['x']])) 4 (exJob [rangeA])
        (exDb [])).returned.map List.length = some 1) ∧
    ((Pack (exEnv (exResult [exCarResult ['x']])) 4 (exJob [rangeA])
        (exDb [none, none, none, none, some Fault.transient])).final.map (fun db => db.cat) =
      (Pack (exEnv (exResult [exCarResult ['x']])) 4 (exJob [rangeA])
        (exDb [])).final.map (fun db => db.cat)) ∧
    ((Pack (exEnv (exResult [exCarResult ['x'], exCarResult ['y']])) 4 (exJob [rangeA])
        (exDb [none, none, none, none, some Fault.transient])).returned.map List.length = some 3) ∧
    ((Pack (exEnv (exResult [exCarResult ['x'], exCarResult ['y']])) 4 (exJob [rangeA])
        (exDb [none, none, none, none, some Fault.transient])).final.map
          (fun db => db.cat.cars.length) = some 2) := by
  decide

/-- C5: packing both ranges of file `c`, which has no directory, succeeds and
leaves every range of the file with a cid while `File.cid` stays null, although
the catalog satisfied the invariant before the call. -/
theorem Pack_leaves_file_cid_null_without_directory :
    exCatalog.fileCidIffAllRanges = true ∧
    exCatalog.partitions 3 6 = true ∧
    ∃ cars db, Pack (exEnv (exResult [exCarResult ['x']])) 4 (exJob [rangeC1, rangeC2])
        (exDb []) = Outcome.success cars db ∧
      (∀ row ∈ db.cat.fileRanges, row.fileId = 3 → row.cid.isSome = true) ∧
      (∃ f ∈ db.cat.files, f.id = 3 ∧ f.cid = none) ∧
      db.cat.fileCidIffAllRanges = false :=
  ⟨by decide, by decide, _, _, rfl, by decide, by decide, by decide⟩

/-- C2, as stated, fails: with `deleteAfterExport` set and the CAR not written to a
file (empty `CarFilePath`), `Pack` succeeds, every range of file 1 has a cid, and
`Remove` is not called. -/
theorem Pack_keeps_object_when_car_has_no_path :
    ∃ cars db, Pack (exEnv (exResult [exCarResult []])) 4 (exJob [rangeA]) (exDb []) =
        Outcome.success cars db ∧
      (exJob [rangeA]).deleteAfterExport = true ∧
      (∀ row ∈ db.cat.fileRanges, row.fileId = 1 → row.cid.isSome = true) ∧
      removeCount 1 db.log = 0 :=
  ⟨_, _, rfl, rfl, by decide, by decide⟩

/-- C4, as stated, fails: when the first statement of the CAR-insert transaction
fails, `Pack` returns an error and the cids of the range and of the file written
before stay in the catalog. -/
theorem Pack_error_keeps_cid_updates :
    ∃ db, Pack (exEnv (exResult [exCarResult ['x']])) 4 (exJob [rangeA])
        (exDb [none, none, some Fault.fatal]) = Outcome.failure PackErr.failedToSaveCar db ∧
      db.cat ≠ exCatalog ∧
      db.cat.fileRanges.head? = some ⟨1, 1, 0, 10, some 101⟩ :=
  ⟨_, rfl, by decide, by decide⟩

/-- C7, as stated, fails: applying the catalog update a second time with the same
`PackResult` inserts the car again. -/
theorem catalogUpdate_twice_differs :
    ∃ cars1 db1 cars2 db2,
      catalogUpdate (exEnv (exResult [exCarResult ['x']])) 4 (exJob [rangeA])
        (exResult [exCarResult ['x']]) (exDb []) = Res.ok cars1 db1 ∧
      catalogUpdate (exEnv (exResult [exCarResult ['x']])) 4 (exJob [rangeA])
        (exResult [exCarResult ['x']]) db1 = Res.ok cars2 db2 ∧
      db1.cat.cars.length = 1 ∧ db2.cat.cars.length = 2 ∧ db2.cat ≠ db1.cat :=
  ⟨_, _, _, _, rfl, rfl, by decide, by decide, by decide⟩

/-! ## The directory walk: exact effect of one step -/

theorem loadDir_ok {D : Type} {dag : Daggen D} {d : Nat} {st st1 : WalkState D} {db db1 : Db}
    {dirData : DirectoryData D} (h : loadDir dag d st db = .ok dirData st1 db1) :
    db1.cat = db.cat ∧
    ((st.dirCache.lookup d = some dirData ∧ st1 = st ∧ db1.log = db.log) ∨
     (st.dirCache.lookup d = none ∧ db.cat.firstDirectory d = some dirData.directory ∧
      st1.dirCache = mapSet st.dirCache d dirData ∧
      st1.childrenCache =
        (match dirData.directory.parentId with
        | some p => mapSet st.childrenCache p (mapGetList st.childrenCache p ++ [d])
        | none => st.childrenCache) ∧
      db1.log = db.log ++ [Event.loadDir d])) := by
  unfold loadDir at h
  split at h
  · next dd hl =>
    cases h
    exact ⟨rfl, Or.inl ⟨hl, rfl, rfl⟩⟩
  · next hl =>
    split at h
    · cases h
    · next db2 hn =>
      have hn2 := Db.next_eq hn
      split at h
      · cases h
      · next dir hdir =>
        split at h
        · cases h
        · next node hnode =>
          cases h
          refine ⟨by simp [hn2.1], Or.inr ⟨hl, ?_, rfl, rfl, by simp [hn2.2]⟩⟩
          rw [← hn2.1]; exact hdir

theorem loadDir_fail {D : Type} {dag : Daggen D} {d : Nat} {st st1 : WalkState D} {db db1 : Db}
    {e : Fault} (h : loadDir dag d st db = .fail e st1 db1) :
    db1.cat = db.cat ∧ db1.log = db.log ∧ st1 = st := by
  unfold loadDir at h
  split at h
  · cases h
  · split at h
    · next e1 db2 hn =>
      have hn2 := Db.next_eq hn
      cases h; exact ⟨hn2.1, hn2.2, rfl⟩
    · next db2 hn =>
      have hn2 := Db.next_eq hn
      split at h
      · cases h; exact ⟨hn2.1, hn2.2, rfl⟩
      · split at h
        · cases h; exact ⟨hn2.1, hn2.2, rfl⟩
        · cases h

theorem mergeRange_ne_diverge {D : Type} (dag : Daggen D) (res : PackResult) (r : JobRange)
    (d : Nat) (dirData : DirectoryData D) (db : Db) :
    mergeRange dag res r d dirData db ≠ .diverge := by
  unfold mergeRange
  intro h
  split at h
  · cases h
  · split at h
    · cases h
    · dsimp only at h
      split at h
      · split at h <;> cases h
      · split at h
        · cases h
        · split at h
          · split at h
            · cases h
            · split at h <;> cases h
          · cases h

theorem mergeRange_ok {D : Type} {dag : Daggen D} {res : PackResult} {r : JobRange} {d : Nat}
    {dirData dirData2 : DirectoryData D} {db db2 : Db}
    (h : mergeRange dag res r d dirData db = .ok dirData2 db2) :
    dirData2.directory = dirData.directory ∧ db2.cat.directories = db.cat.directories ∧
    ∃ c, res.fileRangeCIDs.lookup r.id = some c ∧
      ((r.wholeFile = true ∧
          db2.log = db.log ++ [Event.addFile d (baseName r.file.path) c r.length]) ∨
       (r.wholeFile = false ∧
          (db2.log = db.log ∨
           ∃ node c1,
            ((db.cat.setRangeCid r.id c).rangesOfFile r.fileId).all (fun p => p.cid.isSome) = true ∧
            dag.AddFileFromLinks dirData.node (baseName r.file.path)
              (linksOf ((db.cat.setRangeCid r.id c).rangesOfFile r.fileId)) = some (node, c1) ∧
            db2.log = db.log ++
              [Event.addFileFromLinks d (baseName r.file.path)
                (linksOf ((db.cat.setRangeCid r.id c).rangesOfFile r.fileId)),
               Event.setFileCid r.fileId c1]))) := by
  unfold mergeRange at h
  split at h
  · cases h
  · next c hc =>
    split at h
    · cases h
    · next db1 hn =>
      have hn1 := Db.next_eq hn
      dsimp only at h
      split at h
      · next hw =>
        split at h
        · cases h
        · cases h
          refine ⟨rfl, by simp [hn1.1, Catalog.setRangeCid], c, hc, Or.inl ⟨hw, by simp [hn1.2]⟩⟩
      · next hw =>
        have hw2 : r.wholeFile = false := by simpa using hw
        split at h
        · cases h
        · next db3 hn3 =>
          have h3 := Db.next_eq hn3
          simp only [Db.write_cat, Db.write_log] at h3
          split at h
          · next hall =>
            split at h
            · cases h
            · next node c1 hadd =>
              split at h
              · cases h
              · next db5 hn5 =>
                have h5 := Db.next_eq hn5
                simp only [Db.record_cat, Db.record_log] at h5
                cases h
                rw [h3.1, hn1.1] at hall hadd
                refine ⟨rfl, ?_, c, hc, Or.inr ⟨hw2, Or.inr ⟨node, c1, hall, hadd, ?_⟩⟩⟩
                · simp [h5.1, h3.1, hn1.1, Catalog.setRangeCid, Catalog.setFileCid]
                · simp [h5.2, h3.2, hn1.2, h3.1, hn1.1]
          · cases h
            refine ⟨rfl, ?_, c, hc, Or.inr ⟨hw2, Or.inl ?_⟩⟩
            · simp [h3.1, hn1.1, Catalog.setRangeCid]
            · simp [h3.2, hn1.2]

theorem mergeRange_fail {D : Type} {dag : Daggen D} {res : PackResult} {r : JobRange} {d : Nat}
    {dirData dirData2 : DirectoryData D} {db db2 : Db} {e : Fault}
    (h : mergeRange dag res r d dirData db = .fail e dirData2 db2) :
    ∃ evs, db2.log = db.log ++ evs ∧ ∀ ev ∈ evs, ev.isMerge = true := by
  unfold mergeRange at h
  split at h
  · cases h; exact ⟨[], by simp, by simp⟩
  · next c hc =>
    split at h
    · next e1 db1 hn =>
      have hn1 := Db.next_eq hn
      cases h; exact ⟨[], by simp [hn1.2], by simp⟩
    · next db1 hn =>
      have hn1 := Db.next_eq hn
      dsimp only at h
      split at h
      · split at h
        · cases h
          exact ⟨[Event.addFile d (baseName r.file.path) c r.length], by simp [hn1.2],
            by simp [Event.isMerge]⟩
        · cases h
      · split at h
        · next e3 db3 hn3 =>
          have h3 := Db.next_eq hn3
          simp only [Db.write_cat, Db.write_log] at h3
          cases h; exact ⟨[], by simp [h3.2, hn1.2], by simp⟩
        · next db3 hn3 =>
          have h3 := Db.next_eq hn3
          simp only [Db.write_cat, Db.write_log] at h3
          split at h
          · split at h
            · cases h
              exact ⟨[Event.addFileFromLinks d (baseName r.file.path)
                  (linksOf (db3.cat.rangesOfFile r.fileId))],
                by simp [h3.2, hn1.2], by simp [Event.isMerge]⟩
            · split at h
              · next e5 db5 hn5 =>
                have h5 := Db.next_eq hn5
                simp only [Db.record_cat, Db.record_log] at h5
                cases h
                exact ⟨[Event.addFileFromLinks d (baseName r.file.path)
                    (linksOf (db3.cat.rangesOfFile r.fileId))],
                  by simp [h5.2, h3.2, hn1.2], by simp [Event.isMerge]⟩
              · cases h
          · cases h

/-- After the first iteration the walk of a range only loads directories. -/
theorem walk_rest_loads {D : Type} (dag : Daggen D) (res : PackResult) (r : JobRange) :
    ∀ (fuel : Nat) (dirID : Option Nat) (st : WalkState D) (db db1 : Db),
      (walk dag res r fuel false dirID st db).final = some db1 →
      ∃ post, db1.log = db.log ++ post ∧ ∀ e ∈ post, e.isLoad = true := by
  intro fuel
  induction fuel with
  | zero =>
    intro dirID st db db1 h
    cases dirID with
    | none =>
      simp only [walk, Res.final, Option.some.injEq] at h
      subst h; exact ⟨[], by simp, by simp⟩
    | some d => simp [walk, Res.final] at h
  | succ fuel ih =>
    intro dirID st db db1 h
    cases dirID with
    | none =>
      simp only [walk, Res.final, Option.some.injEq] at h
      subst h; exact ⟨[], by simp, by simp⟩
    | some d =>
      simp only [walk] at h
      split at h
      · next e st1 db2 hl =>
        simp only [Res.final, Option.some.injEq] at h
        subst h
        exact ⟨[], by simp [(loadDir_fail hl).2.1], by simp⟩
      · next dirData st1 db2 hl =>
        simp only [Bool.false_eq_true, if_false] at h
        obtain ⟨post, hp, hall⟩ := ih _ _ _ _ h
        rcases (loadDir_ok hl).2 with h1 | h1
        · exact ⟨post, by rw [hp, h1.2.2], hall⟩
        · refine ⟨Event.loadDir d :: post, by rw [hp, h1.2.2.2.2]; simp, ?_⟩
          intro e he
          rcases List.mem_cons.1 he with h2 | h2
          · subst h2; rfl
          · exact hall e h2

/-! ## The name of a file in its directory -/

theorem lastIndexFrom_spec :
    ∀ (s : List Char) (i : Nat),
      ('/' ∉ s ∧ lastIndexFrom i s = -1) ∨
      ∃ pre post, s = pre ++ '/' :: post ∧ '/' ∉ post ∧
        lastIndexFrom i s = ((i + pre.length : Nat) : Int) := by
  intro s
  induction s with
  | nil => intro i; left; simp [lastIndexFrom]
  | cons c cs ih =>
    intro i
    rcases ih (i + 1) with ⟨hno, hrest⟩ | ⟨pre, post, hs, hpost, hrest⟩
    · by_cases hc : c = '/'
      · right
        refine ⟨[], cs, by simp [hc], hno, ?_⟩
        simp [lastIndexFrom, hrest, hc]
      · left
        refine ⟨?_, by simp [lastIndexFrom, hrest, hc]⟩
        intro hm
        rcases List.mem_cons.1 hm with h1 | h1
        · exact hc h1.symm
        · exact hno h1
    · right
      refine ⟨c :: pre, post, by simp [hs], hpost, ?_⟩
      have hne : lastIndexFrom (i + 1) cs ≠ -1 := by rw [hrest]; omega
      simp only [lastIndexFrom, hne, ne_eq, not_false_eq_true, if_true, hrest, List.length_cons]
      omega

/-- The name is the part of the path after its last slash, the whole path when
there is none, and holds no slash. -/
theorem baseName_spec (path : List Char) :
    '/' ∉ baseName path ∧
    (('/' ∉ path ∧ baseName path = path) ∨ ∃ pre, path = pre ++ '/' :: baseName path) := by
  rcases lastIndexFrom_spec path 0 with ⟨hno, hl⟩ | ⟨pre, post, hs, hpost, hl⟩
  · have hb : baseName path = path := by
      simp [baseName, LastIndex, hl]
    exact ⟨by rw [hb]; exact hno, Or.inl ⟨hno, hb⟩⟩
  · have hb : baseName path = post := by
      unfold baseName LastIndex
      rw [hl]
      have : (((0 + pre.length : Nat) : Int) + 1).toNat = pre.length + 1 := by omega
      rw [this, hs]
      simp [List.drop_append]
    exact ⟨by rw [hb]; exact hpost, Or.inr ⟨pre, by rw [hb]; exact hs⟩⟩

/-! ## Merging a range into its directory -/

theorem walk_first_ok {D : Type} {dag : Daggen D} {res : PackResult} {r : JobRange}
    {fuel : Nat} {d : Nat} {st st1 : WalkState D} {db db1 : Db}
    (h : walk dag res r fuel true (some d) st db = .ok st1 db1) :
    ∃ fuel1 dirData sta dba dirData2 dbb,
      fuel = fuel1 + 1 ∧
      loadDir dag d st db = .ok dirData sta dba ∧
      mergeRange dag res r d dirData dba = .ok dirData2 dbb ∧
      walk dag res r fuel1 false dirData2.directory.parentId
        { sta with dirCache := mapSet sta.dirCache d dirData2 } dbb = .ok st1 db1 := by
  cases fuel with
  | zero => simp [walk] at h
  | succ fuel1 =>
    simp only [walk] at h
    split at h
    · cases h
    · next dirData sta dba hl =>
      simp only [if_true] at h
      split at h
      · cases h
      · cases h
      · next dirData2 dbb hm =>
        exact ⟨fuel1, dirData, sta, dba, dirData2, dbb, rfl, hl, hm, h⟩

/-- C8: for a whole-file range whose file has a directory, a completed walk of the
range has called `AddFile` exactly once, on the immediate parent directory
`file.directoryId`, with the name after the last slash of the path (the whole
path when it has no slash; the name holds no slash), the cid of the range and its
length; before it at most the load of that directory happened, and after it only
directories are loaded: no `AddFile` or `AddFileFromLinks` on an ancestor. -/
theorem walk_whole_file_merges_once {D : Type} (dag : Daggen D) (res : PackResult)
    (r : JobRange) (fuel : Nat) (d : Nat) (st st1 : WalkState D) (db db1 : Db)
    (hw : r.wholeFile = true) (hd : r.file.directoryId = some d)
    (h : walk dag res r fuel true r.file.directoryId st db = .ok st1 db1) :
    ∃ c pre post,
      res.fileRangeCIDs.lookup r.id = some c ∧
      db1.log = db.log ++ pre ++ [Event.addFile d (baseName r.file.path) c r.length] ++ post ∧
      (pre = [] ∨ pre = [Event.loadDir d]) ∧
      (∀ e ∈ post, e.isLoad = true) ∧
      '/' ∉ baseName r.file.path ∧
      (('/' ∉ r.file.path ∧ baseName r.file.path = r.file.path) ∨
        ∃ p, r.file.path = p ++ '/' :: baseName r.file.path) := by
  rw [hd] at h
  obtain ⟨fuel1, dirData, sta, dba, dirData2, dbb, _, hl, hm, hrest⟩ := walk_first_ok h
  obtain ⟨_, _, c, hc, hlog⟩ := mergeRange_ok hm
  obtain ⟨post, hpost, hall⟩ := walk_rest_loads dag res r _ _ _ _ db1 (by rw [hrest]; rfl)
  have hmlog : dbb.log = dba.log ++ [Event.addFile d (baseName r.file.path) c r.length] := by
    rcases hlog with ⟨_, h1⟩ | ⟨h1, _⟩
    · exact h1
    · rw [hw] at h1; cases h1
  have hname := baseName_spec r.file.path
  rcases (loadDir_ok hl).2 with h1 | h1
  · exact ⟨c, [], post, hc, by rw [hpost, hmlog, h1.2.2]; simp, Or.inl rfl, hall, hname.1,
      hname.2⟩
  · exact ⟨c, [Event.loadDir d], post, hc, by rw [hpost, hmlog, h1.2.2.2.2], Or.inr rfl, hall,
      hname.1, hname.2⟩

/-- Witness of `walk_whole_file_merges_once`: the walk of the whole-file range of
`sub/a` from directory 11 up to the root. -/
theorem walk_whole_file_merges_once_witness :
    ∃ st1 db1, walk specDaggen (exResult []) rangeA 4 true rangeA.file.directoryId
        { dirCache := [], childrenCache := [] } (exDb []) = Res.ok st1 db1 ∧
      ∃ c pre post,
        (exResult []).fileRangeCIDs.lookup rangeA.id = some c ∧
        db1.log = (exDb []).log ++ pre ++
          [Event.addFile 11 (baseName rangeA.file.path) c rangeA.length] ++ post ∧
        (pre = [] ∨ pre = [Event.loadDir 11]) ∧
        (∀ e ∈ post, e.isLoad = true) ∧
        '/' ∉ baseName rangeA.file.path ∧
        (('/' ∉ rangeA.file.path ∧ baseName rangeA.file.path = rangeA.file.path) ∨
          ∃ p, rangeA.file.path = p ++ '/' :: baseName rangeA.file.path) :=
  ⟨_, _, rfl,
    walk_whole_file_merges_once specDaggen (exResult []) rangeA 4 11
      { dirCache := [], childrenCache := [] } _ (exDb []) _ rfl rfl rfl⟩

/-! ## Writes of `File.cid` -/

theorem insertByOffset_sorted (r : FileRange) :
    ∀ l : List FileRange, l.Pairwise (fun a b => a.offset ≤ b.offset) →
      (insertByOffset r l).Pairwise (fun a b => a.offset ≤ b.offset) := by
  intro l
  induction l with
  | nil => intro _; simp [insertByOffset]
  | cons x xs ih =>
    intro h
    rw [List.pairwise_cons] at h
    unfold insertByOffset
    split
    · next hlt =>
      rw [List.pairwise_cons]
      refine ⟨?_, List.pairwise_cons.2 h⟩
      intro y hy
      rcases List.mem_cons.1 hy with h1 | h1
      · subst h1; omega
      · have := h.1 y h1; omega
    · next hge =>
      rw [List.pairwise_cons]
      refine ⟨?_, ih h.2⟩
      intro y hy
      rcases List.mem_cons.1 ((insertByOffset_perm r xs).mem_iff.1 hy) with h1 | h1
      · subst h1; omega
      · exact h.1 y h1

theorem sortByOffset_sorted :
    ∀ l : List FileRange, (sortByOffset l).Pairwise (fun a b => a.offset ≤ b.offset) := by
  intro l
  induction l with
  | nil => simp [sortByOffset]
  | cons x xs ih => exact insertByOffset_sorted x _ ih

/-- The first loop handles its ranges one after the other: the loop over `r :: rs`
is the loop over `[r]` followed, when that succeeds, by the loop over `rs`. -/
theorem rangeLoop_cons (retries : Nat) (res : PackResult) (r : JobRange) (rs : List JobRange)
    (db : Db) :
    rangeLoop retries res (r :: rs) db =
      match rangeLoop retries res [r] db with
      | .ok _ db1 => rangeLoop retries res rs db1
      | other => other := by
  simp only [rangeLoop]
  cases res.fileRangeCIDs.lookup r.id with
  | none => rfl
  | some c =>
    dsimp only
    cases DoRetry (updateRangeCid r.id c) retries () db with
    | diverge => rfl
    | fail e s db1 => rfl
    | ok s db1 =>
      dsimp only
      by_cases hw : r.wholeFile = true
      · simp only [hw, if_true]
        cases DoRetry (updateFileCid r.fileId c) retries () db1 with
        | diverge => rfl
        | fail e s db2 => rfl
        | ok s db2 => rfl
      · have hw2 : r.wholeFile = false := by simpa using hw
        simp only [hw2, Bool.false_eq_true, if_false]

theorem rangeLoop_single (retries : Nat) (res : PackResult) (r : JobRange) (db db1 : Db)
    (h : (rangeLoop retries res [r] db).final = some db1) :
    db1.log = db.log ∨
    (r.wholeFile = true ∧ ∃ c, res.fileRangeCIDs.lookup r.id = some c ∧
      db1.log = db.log ++ [Event.setFileCid r.fileId c]) := by
  unfold rangeLoop at h
  split at h
  · simp only [Res.final, Option.some.injEq] at h; subst h; exact Or.inl rfl
  · next c hc =>
    split at h
    · cases h
    · next heq =>
      simp only [Res.final, Option.some.injEq] at h; subst h
      exact Or.inl (DoRetry_updateRangeCid_fail _ _ _ _ _ _ _ _ heq).2
    · next s2 db2 heq =>
      have h2 := (DoRetry_updateRangeCid_ok _ _ _ _ _ _ _ heq).2
      split at h
      · next hw =>
        split at h
        · cases h
        · next heq3 =>
          simp only [Res.final, Option.some.injEq] at h; subst h
          left; rw [(DoRetry_updateFileCid_fail _ _ _ _ _ _ _ _ heq3).2, h2]
        · next s3 db3 heq3 =>
          simp only [rangeLoop, Res.final, Option.some.injEq] at h; subst h
          right
          exact ⟨hw, c, hc, by rw [(DoRetry_updateFileCid_ok _ _ _ _ _ _ _ heq3).2, h2]⟩
      · simp only [rangeLoop, Res.final, Option.some.injEq] at h; subst h
        exact Or.inl h2

theorem rangeLoop_single_ok (retries : Nat) (res : PackResult) (r : JobRange) (db db1 : Db)
    (s : Unit) (h : rangeLoop retries res [r] db = .ok s db1) (hw : r.wholeFile = true) :
    ∃ c, res.fileRangeCIDs.lookup r.id = some c ∧
      db1.log = db.log ++ [Event.setFileCid r.fileId c] ∧
      db1.cat = (db.cat.setRangeCid r.id c).setFileCid r.fileId c := by
  unfold rangeLoop at h
  split at h
  · cases h
  · next c hc =>
    split at h
    · cases h
    · cases h
    · next s2 db2 heq =>
      have h2 := DoRetry_updateRangeCid_ok _ _ _ _ _ _ _ heq
      rw [if_pos hw] at h
      split at h
      · cases h
      · cases h
      · next s3 db3 heq3 =>
        simp only [rangeLoop, Res.ok.injEq] at h
        obtain ⟨_, h⟩ := h
        subst h
        have h3 := DoRetry_updateFileCid_ok _ _ _ _ _ _ _ heq3
        exact ⟨c, hc, by rw [h3.2, h2.2], by rw [h3.1, h2.1]⟩

theorem walk_first_writes {D : Type} (dag : Daggen D) (res : PackResult) (r : JobRange)
    (fuel : Nat) (st : WalkState D) (db db1 : Db)
    (h : (walk dag res r fuel true r.file.directoryId st db).final = some db1) :
    ∃ evs, db1.log = db.log ++ evs ∧
      ∀ fid c1, Event.setFileCid fid c1 ∈ evs →
        fid = r.fileId ∧ r.wholeFile = false ∧
        ∃ (c : Cid) (dirData : DirectoryData D) (node : D),
          res.fileRangeCIDs.lookup r.id = some c ∧
          ((db.cat.setRangeCid r.id c).rangesOfFile r.fileId).all (fun p => p.cid.isSome) = true ∧
          dag.AddFileFromLinks dirData.node (baseName r.file.path)
            (linksOf ((db.cat.setRangeCid r.id c).rangesOfFile r.fileId)) = some (node, c1) := by
  cases hd : r.file.directoryId with
  | none =>
    rw [hd] at h
    simp only [walk, Res.final, Option.some.injEq] at h
    subst h; exact ⟨[], by simp, by simp⟩
  | some d =>
    rw [hd] at h
    cases fuel with
    | zero => simp [walk, Res.final] at h
    | succ fuel1 =>
      simp only [walk] at h
      cases hl : loadDir dag d st db with
      | fail e sta dba =>
        rw [hl] at h
        simp only [Res.final, Option.some.injEq] at h; subst h
        exact ⟨[], by simp [(loadDir_fail hl).2.1], by simp⟩
      | ok dirData sta dba =>
        rw [hl] at h
        have hload : dba.cat = db.cat ∧ ∃ pre, dba.log = db.log ++ pre ∧
            ∀ e ∈ pre, e.isLoad = true := by
          refine ⟨(loadDir_ok hl).1, ?_⟩
          rcases (loadDir_ok hl).2 with h1 | h1
          · exact ⟨[], by simp [h1.2.2], by simp⟩
          · exact ⟨[Event.loadDir d], h1.2.2.2.2, by simp [Event.isLoad]⟩
        obtain ⟨hcat, pre, hpre, hpreall⟩ := hload
        simp only [if_true] at h
        cases hm : mergeRange dag res r d dirData dba with
        | diverge => exact absurd hm (mergeRange_ne_diverge _ _ _ _ _ _)
        | fail e2 d2 dbb =>
          rw [hm] at h
          simp only [Res.final, Option.some.injEq] at h; subst h
          obtain ⟨evs, hevs, hall⟩ := mergeRange_fail hm
          refine ⟨pre ++ evs, by rw [hevs, hpre, List.append_assoc], ?_⟩
          intro fid c1 hmem
          rcases List.mem_append.1 hmem with h1 | h1
          · have := hpreall _ h1; simp [Event.isLoad] at this
          · have := hall _ h1; simp [Event.isMerge] at this
        | ok dirData2 dbb =>
          rw [hm] at h
          obtain ⟨post, hpost, hpostall⟩ := walk_rest_loads dag res r _ _ _ _ db1 h
          obtain ⟨_, _, c, hc, hlog⟩ := mergeRange_ok hm
          rw [hcat] at hlog
          rcases hlog with ⟨hw, hl1⟩ | ⟨hw, hl1 | ⟨node, c1, hall, hadd, hl1⟩⟩
          · refine ⟨pre ++ [Event.addFile d (baseName r.file.path) c r.length] ++ post,
              by rw [hpost, hl1, hpre]; simp, ?_⟩
            intro fid c1 hmem
            simp only [List.mem_append, List.mem_singleton] at hmem
            rcases hmem with (h1 | h1) | h1
            · have := hpreall _ h1; simp [Event.isLoad] at this
            · cases h1
            · have := hpostall _ h1; simp [Event.isLoad] at this
          · refine ⟨pre ++ post, by rw [hpost, hl1, hpre]; simp, ?_⟩
            intro fid c1 hmem
            rcases List.mem_append.1 hmem with h1 | h1
            · have := hpreall _ h1; simp [Event.isLoad] at this
            · have := hpostall _ h1; simp [Event.isLoad] at this
          · refine ⟨pre ++ [Event.addFileFromLinks d (baseName r.file.path)
                (linksOf ((db.cat.setRangeCid r.id c).rangesOfFile r.fileId)),
                Event.setFileCid r.fileId c1] ++ post,
              by rw [hpost, hl1, hpre]; simp, ?_⟩
            intro fid c2 hmem
            simp only [List.mem_append, List.mem_cons, List.mem_singleton] at hmem
            rcases hmem with (h1 | h1 | h1 | h1) | h1
            · have := hpreall _ h1; simp [Event.isLoad] at this
            · cases h1
            · cases h1
              exact ⟨rfl, hw, c, dirData, node, hc, hall, hadd⟩
            · cases h1
            · have := hpostall _ h1; simp [Event.isLoad] at this


/-! ## Writes of `File.cid` by `Pack` as a whole -/

theorem writesFrom_refl (P : Nat → Cid → Prop) (l : List Event) : WritesFrom P l l :=
  ⟨[], by simp, by simp⟩

theorem writesFrom_append {P : Nat → Cid → Prop} {l0 l l1 : List Event} (evs : List Event)
    (h : WritesFrom P l0 l) (hl : l1 = l ++ evs)
    (hev : ∀ fid c1, Event.setFileCid fid c1 ∈ evs → P fid c1) : WritesFrom P l0 l1 := by
  obtain ⟨evs0, rfl, h0⟩ := h
  refine ⟨evs0 ++ evs, by rw [hl, List.append_assoc], ?_⟩
  intro fid c1 hm
  rcases List.mem_append.1 hm with h1 | h1
  · exact h0 fid c1 h1
  · exact hev fid c1 h1

theorem writesFrom_mono {P Q : Nat → Cid → Prop} {l0 l : List Event}
    (h : WritesFrom P l0 l) (hpq : ∀ fid c1, P fid c1 → Q fid c1) : WritesFrom Q l0 l := by
  obtain ⟨evs, hl, h0⟩ := h
  exact ⟨evs, hl, fun fid c1 hm => hpq fid c1 (h0 fid c1 hm)⟩

theorem rangesOfFile_congr {cat1 cat2 : Catalog} (h : cat1.fileRanges = cat2.fileRanges)
    (fid : Nat) : cat1.rangesOfFile fid = cat2.rangesOfFile fid := by
  unfold Catalog.rangesOfFile
  rw [h]

/-- The writes of `File.cid` of the first loop, however it ends. -/
theorem rangeLoop_writes (retries : Nat) (res : PackResult) :
    ∀ (rs : List JobRange) (db db1 : Db),
      (rangeLoop retries res rs db).final = some db1 →
      WritesFrom (fun fid c1 => ∃ r ∈ rs, fid = r.fileId ∧ r.wholeFile = true ∧
        res.fileRangeCIDs.lookup r.id = some c1) db.log db1.log := by
  intro rs
  induction rs with
  | nil =>
    intro db db1 h
    simp only [rangeLoop, Res.final, Option.some.injEq] at h
    subst h
    exact writesFrom_refl _ _
  | cons r rs ih =>
    intro db db1 h
    rw [rangeLoop_cons] at h
    have hsingle := rangeLoop_single retries res r db
    have hstep : ∀ dba, (rangeLoop retries res [r] db).final = some dba →
        WritesFrom (fun fid c1 => ∃ r1 ∈ r :: rs, fid = r1.fileId ∧ r1.wholeFile = true ∧
          res.fileRangeCIDs.lookup r1.id = some c1) db.log dba.log := by
      intro dba hfa
      rcases hsingle dba hfa with h1 | ⟨hw, c, hc, h1⟩
      · rw [h1]; exact writesFrom_refl _ _
      · refine ⟨[Event.setFileCid r.fileId c], h1, ?_⟩
        intro fid c1 hm
        simp only [List.mem_singleton, Event.setFileCid.injEq] at hm
        obtain ⟨rfl, rfl⟩ := hm
        exact ⟨r, List.mem_cons_self _ _, rfl, hw, hc⟩
    cases hr : rangeLoop retries res [r] db with
    | diverge => rw [hr] at h; cases h
    | fail e s dba =>
      rw [hr] at h
      simp only [Res.final, Option.some.injEq] at h
      subst h
      exact hstep _ (by rw [hr]; rfl)
    | ok s dba =>
      rw [hr] at h
      dsimp only at h
      have h1 := hstep dba (by rw [hr]; rfl)
      obtain ⟨evs, hl, hev⟩ := ih dba db1 h
      exact writesFrom_append evs h1 hl (fun fid c1 hm => by
        obtain ⟨r1, hr1, hrest⟩ := hev fid c1 hm
        exact ⟨r1, List.mem_cons_of_mem _ hr1, hrest⟩)

theorem walk_rest_cat {D : Type} (dag : Daggen D) (res : PackResult) (r : JobRange) :
    ∀ (fuel : Nat) (dirID : Option Nat) (st : WalkState D) (db db1 : Db),
      (walk dag res r fuel false dirID st db).final = some db1 → db1.cat = db.cat := by
  intro fuel
  induction fuel with
  | zero =>
    intro dirID st db db1 h
    cases dirID with
    | none =>
      simp only [walk, Res.final, Option.some.injEq] at h
      subst h; rfl
    | some d => simp [walk, Res.final] at h
  | succ fuel ih =>
    intro dirID st db db1 h
    cases dirID with
    | none =>
      simp only [walk, Res.final, Option.some.injEq] at h
      subst h; rfl
    | some d =>
      simp only [walk] at h
      cases hl : loadDir dag d st db with
      | fail e sta dba =>
        rw [hl] at h
        simp only [Res.final, Option.some.injEq] at h
        subst h
        exact (loadDir_fail hl).1
      | ok dirData sta dba =>
        rw [hl] at h
        simp only [Bool.false_eq_true, if_false] at h
        rw [ih _ _ _ _ h, (loadDir_ok hl).1]

theorem mergeRange_fileRanges {D : Type} {dag : Daggen D} {res : PackResult} {r : JobRange}
    {d : Nat} {dirData : DirectoryData D} {db db2 : Db}
    (h : (mergeRange dag res r d dirData db).final = some db2) :
    db2.cat.fileRanges = db.cat.fileRanges ∨
    ∃ c, res.fileRangeCIDs.lookup r.id = some c ∧
      db2.cat.fileRanges = (db.cat.setRangeCid r.id c).fileRanges := by
  unfold mergeRange at h
  split at h
  · simp only [Res.final, Option.some.injEq] at h; subst h; exact Or.inl rfl
  · next c hc =>
    split at h
    · next e db1 hn =>
      have hn1 := Db.next_eq hn
      simp only [Res.final, Option.some.injEq] at h; subst h
      exact Or.inl (by rw [hn1.1])
    · next db1 hn =>
      have hn1 := Db.next_eq hn
      dsimp only at h
      split at h
      · split at h
        · simp only [Res.final, Option.some.injEq] at h; subst h
          exact Or.inr ⟨c, hc, by simp [hn1.1]⟩
        · simp only [Res.final, Option.some.injEq] at h; subst h
          exact Or.inr ⟨c, hc, by simp [hn1.1]⟩
      · split at h
        · next e3 db3 hn3 =>
          have h3 := Db.next_eq hn3
          simp only [Db.write_cat, Db.write_log] at h3
          simp only [Res.final, Option.some.injEq] at h; subst h
          exact Or.inr ⟨c, hc, by simp [h3.1, hn1.1]⟩
        · next db3 hn3 =>
          have h3 := Db.next_eq hn3
          simp only [Db.write_cat, Db.write_log] at h3
          split at h
          · split at h
            · simp only [Res.final, Option.some.injEq] at h; subst h
              exact Or.inr ⟨c, hc, by simp [h3.1, hn1.1]⟩
            · split at h
              · next e5 db5 hn5 =>
                have h5 := Db.next_eq hn5
                simp only [Db.record_cat, Db.record_log] at h5
                simp only [Res.final, Option.some.injEq] at h; subst h
                exact Or.inr ⟨c, hc, by simp [h5.1, h3.1, hn1.1]⟩
              · next db5 hn5 =>
                have h5 := Db.next_eq hn5
                simp only [Db.record_cat, Db.record_log] at h5
                simp only [Res.final, Option.some.injEq] at h; subst h
                exact Or.inr ⟨c, hc, by
                  simp [h5.1, h3.1, hn1.1, Catalog.setFileCid, Catalog.setRangeCid]⟩
          · simp only [Res.final, Option.some.injEq] at h; subst h
            exact Or.inr ⟨c, hc, by simp [h3.1, hn1.1]⟩

/-- The walk of a range whose cid the catalog already holds leaves table
`file_ranges` as it is. -/
theorem walk_fileRanges {D : Type} (dag : Daggen D) (res : PackResult) (r : JobRange)
    (fuel : Nat) (first : Bool) (dirID : Option Nat) (st : WalkState D) (db db1 : Db)
    (hnoop : ∀ c, res.fileRangeCIDs.lookup r.id = some c →
      (db.cat.setRangeCid r.id c).fileRanges = db.cat.fileRanges)
    (h : (walk dag res r fuel first dirID st db).final = some db1) :
    db1.cat.fileRanges = db.cat.fileRanges := by
  cases dirID with
  | none =>
    simp only [walk, Res.final, Option.some.injEq] at h
    subst h; rfl
  | some d =>
    cases fuel with
    | zero => simp [walk, Res.final] at h
    | succ fuel1 =>
      simp only [walk] at h
      cases hl : loadDir dag d st db with
      | fail e sta dba =>
        rw [hl] at h
        simp only [Res.final, Option.some.injEq] at h; subst h
        rw [(loadDir_fail hl).1]
      | ok dirData sta dba =>
        rw [hl] at h
        have hcat := (loadDir_ok hl).1
        cases first with
        | false =>
          simp only [Bool.false_eq_true, if_false] at h
          rw [walk_rest_cat dag res r _ _ _ _ _ h, hcat]
        | true =>
          simp only [if_true] at h
          have hmerge : ∀ dbb, (mergeRange dag res r d dirData dba).final = some dbb →
              dbb.cat.fileRanges = db.cat.fileRanges := by
            intro dbb hb
            rcases mergeRange_fileRanges hb with h1 | ⟨c, hc, h1⟩
            · rw [h1, hcat]
            · rw [h1, hcat]; exact hnoop c hc
          cases hm : mergeRange dag res r d dirData dba with
          | diverge => exact absurd hm (mergeRange_ne_diverge _ _ _ _ _ _)
          | fail e2 d2 dbb =>
            rw [hm] at h
            simp only [Res.final, Option.some.injEq] at h; subst h
            exact hmerge _ (by rw [hm]; rfl)
          | ok dirData2 dbb =>
            rw [hm] at h
            rw [walk_rest_cat dag res r _ _ _ _ _ h]
            exact hmerge _ (by rw [hm]; rfl)

theorem rangeCidAfter_eq (res : PackResult) (id : Nat) (c : Cid)
    (hc : res.fileRangeCIDs.lookup id = some c) :
    ∀ (rs : List JobRange) (c0 : Option Cid),
      (∀ r ∈ rs, ∃ c1, res.fileRangeCIDs.lookup r.id = some c1) →
      (c0 = some c ∨ ∃ r ∈ rs, r.id = id) →
      rangeCidAfter res rs id c0 = some c := by
  intro rs
  induction rs with
  | nil =>
    intro c0 _ h
    rcases h with h | ⟨r, hr, _⟩
    · simpa [rangeCidAfter] using h
    · cases hr
  | cons r rs ih =>
    intro c0 hl h
    obtain ⟨c1, hc1⟩ := hl r (List.mem_cons_self _ _)
    have hl2 : ∀ r2 ∈ rs, ∃ c2, res.fileRangeCIDs.lookup r2.id = some c2 :=
      fun r2 hr2 => hl r2 (List.mem_cons_of_mem _ hr2)
    simp only [rangeCidAfter, hc1]
    apply ih _ hl2
    by_cases hid : id = r.id
    · left
      rw [← hid, hc] at hc1
      simp [hid, ← hc1]
    · rcases h with h | ⟨r2, hr2, hid2⟩
      · left; simpa [hid] using h
      · rcases List.mem_cons.1 hr2 with h1 | h1
        · subst h1; exact absurd hid2.symm hid
        · right; exact ⟨r2, h1, hid2⟩

/-- Once the first loop is done, writing the cid of a range of the job again
changes nothing in table `file_ranges`. -/
theorem applyRangeCids_noop (res : PackResult) (rs : List JobRange) (cat : Catalog)
    (hl : ∀ r ∈ rs, ∃ c1, res.fileRangeCIDs.lookup r.id = some c1)
    (r : JobRange) (hr : r ∈ rs) (c : Cid) (hc : res.fileRangeCIDs.lookup r.id = some c) :
    ((applyRangeCids res rs cat).setRangeCid r.id c).fileRanges =
      (applyRangeCids res rs cat).fileRanges := by
  rw [applyRangeCids_eq]
  simp only [Catalog.setRangeCid, List.map_map]
  apply List.map_congr_left
  intro row _
  by_cases hid : row.id = r.id
  · have := rangeCidAfter_eq res row.id c (by rw [hid]; exact hc) rs row.cid hl
      (Or.inr ⟨r, hr, hid.symm⟩)
    simp only [Function.comp_apply]
    rw [if_pos hid, this]
  · simp only [Function.comp_apply]
    rw [if_neg hid]

theorem setRangeCid_fileRanges_congr {cat1 cat2 : Catalog}
    (h : cat1.fileRanges = cat2.fileRanges) (id : Nat) (c : Cid) :
    (cat1.setRangeCid id c).fileRanges = (cat2.setRangeCid id c).fileRanges := by
  simp [Catalog.setRangeCid, h]

/-- The writes of `File.cid` of the range loop of the directory transaction, on a
catalog whose table `file_ranges` is the one the first loop left. -/
theorem walkRanges_writes {D : Type} (dag : Daggen D) (res : PackResult) (fuel : Nat)
    (base : Catalog) :
    ∀ (rs : List JobRange) (st : WalkState D) (db db1 : Db),
      db.cat.fileRanges = base.fileRanges →
      (∀ r ∈ rs, ∀ c, res.fileRangeCIDs.lookup r.id = some c →
        (base.setRangeCid r.id c).fileRanges = base.fileRanges) →
      (walkRanges dag res fuel rs st db).final = some db1 →
      db1.cat.fileRanges = base.fileRanges ∧
      WritesFrom (fun fid c1 => ∃ r ∈ rs, fid = r.fileId ∧ r.wholeFile = false ∧
        ∃ (c : Cid) (dirData : DirectoryData D) (node : D),
          res.fileRangeCIDs.lookup r.id = some c ∧
          (base.rangesOfFile r.fileId).all (fun p => p.cid.isSome) = true ∧
          dag.AddFileFromLinks dirData.node (baseName r.file.path)
            (linksOf (base.rangesOfFile r.fileId)) = some (node, c1)) db.log db1.log := by
  intro rs
  induction rs with
  | nil =>
    intro st db db1 hb _ h
    simp only [walkRanges, Res.final, Option.some.injEq] at h
    subst h
    exact ⟨hb, writesFrom_refl _ _⟩
  | cons r rs ih =>
    intro st db db1 hb hnoop h
    have hnoopr : ∀ c, res.fileRangeCIDs.lookup r.id = some c →
        (db.cat.setRangeCid r.id c).fileRanges = db.cat.fileRanges := by
      intro c hc
      rw [setRangeCid_fileRanges_congr hb, hnoop r (List.mem_cons_self _ _) c hc, hb]
    have hstep : ∀ dba, (walk dag res r fuel true r.file.directoryId st db).final = some dba →
        dba.cat.fileRanges = base.fileRanges ∧
        WritesFrom (fun fid c1 => ∃ r1 ∈ r :: rs, fid = r1.fileId ∧ r1.wholeFile = false ∧
          ∃ (c : Cid) (dirData : DirectoryData D) (node : D),
            res.fileRangeCIDs.lookup r1.id = some c ∧
            (base.rangesOfFile r1.fileId).all (fun p => p.cid.isSome) = true ∧
            dag.AddFileFromLinks dirData.node (baseName r1.file.path)
              (linksOf (base.rangesOfFile r1.fileId)) = some (node, c1)) db.log dba.log := by
      intro dba hfa
      refine ⟨by rw [walk_fileRanges dag res r _ _ _ _ _ _ hnoopr hfa, hb], ?_⟩
      obtain ⟨evs, hl, hev⟩ := walk_first_writes dag res r fuel st db dba hfa
      refine ⟨evs, hl, ?_⟩
      intro fid c1 hm
      obtain ⟨hfid, hw, c, dirData, node, hc, hall, hadd⟩ := hev fid c1 hm
      have hparts : (db.cat.setRangeCid r.id c).rangesOfFile r.fileId =
          base.rangesOfFile r.fileId :=
        rangesOfFile_congr ((hnoopr c hc).trans hb) _
      rw [hparts] at hall hadd
      exact ⟨r, List.mem_cons_self _ _, hfid, hw, c, dirData, node, hc, hall, hadd⟩
    unfold walkRanges at h
    cases hw : walk dag res r fuel true r.file.directoryId st db with
    | diverge => rw [hw] at h; cases h
    | fail e sta dba =>
      rw [hw] at h
      simp only [Res.final, Option.some.injEq] at h
      subst h
      exact hstep _ (by rw [hw]; rfl)
    | ok sta dba =>
      rw [hw] at h
      dsimp only at h
      obtain ⟨hba, hwa⟩ := hstep dba (by rw [hw]; rfl)
      obtain ⟨hb1, evs, hl, hev⟩ := ih sta dba db1 hba
        (fun r1 hr1 => hnoop r1 (List.mem_cons_of_mem _ hr1)) h
      exact ⟨hb1, writesFrom_append evs hwa hl (fun fid c1 hm => by
        obtain ⟨r1, hr1, hrest⟩ := hev fid c1 hm
        exact ⟨r1, List.mem_cons_of_mem _ hr1, hrest⟩)⟩

theorem dirTxBody_writes {D : Type} (dag : Daggen D) (job : PackJob) (res : PackResult)
    (fuel : Nat) (base : Catalog) (l0 : List Event)
    (hnoop : ∀ r ∈ job.fileRanges, ∀ c, res.fileRangeCIDs.lookup r.id = some c →
      (base.setRangeCid r.id c).fileRanges = base.fileRanges)
    (P : Nat → Cid → Prop)
    (hP : ∀ fid c1, (∃ r ∈ job.fileRanges, fid = r.fileId ∧ r.wholeFile = false ∧
        ∃ (c : Cid) (dirData : DirectoryData D) (node : D),
          res.fileRangeCIDs.lookup r.id = some c ∧
          (base.rangesOfFile r.fileId).all (fun p => p.cid.isSome) = true ∧
          dag.AddFileFromLinks dirData.node (baseName r.file.path)
            (linksOf (base.rangesOfFile r.fileId)) = some (node, c1)) → P fid c1)
    (s : Unit) (db : Db) (h1 : db.cat.fileRanges = base.fileRanges)
    (h2 : WritesFrom P l0 db.log) :
    (dirTxBody dag job res fuel s db).All (fun cat => cat.fileRanges = base.fileRanges)
      (WritesFrom P l0) := by
  have hw := walkRanges_writes dag res fuel base job.fileRanges
    { dirCache := [], childrenCache := [] } db
  have hD : DirStable (fun cat => cat.fileRanges = base.fileRanges) := fun _ _ _ _ h => h
  unfold dirTxBody
  cases hr : walkRanges dag res fuel job.fileRanges { dirCache := [], childrenCache := [] } db with
  | diverge => trivial
  | fail e sta dba =>
    obtain ⟨ha, evs, hl, hev⟩ := hw dba h1 hnoop (by rw [hr]; rfl)
    exact ⟨ha, writesFrom_append evs h2 hl (fun fid c1 hm => hP fid c1 (hev fid c1 hm))⟩
  | ok sta dba =>
    obtain ⟨ha, evs, hl, hev⟩ := hw dba h1 hnoop (by rw [hr]; rfl)
    have hk : WritesFrom P l0 dba.log :=
      writesFrom_append evs h2 hl (fun fid c1 hm => hP fid c1 (hev fid c1 hm))
    dsimp only
    split
    · next e db2 hn =>
      have := Db.next_eq hn
      simp only [Res.All, this.1, this.2]; exact ⟨ha, hk⟩
    · next db2 hn =>
      have := Db.next_eq hn
      split
      · simp only [Res.All, this.1, this.2]; exact ⟨ha, hk⟩
      · split
        · simp only [Res.All, this.1, this.2]; exact ⟨ha, hk⟩
        · apply updateDirectories_All hD
          · rw [this.1]; exact ha
          · rw [this.2]; exact hk

theorem deleteLoop_events (res : PackResult) :
    ∀ (rs : List JobRange) (handled : List Nat) (db : Db) (b : Bool) (db1 : Db),
      deleteLoop res rs handled db = (b, db1) →
      ∃ evs, db1.log = db.log ++ evs ∧ ∀ e ∈ evs, e.isUpdate = false := by
  intro rs
  induction rs with
  | nil =>
    intro handled db b db1 h
    simp only [deleteLoop] at h
    cases h
    exact ⟨[], by simp, by simp⟩
  | cons r rs ih =>
    intro handled db b db1 h
    have hcons : ∀ (e : Event) (dbx : Db), e.isUpdate = false →
        (∃ evs, db1.log = (dbx.record e).log ++ evs ∧ ∀ e1 ∈ evs, e1.isUpdate = false) →
        ∃ evs, db1.log = dbx.log ++ evs ∧ ∀ e1 ∈ evs, e1.isUpdate = false := by
      intro e dbx he hx
      obtain ⟨evs, hl, hall⟩ := hx
      refine ⟨e :: evs, by simp [hl], ?_⟩
      intro e1 he1
      rcases List.mem_cons.1 he1 with h1 | h1
      · subst h1; exact he
      · exact hall e1 h1
    unfold deleteLoop at h
    split at h
    · exact ih _ _ _ _ h
    · split at h
      · split at h
        · cases h; exact ⟨[], by simp, by simp⟩
        · exact hcons (Event.remove r.fileId) db rfl (ih _ _ _ _ h)
      · split at h
        · next e db2 hn =>
          have hn2 := Db.next_eq hn
          obtain ⟨evs, hl, hall⟩ := hcons (Event.countFailed r.fileId) db2 rfl (ih _ _ _ _ h)
          exact ⟨evs, by rw [hl, hn2.2], hall⟩
        · next db2 hn =>
          have hn2 := Db.next_eq hn
          split at h
          · obtain ⟨evs, hl, hall⟩ := ih _ _ _ _ h
            exact ⟨evs, by rw [hl, hn2.2], hall⟩
          · split at h
            · cases h; exact ⟨[], by simp [hn2.2], by simp⟩
            · obtain ⟨evs, hl, hall⟩ := hcons (Event.remove r.fileId) db2 rfl (ih _ _ _ _ h)
              exact ⟨evs, by rw [hl, hn2.2], hall⟩

/-- The writes of `File.cid` of the catalog update, however it ends. -/
theorem catalogUpdate_writes {D : Type} (env : Env D) (fuel : Nat) (job : PackJob)
    (res : PackResult) (db db1 : Db)
    (h : (catalogUpdate env fuel job res db).final = some db1) :
    WritesFrom (FileCidSource env.dag res job db.cat) db.log db1.log := by
  have hfirst : ∀ dba, (rangeLoop env.retries res job.fileRanges db).final = some dba →
      WritesFrom (FileCidSource env.dag res job db.cat) db.log dba.log := by
    intro dba hfa
    apply writesFrom_mono (rangeLoop_writes env.retries res job.fileRanges db dba hfa)
    intro fid c1 hsrc
    obtain ⟨r, hr, hfid, hw, hc⟩ := hsrc
    exact ⟨r, hr, hfid, c1, hc, Or.inl ⟨hw, rfl⟩⟩
  unfold catalogUpdate at h
  cases hr : rangeLoop env.retries res job.fileRanges db with
  | diverge => rw [hr] at h; cases h
  | fail e s dba =>
    rw [hr] at h
    simp only [Res.final, Option.some.injEq] at h
    subst h
    exact hfirst _ (by rw [hr]; rfl)
  | ok s dba =>
    rw [hr] at h
    dsimp only at h
    have hk := hfirst dba (by rw [hr]; rfl)
    have hcat := rangeLoop_ok_cat _ _ _ _ _ _ hr
    have hlook := rangeLoop_ok_lookup _ _ _ _ _ _ hr
    have hC : CarStable (fun cat => cat.fileRanges =
        (applyRangeCids res job.fileRanges db.cat).fileRanges) := ⟨fun _ _ h => h, fun _ _ h => h⟩
    have hc := carStage_All (K := WritesFrom (FileCidSource env.dag res job db.cat) db.log) hC
      job res.carResults env.retries [] dba (by rw [hcat]) hk
    cases hcar : DoRetry (Transaction (carTxBody job res.carResults)) env.retries [] dba with
    | diverge => rw [hcar] at h; cases h
    | fail e2 s2 dbb =>
      rw [hcar] at h hc
      simp only [Res.final, Option.some.injEq] at h
      subst h
      exact hc.2
    | ok cars dbb =>
      rw [hcar] at h hc
      dsimp only at h
      have hd := DoRetry_All
        (J := fun cat => cat.fileRanges = (applyRangeCids res job.fileRanges db.cat).fileRanges)
        (K := WritesFrom (FileCidSource env.dag res job db.cat) db.log)
        (Transaction (dirTxBody env.dag job res fuel))
        (fun s1 dbx a1 b1 => Transaction_All _
          (fun s2 dby a2 b2 => dirTxBody_writes env.dag job res fuel
            (applyRangeCids res job.fileRanges db.cat) db.log
            (fun r hr c hcr => applyRangeCids_noop res job.fileRanges db.cat hlook r hr c hcr)
            (FileCidSource env.dag res job db.cat)
            (fun fid c1 hsrc => by
              obtain ⟨r, hr, hfid, hw, c, dirData, node, hcr, hall, hadd⟩ := hsrc
              exact ⟨r, hr, hfid, c, hcr, Or.inr ⟨hw, dirData, node, hall, hadd⟩⟩)
            s2 dby a2 b2) s1 dbx a1 b1)
        env.retries () dbb hc.1 hc.2
      cases hdir : DoRetry (Transaction (dirTxBody env.dag job res fuel)) env.retries () dbb with
      | diverge => rw [hdir] at h; cases h
      | fail e3 s3 dbc =>
        rw [hdir] at h hd
        simp only [Res.final, Option.some.injEq] at h
        subst h
        exact hd.2
      | ok s3 dbc =>
        rw [hdir] at h hd
        simp only [Res.final, Option.some.injEq] at h
        subst h
        exact hd.2

/-- C6: every value that a call of `Pack` writes to `File.cid`.  Each write made
by the call belongs to a range `r` of the job and goes to the file of `r`.  If
`r` is whole-file the value is the cid of the range, `result.FileRangeCIDs[r.id]`.
If `r` is not, the value is the cid returned by `AddFileFromLinks` for the name
of the file and the links `{cid, length}` of all ranges of the file, and the
write happens only when every range of the file has a cid; the ranges are read
in ascending offset order. -/
theorem Pack_file_cid_writes {D : Type} (env : Env D) (fuel : Nat) (job : PackJob)
    (db db1 : Db) (h : (Pack env fuel job db).final = some db1) :
    (∃ evs, db1.log = db.log ++ evs ∧
      ∀ fid c1, Event.setFileCid fid c1 ∈ evs →
        ∃ res, env.AssembleCar job.fileRanges = some res ∧
          FileCidSource env.dag res job db.cat fid c1) ∧
    (∀ (cat : Catalog) (fid : Nat),
      (cat.rangesOfFile fid).Pairwise (fun a b => a.offset ≤ b.offset) ∧
      (∀ row, row ∈ cat.rangesOfFile fid ↔ row ∈ cat.fileRanges ∧ row.fileId = fid) ∧
      linksOf (cat.rangesOfFile fid) =
        (cat.rangesOfFile fid).map (fun p => { size := p.length, cid := p.cid })) := by
  refine ⟨?_, fun _ _ => ⟨sortByOffset_sorted _, fun _ => mem_rangesOfFile, rfl⟩⟩
  unfold Pack at h
  split at h
  · split at h
    · simp only [Outcome.final, Option.some.injEq] at h
      subst h
      exact ⟨[], by simp, by simp⟩
    · next res hres =>
      have hcu := catalogUpdate_writes env fuel job res db
      cases hc : catalogUpdate env fuel job res db with
      | diverge => rw [hc] at h; cases h
      | fail e s dba =>
        rw [hc] at h
        simp only [Outcome.final, Option.some.injEq] at h
        subst h
        obtain ⟨evs, hl, hev⟩ := hcu _ (by rw [hc]; rfl)
        exact ⟨evs, hl, fun fid c1 hm => ⟨res, hres, hev fid c1 hm⟩⟩
      | ok cars dba =>
        rw [hc] at h
        dsimp only at h
        obtain ⟨evs, hl, hev⟩ := hcu dba (by rw [hc]; rfl)
        rcases deleteStage_final job res cars dba db1 h with h1 | ⟨b, hloop⟩
        · subst h1
          exact ⟨evs, hl, fun fid c1 hm => ⟨res, hres, hev fid c1 hm⟩⟩
        · obtain ⟨evs2, hl2, hall2⟩ := deleteLoop_events res _ _ _ _ _ hloop
          refine ⟨evs ++ evs2, by rw [hl2, hl, List.append_assoc], ?_⟩
          intro fid c1 hm
          rcases List.mem_append.1 hm with h1 | h1
          · exact ⟨res, hres, hev fid c1 h1⟩
          · have := hall2 _ h1
            simp [Event.isUpdate] at this
  · simp only [Outcome.final, Option.some.injEq] at h
    subst h
    exact ⟨[], by simp, by simp⟩

/-- Witness of `Pack_file_cid_writes`: a job with the whole-file range of `sub/a`
and both ranges of `b`.  `Pack` writes the cid of the range to `File.cid` of `sub/a` in
the first loop, and to `File.cid` of `b` the cid of the file node built from the
links of its two ranges, in the walk of each of the two ranges. -/
theorem Pack_file_cid_writes_witness :
    ∃ cars db1,
      Pack (exEnv (exResult [exCarResult ['x']])) 4 (exJob [rangeA, rangeB1, rangeB2])
        (exDb []) = Outcome.success cars db1 ∧
      db1.log.filter (fun e => match e with
        | .setFileCid _ _ => true
        | _ => false) =
        [Event.setFileCid 1 101, Event.setFileCid 2 (linksCid [⟨8, some 102⟩, ⟨12, some 103⟩]),
          Event.setFileCid 2 (linksCid [⟨8, some 102⟩, ⟨12, some 103⟩])] ∧
      ∃ evs, db1.log = (exDb []).log ++ evs ∧
        ∀ fid c1, Event.setFileCid fid c1 ∈ evs →
          ∃ res, (exEnv (exResult [exCarResult ['x']])).AssembleCar
              (exJob [rangeA, rangeB1, rangeB2]).fileRanges = some res ∧
            FileCidSource (exEnv (exResult [exCarResult ['x']])).dag res
              (exJob [rangeA, rangeB1, rangeB2]) (exDb []).cat fid c1 :=
  ⟨_, _, rfl, by decide,
    (Pack_file_cid_writes (exEnv (exResult [exCarResult ['x']])) 4
      (exJob [rangeA, rangeB1, rangeB2]) (exDb []) _ rfl).1⟩

/-! ## Go maps -/

theorem lookup_mem {β : Type} :
    ∀ (m : List (Nat × β)) (k : Nat) (v : β), m.lookup k = some v → (k, v) ∈ m := by
  intro m
  induction m with
  | nil => intro k v h; simp at h
  | cons kv rest ih =>
    intro k v h
    obtain ⟨k1, v1⟩ := kv
    by_cases hk : k = k1
    · subst hk
      simp only [List.lookup_cons, beq_self_eq_true] at h
      cases h
      exact List.mem_cons_self _ _
    · have : (k == k1) = false := by simpa using hk
      simp only [List.lookup_cons, this] at h
      exact List.mem_cons_of_mem _ (ih k v h)

theorem lookup_none_iff {β : Type} :
    ∀ (m : List (Nat × β)) (k : Nat), m.lookup k = none ↔ k ∉ m.map Prod.fst := by
  intro m
  induction m with
  | nil => intro k; simp
  | cons kv rest ih =>
    intro k
    obtain ⟨k1, v1⟩ := kv
    by_cases hk : k = k1
    · subst hk
      simp [List.lookup_cons]
    · have : (k == k1) = false := by simpa using hk
      simp only [List.lookup_cons, this, List.map_cons, List.mem_cons, not_or]
      rw [ih k]
      exact ⟨fun h => ⟨hk, h⟩, fun h => h.2⟩

theorem lookup_isSome_iff {β : Type} (m : List (Nat × β)) (k : Nat) :
    (∃ v, m.lookup k = some v) ↔ k ∈ m.map Prod.fst := by
  constructor
  · rintro ⟨v, hv⟩
    by_contra hn
    rw [← lookup_none_iff] at hn
    rw [hn] at hv; cases hv
  · intro hk
    cases h : m.lookup k with
    | none => exact absurd hk ((lookup_none_iff m k).1 h)
    | some v => exact ⟨v, rfl⟩

theorem lookup_of_mem_nodup {β : Type} :
    ∀ (m : List (Nat × β)) (k : Nat) (v : β), (m.map Prod.fst).Nodup → (k, v) ∈ m →
      m.lookup k = some v := by
  intro m
  induction m with
  | nil => intro k v _ h; cases h
  | cons kv rest ih =>
    intro k v hnd hmem
    obtain ⟨k1, v1⟩ := kv
    simp only [List.map_cons, List.nodup_cons] at hnd
    rcases List.mem_cons.1 hmem with h1 | h1
    · cases h1
      simp [List.lookup_cons]
    · have hk : k ≠ k1 := by
        intro he
        subst he
        exact hnd.1 (List.mem_map.2 ⟨(k, v), h1, rfl⟩)
      have : (k == k1) = false := by simpa using hk
      simp only [List.lookup_cons, this]
      exact ih k v hnd.2 h1

theorem mapSet_new {β : Type} :
    ∀ (m : List (Nat × β)) (k : Nat) (v : β), m.lookup k = none → mapSet m k v = m ++ [(k, v)] := by
  intro m
  induction m with
  | nil => intro k v _; rfl
  | cons kv rest ih =>
    intro k v h
    obtain ⟨k1, v1⟩ := kv
    by_cases hk : k = k1
    · subst hk
      simp [List.lookup_cons] at h
    · have hb : (k == k1) = false := by simpa using hk
      simp only [List.lookup_cons, hb] at h
      have hk2 : ¬ k1 = k := fun he => hk he.symm
      simp only [mapSet, hk2, if_false, List.cons_append, ih k v h]

theorem dirsOf_mapSet_same {D : Type} :
    ∀ (m : List (Nat × DirectoryData D)) (k : Nat) (dd dd2 : DirectoryData D),
      m.lookup k = some dd → dd2.directory = dd.directory → dirsOf (mapSet m k dd2) = dirsOf m := by
  intro m
  induction m with
  | nil => intro k dd dd2 h; simp at h
  | cons kv rest ih =>
    intro k dd dd2 h hd
    obtain ⟨k1, v1⟩ := kv
    by_cases hk : k = k1
    · subst hk
      simp only [List.lookup_cons, beq_self_eq_true, Option.some.injEq] at h
      subst h
      simp [mapSet, dirsOf, hd]
    · have hb : (k == k1) = false := by simpa using hk
      simp only [List.lookup_cons, hb] at h
      have hk2 : ¬ k1 = k := fun he => hk he.symm
      have := ih k dd dd2 h hd
      simp only [dirsOf] at this
      simp only [mapSet, hk2, if_false, dirsOf, List.map_cons, this]

theorem dirsOf_keys {D : Type} (m : List (Nat × DirectoryData D)) :
    (dirsOf m).map Prod.fst = m.map Prod.fst := by
  simp [dirsOf, List.map_map, Function.comp_def]

theorem lookup_mapSet_self {β : Type} :
    ∀ (m : List (Nat × β)) (k : Nat) (v : β), (mapSet m k v).lookup k = some v := by
  intro m
  induction m with
  | nil => intro k v; simp [mapSet, List.lookup_cons]
  | cons kv rest ih =>
    intro k v
    obtain ⟨k1, v1⟩ := kv
    by_cases hk : k1 = k
    · simp [mapSet, hk, List.lookup_cons]
    · have hb : (k == k1) = false := by
        have : k ≠ k1 := fun he => hk he.symm
        simpa using this
      simp only [mapSet, hk, if_false, List.lookup_cons, hb]
      exact ih k v

theorem lookup_mapSet_other {β : Type} :
    ∀ (m : List (Nat × β)) (k q : Nat) (v : β), q ≠ k → (mapSet m k v).lookup q = m.lookup q := by
  intro m
  induction m with
  | nil =>
    intro k q v hq
    have hb : (q == k) = false := by simpa using hq
    simp [mapSet, List.lookup_cons, hb]
  | cons kv rest ih =>
    intro k q v hq
    obtain ⟨k1, v1⟩ := kv
    by_cases hk : k1 = k
    · subst hk
      have hb : (q == k1) = false := by simpa using hq
      simp [mapSet, List.lookup_cons, hb]
    · simp only [mapSet, hk, if_false, List.lookup_cons]
      rw [ih k q v hq]

theorem mapGetList_mapSet (m : List (Nat × List Nat)) (k q : Nat) (v : List Nat) :
    mapGetList (mapSet m k v) q = if q = k then v else mapGetList m q := by
  unfold mapGetList
  by_cases hq : q = k
  · subst hq; simp [lookup_mapSet_self]
  · simp [hq, lookup_mapSet_other m k q v hq]

theorem Reach.snoc {cat : Catalog} {a b p : Nat} {dir : Directory} (h : Reach cat a b)
    (hb : cat.firstDirectory b = some dir) (hp : dir.parentId = some p) : Reach cat a p := by
  induction h with
  | refl d => exact Reach.step hb hp (Reach.refl p)
  | step h1 h2 _ ih => exact Reach.step h1 h2 (ih hb)

/-! ## The loop invariant of the directory walk -/

theorem firstDirectory_congr {cat1 cat2 : Catalog} (h : cat1.directories = cat2.directories)
    (d : Nat) : cat1.firstDirectory d = cat2.firstDirectory d := by
  unfold Catalog.firstDirectory
  rw [h]

theorem loadedDirs_append (l1 l2 : List Event) :
    loadedDirs (l1 ++ l2) = loadedDirs l1 ++ loadedDirs l2 := by
  unfold loadedDirs
  exact List.filterMap_append _ _ _

theorem loadDir_inv {D : Type} {dag : Daggen D} {cat : Catalog} {l0 : List Nat} {d : Nat}
    {st st1 : WalkState D} {db db1 : Db} {dirData : DirectoryData D}
    (hinv : WalkInv cat l0 st db) (hl : loadDir dag d st db = .ok dirData st1 db1) :
    WalkInv cat l0 st1 db1 ∧ st1.dirCache.lookup d = some dirData ∧
    cat.firstDirectory d = some dirData.directory ∧
    (∀ k, k ∈ st1.dirCache.map Prod.fst ↔ k ∈ st.dirCache.map Prod.fst ∨ k = d) := by
  obtain ⟨ha, hb, hc, hd, he⟩ := hinv
  obtain ⟨hcat, hcases⟩ := loadDir_ok hl
  rcases hcases with ⟨hlk, hst, hlog⟩ | ⟨hlk, hfirst, hcache, hchildren, hlog⟩
  · subst hst
    refine ⟨⟨by rw [hcat]; exact ha, by rw [hlog]; exact hb, hc, hd, he⟩, hlk, ?_, ?_⟩
    · have hm := lookup_mem _ _ _ hlk
      exact hd (d, dirData.directory) (List.mem_map.2 ⟨(d, dirData), hm, rfl⟩)
    · intro k
      constructor
      · exact fun h => Or.inl h
      · rintro (h | h)
        · exact h
        · subst h
          exact (lookup_isSome_iff _ _).1 ⟨dirData, hlk⟩
  · have hnew := mapSet_new st.dirCache d dirData hlk
    rw [hnew] at hcache
    have hnot : d ∉ st.dirCache.map Prod.fst := (lookup_none_iff _ _).1 hlk
    have hfirst2 : cat.firstDirectory d = some dirData.directory := by
      rw [← firstDirectory_congr ha d]; exact hfirst
    refine ⟨⟨by rw [hcat]; exact ha, ?_, ?_, ?_, ?_⟩, ?_, hfirst2, ?_⟩
    · rw [hlog, loadedDirs_append, hb, hcache]
      simp [loadedDirs, List.append_assoc]
    · rw [hcache, List.map_append, List.nodup_append]
      refine ⟨hc, by simp, ?_⟩
      intro a h1 h2
      simp only [List.map_cons, List.map_nil, List.mem_singleton] at h2
      subst h2
      exact hnot h1
    · intro kd hkd
      rw [hcache] at hkd
      simp only [dirsOf, List.map_append, List.mem_append, List.map_cons, List.map_nil,
        List.mem_singleton] at hkd
      rcases hkd with h1 | h1
      · exact hd kd h1
      · subst h1; exact hfirst2
    · intro p
      rw [hchildren, hcache]
      simp only [dirsOf, List.map_append, List.map_cons, List.map_nil, List.filter_append]
      have hep := he p
      simp only [dirsOf] at hep
      cases hpar : dirData.directory.parentId with
      | none =>
        simp [hep, List.filter_cons, hpar]
      | some q =>
        dsimp only
        rw [mapGetList_mapSet]
        by_cases hpq : p = q
        · subst hpq
          simp [hep, List.filter_cons, hpar]
        · have hqp : ¬ q = p := fun h => hpq h.symm
          simp [hpq, hqp, hep, List.filter_cons, hpar]
    · rw [hcache]
      apply lookup_of_mem_nodup
      · rw [List.map_append, List.nodup_append]
        refine ⟨hc, by simp, ?_⟩
        intro a h1 h2
        simp only [List.map_cons, List.map_nil, List.mem_singleton] at h2
        subst h2
        exact hnot h1
      · simp
    · intro k
      rw [hcache]
      simp

theorem mergeRange_inv {D : Type} {dag : Daggen D} {res : PackResult} {r : JobRange}
    {cat : Catalog} {l0 : List Nat} {d : Nat} {st : WalkState D} {db db2 : Db}
    {dirData dirData2 : DirectoryData D}
    (hinv : WalkInv cat l0 st db) (hlk : st.dirCache.lookup d = some dirData)
    (hm : mergeRange dag res r d dirData db = .ok dirData2 db2) :
    WalkInv cat l0 { st with dirCache := mapSet st.dirCache d dirData2 } db2 ∧
    dirData2.directory = dirData.directory ∧
    (mapSet st.dirCache d dirData2).map Prod.fst = st.dirCache.map Prod.fst := by
  obtain ⟨ha, hb, hc, hd, he⟩ := hinv
  obtain ⟨hdir, hcat, c, _, hlog⟩ := mergeRange_ok hm
  have hsame := dirsOf_mapSet_same st.dirCache d dirData dirData2 hlk hdir
  have hkeys : (mapSet st.dirCache d dirData2).map Prod.fst = st.dirCache.map Prod.fst := by
    rw [← dirsOf_keys, hsame, dirsOf_keys]
  have hloads : loadedDirs db2.log = loadedDirs db.log := by
    rcases hlog with ⟨_, h1⟩ | ⟨_, h1 | ⟨_, _, _, _, h1⟩⟩
    · rw [h1, loadedDirs_append]; simp [loadedDirs]
    · rw [h1]
    · rw [h1, loadedDirs_append]; simp [loadedDirs]
  refine ⟨⟨hcat.trans ha, ?_, ?_, ?_, ?_⟩, hdir, hkeys⟩
  · rw [hloads, hb, hkeys]
  · rw [hkeys]; exact hc
  · rw [hsame]; exact hd
  · rw [hsame]; exact he

theorem walk_inv {D : Type} (dag : Daggen D) (res : PackResult) (r : JobRange) (cat : Catalog)
    (l0 : List Nat) :
    ∀ (fuel : Nat) (first : Bool) (dirID : Option Nat) (st st1 : WalkState D) (db db1 : Db),
      WalkInv cat l0 st db → walk dag res r fuel first dirID st db = .ok st1 db1 →
      WalkInv cat l0 st1 db1 ∧
      (∀ k, k ∈ st.dirCache.map Prod.fst → k ∈ st1.dirCache.map Prod.fst) ∧
      (∀ d, dirID = some d → ∀ k, Reach cat d k → k ∈ st1.dirCache.map Prod.fst) ∧
      (∀ k, k ∈ st1.dirCache.map Prod.fst →
        k ∈ st.dirCache.map Prod.fst ∨ ∃ d, dirID = some d ∧ Reach cat d k) := by
  intro fuel
  induction fuel with
  | zero =>
    intro first dirID st st1 db db1 hinv h
    cases dirID with
    | none =>
      simp only [walk, Res.ok.injEq] at h
      obtain ⟨h1, h2⟩ := h
      subst h1; subst h2
      exact ⟨hinv, fun _ hk => hk, fun d hd => (by cases hd), fun _ hk => Or.inl hk⟩
    | some d => simp [walk] at h
  | succ fuel ih =>
    intro first dirID st st1 db db1 hinv h
    cases dirID with
    | none =>
      simp only [walk, Res.ok.injEq] at h
      obtain ⟨h1, h2⟩ := h
      subst h1; subst h2
      exact ⟨hinv, fun _ hk => hk, fun d hd => (by cases hd), fun _ hk => Or.inl hk⟩
    | some d =>
      simp only [walk] at h
      cases hl : loadDir dag d st db with
      | fail e sta dba => rw [hl] at h; cases h
      | ok dirData sta dba =>
        rw [hl] at h
        dsimp only at h
        obtain ⟨hinva, hlka, hfirst, hkeysa⟩ := loadDir_inv hinv hl
        -- the state before the next iteration and the directory whose parent is next
        have key : ∀ (stb : WalkState D) (dbb : Db) (dir : Directory),
            WalkInv cat l0 stb dbb → cat.firstDirectory d = some dir →
            stb.dirCache.map Prod.fst = sta.dirCache.map Prod.fst →
            walk dag res r fuel false dir.parentId stb dbb = .ok st1 db1 →
            WalkInv cat l0 st1 db1 ∧
            (∀ k, k ∈ st.dirCache.map Prod.fst → k ∈ st1.dirCache.map Prod.fst) ∧
            (∀ d1, some d = some d1 → ∀ k, Reach cat d1 k → k ∈ st1.dirCache.map Prod.fst) ∧
            (∀ k, k ∈ st1.dirCache.map Prod.fst →
              k ∈ st.dirCache.map Prod.fst ∨ ∃ d1, some d = some d1 ∧ Reach cat d1 k) := by
          intro stb dbb dir hinvb hdir hkeysb hrest
          obtain ⟨hinv1, hmono, hreach, hback⟩ := ih false dir.parentId stb st1 dbb db1 hinvb hrest
          have hd_in : d ∈ st1.dirCache.map Prod.fst :=
            hmono d (by rw [hkeysb]; exact (hkeysa d).2 (Or.inr rfl))
          refine ⟨hinv1, ?_, ?_, ?_⟩
          · intro k hk
            exact hmono k (by rw [hkeysb]; exact (hkeysa k).2 (Or.inl hk))
          · intro d1 hd1 k hreachk
            cases hd1
            cases hreachk with
            | refl => exact hd_in
            | step h1 h2 h3 =>
              rw [hdir] at h1
              cases h1
              exact hreach _ h2 k h3
          · intro k hk
            rcases hback k hk with h1 | ⟨p, hp, hpk⟩
            · rw [hkeysb] at h1
              rcases (hkeysa k).1 h1 with h2 | h2
              · exact Or.inl h2
              · subst h2; exact Or.inr ⟨k, rfl, Reach.refl k⟩
            · exact Or.inr ⟨d, rfl, Reach.step hdir hp hpk⟩
        cases first with
        | false =>
          simp only [Bool.false_eq_true, if_false] at h
          exact key sta dba dirData.directory hinva hfirst rfl h
        | true =>
          simp only [if_true] at h
          cases hm : mergeRange dag res r d dirData dba with
          | diverge => rw [hm] at h; cases h
          | fail e2 d2 dbb => rw [hm] at h; cases h
          | ok dirData2 dbb =>
            rw [hm] at h
            dsimp only at h
            obtain ⟨hinvb, hdir2, hkeysb⟩ := mergeRange_inv hinva hlka hm
            exact key _ dbb dirData2.directory hinvb (by rw [hdir2]; exact hfirst) hkeysb h

theorem walk_no_diverge {D : Type} (dag : Daggen D) (res : PackResult) (r : JobRange)
    (cat : Catalog) (l0 : List Nat) :
    ∀ (fuel : Nat) (first : Bool) (dirID : Option Nat) (st : WalkState D) (db : Db),
      WalkInv cat l0 st db → chainWithin cat fuel dirID = true →
      walk dag res r fuel first dirID st db ≠ .diverge := by
  intro fuel
  induction fuel with
  | zero =>
    intro first dirID st db _ hch
    cases dirID with
    | none => simp [walk]
    | some d => simp [chainWithin] at hch
  | succ fuel ih =>
    intro first dirID st db hinv hch
    cases dirID with
    | none => simp [walk]
    | some d =>
      simp only [walk]
      cases hl : loadDir dag d st db with
      | fail e sta dba => simp
      | ok dirData sta dba =>
        dsimp only
        obtain ⟨hinva, hlka, hfirst, _⟩ := loadDir_inv hinv hl
        have hch2 : chainWithin cat fuel dirData.directory.parentId = true := by
          simp only [chainWithin, hfirst] at hch
          exact hch
        cases first with
        | false =>
          simp only [Bool.false_eq_true, if_false]
          exact ih false _ sta dba hinva hch2
        | true =>
          simp only [if_true]
          cases hm : mergeRange dag res r d dirData dba with
          | diverge => exact absurd hm (mergeRange_ne_diverge _ _ _ _ _ _)
          | fail e2 d2 dbb => simp
          | ok dirData2 dbb =>
            dsimp only
            obtain ⟨hinvb, hdir2, _⟩ := mergeRange_inv hinva hlka hm
            exact ih false _ _ dbb hinvb (by rw [hdir2]; exact hch2)

theorem walkRanges_inv {D : Type} (dag : Daggen D) (res : PackResult) (fuel : Nat)
    (cat : Catalog) (l0 : List Nat) :
    ∀ (rs : List JobRange) (st st1 : WalkState D) (db db1 : Db),
      WalkInv cat l0 st db → walkRanges dag res fuel rs st db = .ok st1 db1 →
      WalkInv cat l0 st1 db1 ∧
      (∀ k, k ∈ st.dirCache.map Prod.fst → k ∈ st1.dirCache.map Prod.fst) ∧
      (∀ r ∈ rs, ∀ d, r.file.directoryId = some d → ∀ k, Reach cat d k →
        k ∈ st1.dirCache.map Prod.fst) ∧
      (∀ k, k ∈ st1.dirCache.map Prod.fst →
        k ∈ st.dirCache.map Prod.fst ∨
          ∃ r ∈ rs, ∃ d, r.file.directoryId = some d ∧ Reach cat d k) := by
  intro rs
  induction rs with
  | nil =>
    intro st st1 db db1 hinv h
    simp only [walkRanges, Res.ok.injEq] at h
    obtain ⟨h1, h2⟩ := h
    subst h1; subst h2
    exact ⟨hinv, fun _ hk => hk, fun r hr => (by cases hr), fun _ hk => Or.inl hk⟩
  | cons r rs ih =>
    intro st st1 db db1 hinv h
    unfold walkRanges at h
    cases hw : walk dag res r fuel true r.file.directoryId st db with
    | diverge => rw [hw] at h; cases h
    | fail e sta dba => rw [hw] at h; cases h
    | ok sta dba =>
      rw [hw] at h
      dsimp only at h
      obtain ⟨hinva, hmonoa, hreacha, hbacka⟩ := walk_inv dag res r cat l0 _ _ _ _ _ _ _ hinv hw
      obtain ⟨hinv1, hmono, hreach, hback⟩ := ih sta st1 dba db1 hinva h
      refine ⟨hinv1, fun k hk => hmono k (hmonoa k hk), ?_, ?_⟩
      · intro r1 hr1 d hd k hk
        rcases List.mem_cons.1 hr1 with h1 | h1
        · subst h1
          exact hmono k (hreacha d hd k hk)
        · exact hreach r1 h1 d hd k hk
      · intro k hk
        rcases hback k hk with h1 | ⟨r1, hr1, d, hd, hdk⟩
        · rcases hbacka k h1 with h2 | ⟨d, hd, hdk⟩
          · exact Or.inl h2
          · exact Or.inr ⟨r, List.mem_cons_self _ _, d, hd, hdk⟩
        · exact Or.inr ⟨r1, List.mem_cons_of_mem _ hr1, d, hd, hdk⟩

theorem walkRanges_no_diverge {D : Type} (dag : Daggen D) (res : PackResult) (fuel : Nat)
    (cat : Catalog) (l0 : List Nat) :
    ∀ (rs : List JobRange) (st : WalkState D) (db : Db),
      WalkInv cat l0 st db → (∀ r ∈ rs, chainWithin cat fuel r.file.directoryId = true) →
      walkRanges dag res fuel rs st db ≠ .diverge := by
  intro rs
  induction rs with
  | nil => intro st db _ _; simp [walkRanges]
  | cons r rs ih =>
    intro st db hinv hch
    unfold walkRanges
    cases hw : walk dag res r fuel true r.file.directoryId st db with
    | diverge =>
      exact absurd hw (walk_no_diverge dag res r cat l0 _ _ _ _ _ hinv
        (hch r (List.mem_cons_self _ _)))
    | fail e sta dba => simp
    | ok sta dba =>
      dsimp only
      have hinva := (walk_inv dag res r cat l0 _ _ _ _ _ _ _ hinv hw).1
      exact ih sta dba hinva (fun r1 hr1 => hch r1 (List.mem_cons_of_mem _ hr1))

theorem walkInv_empty (db : Db) :
    WalkInv (D := D) db.cat (loadedDirs db.log) { dirCache := [], childrenCache := [] } db := by
  refine ⟨rfl, by simp, by simp, by simp [dirsOf], ?_⟩
  intro p
  simp [mapGetList, dirsOf]

theorem children_of_inv {D : Type} {cat : Catalog} {l0 : List Nat} {st : WalkState D} {db : Db}
    (hinv : WalkInv cat l0 st db) (p : Nat) :
    (mapGetList st.childrenCache p).Nodup ∧
    ∀ k, k ∈ mapGetList st.childrenCache p ↔
      ∃ dirData, st.dirCache.lookup k = some dirData ∧ dirData.directory.parentId = some p := by
  obtain ⟨_, _, hc, _, he⟩ := hinv
  rw [he p]
  constructor
  · have hsub : (((dirsOf st.dirCache).filter
        (fun kd => decide (kd.2.parentId = some p))).map Prod.fst).Sublist
        ((dirsOf st.dirCache).map Prod.fst) :=
      List.Sublist.map _ (List.filter_sublist _)
    rw [dirsOf_keys] at hsub
    exact hc.sublist hsub
  · intro k
    constructor
    · intro hk
      obtain ⟨kd, hkd, hkfst⟩ := List.mem_map.1 hk
      obtain ⟨hkd1, hkd2⟩ := List.mem_filter.1 hkd
      unfold dirsOf at hkd1
      obtain ⟨kv, hkv, hkveq⟩ := List.mem_map.1 hkd1
      obtain ⟨k2, dd⟩ := kv
      subst hkveq
      simp only at hkfst
      subst hkfst
      exact ⟨dd, lookup_of_mem_nodup _ _ _ hc hkv, by simpa using hkd2⟩
    · rintro ⟨dd, hlk, hpar⟩
      refine List.mem_map.2 ⟨(k, dd.directory), List.mem_filter.2 ⟨?_, by simpa using hpar⟩, rfl⟩
      exact List.mem_map.2 ⟨(k, dd), lookup_mem _ _ _ hlk, rfl⟩

/-- C10: let the chain of `parentId` from the directory of every range of the job
end within `fuel` directories.  Then the range loop of the directory transaction
ends, and when it ends without error (every directory load succeeded):
`dirCache` holds exactly the directories that are `file.directoryId` of a range
of the job or an ancestor of one, each with its own row; the directories loaded
are the keys of `dirCache`, each loaded once; and for every `p`,
`childrenCache[p]` holds without duplicates exactly the keys of the cached
directories whose `parentId` is `p`. -/
theorem walkRanges_caches {D : Type} (dag : Daggen D) (res : PackResult) (fuel : Nat)
    (job : PackJob) (db : Db)
    (hchain : ∀ r ∈ job.fileRanges, chainWithin db.cat fuel r.file.directoryId = true) :
    walkRanges dag res fuel job.fileRanges { dirCache := [], childrenCache := [] } db ≠
      Res.diverge ∧
    ∀ st db1,
      walkRanges dag res fuel job.fileRanges { dirCache := [], childrenCache := [] } db =
        Res.ok st db1 →
      (∀ k, (∃ dirData, st.dirCache.lookup k = some dirData) ↔
        ∃ r ∈ job.fileRanges, ∃ d, r.file.directoryId = some d ∧ Reach db.cat d k) ∧
      (∀ k dirData, st.dirCache.lookup k = some dirData →
        db.cat.firstDirectory k = some dirData.directory) ∧
      loadedDirs db1.log = loadedDirs db.log ++ st.dirCache.map Prod.fst ∧
      (st.dirCache.map Prod.fst).Nodup ∧
      (∀ p, (mapGetList st.childrenCache p).Nodup ∧
        ∀ k, k ∈ mapGetList st.childrenCache p ↔
          ∃ dirData, st.dirCache.lookup k = some dirData ∧
            dirData.directory.parentId = some p) := by
  refine ⟨walkRanges_no_diverge dag res fuel db.cat (loadedDirs db.log) _ _ _
    (walkInv_empty db) hchain, ?_⟩
  intro st db1 h
  obtain ⟨hinv, _, hreach, hback⟩ :=
    walkRanges_inv dag res fuel db.cat (loadedDirs db.log) _ _ _ _ _ (walkInv_empty db) h
  refine ⟨?_, ?_, hinv.2.1, hinv.2.2.1, fun p => children_of_inv hinv p⟩
  · intro k
    rw [lookup_isSome_iff]
    constructor
    · intro hk
      rcases hback k hk with h1 | h1
      · simp at h1
      · exact h1
    · rintro ⟨r, hr, d, hd, hdk⟩
      exact hreach r hr d hd k hdk
  · intro k dirData hlk
    exact hinv.2.2.2.1 (k, dirData.directory)
      (List.mem_map.2 ⟨(k, dirData), lookup_mem _ _ _ hlk, rfl⟩)

/-- Witness of `walkRanges_caches`: the ranges of `sub/a` and `b` on the example
catalog; directories 11 and 10 are loaded once each and 11 is the only child
of 10. -/
theorem walkRanges_caches_witness :
    ∃ st db1,
      walkRanges specDaggen (exResult []) 4 (exJob [rangeA, rangeB1, rangeB2]).fileRanges
        { dirCache := [], childrenCache := [] } (exDb []) = Res.ok st db1 ∧
      st.dirCache.map Prod.fst = [11, 10] ∧
      loadedDirs db1.log = loadedDirs (exDb []).log ++ st.dirCache.map Prod.fst ∧
      mapGetList st.childrenCache 10 = [11] :=
  ⟨_, _, rfl, by decide,
    ((walkRanges_caches specDaggen (exResult []) 4 (exJob [rangeA, rangeB1, rangeB2]) (exDb [])
      (by decide)).2 _ _ rfl).2.2.1,
    by decide⟩

/-! ## Link maps -/

theorem applyLinks_cons (w : Nat × (Cid × Nat)) (ws : List (Nat × (Cid × Nat))) (m : LinkNode) :
    applyLinks (w :: ws) m = applyLinks ws (setLink m w.1 w.2.1 w.2.2) := rfl

theorem applyLinks_append (ws ls : List (Nat × (Cid × Nat))) (m : LinkNode) :
    applyLinks (ws ++ ls) m = applyLinks ls (applyLinks ws m) := by
  unfold applyLinks
  rw [List.foldl_append]

/-- The links set replace the ones of the same name and leave the others. -/
theorem applyLinks_closed :
    ∀ (ws : List (Nat × (Cid × Nat))) (m : LinkNode),
      applyLinks ws m =
        applyLinks ws [] ++ m.filter (fun e => decide (e.1 ∉ ws.map Prod.fst)) := by
  intro ws
  induction ws with
  | nil => intro m; simp [applyLinks]
  | cons w ws ih =>
    intro m
    rw [applyLinks_cons, applyLinks_cons, ih (setLink m w.1 w.2.1 w.2.2),
      ih (setLink [] w.1 w.2.1 w.2.2)]
    simp only [setLink, List.filter_nil, List.filter_cons, List.append_assoc]
    congr 1
    have hf : (m.filter (fun e => decide (e.1 ≠ w.1))).filter
          (fun e => decide (e.1 ∉ ws.map Prod.fst)) =
        m.filter (fun e => decide (e.1 ∉ (w :: ws).map Prod.fst)) := by
      rw [List.filter_filter]
      apply List.filter_congr
      intro e _
      simp only [List.map_cons, List.mem_cons, not_or, Bool.decide_and, ne_eq]
      rw [Bool.and_comm]
    by_cases hw : w.1 ∈ ws.map Prod.fst
    · simp only [hw, not_true_eq_false, decide_False, Bool.false_eq_true, if_false,
        List.nil_append]
      exact hf
    · simp only [hw, not_false_eq_true, decide_True, if_true, List.cons_append,
        List.nil_append]
      rw [hf]

theorem applyLinks_keys :
    ∀ (ws : List (Nat × (Cid × Nat))) (m : LinkNode) (e : Nat × (Cid × Nat)),
      e ∈ applyLinks ws m → e.1 ∈ ws.map Prod.fst ∨ e ∈ m := by
  intro ws
  induction ws with
  | nil => intro m e h; exact Or.inr h
  | cons w ws ih =>
    intro m e h
    rw [applyLinks_cons] at h
    rcases ih _ e h with h1 | h1
    · exact Or.inl (List.mem_cons_of_mem _ h1)
    · simp only [setLink, List.mem_cons, List.mem_filter] at h1
      rcases h1 with h2 | h2
      · left; rw [h2]; exact List.mem_cons_self _ _
      · exact Or.inr h2.1

/-- Setting the same links a second time changes nothing. -/
theorem applyLinks_idem (ws : List (Nat × (Cid × Nat))) (m : LinkNode) :
    applyLinks ws (applyLinks ws m) = applyLinks ws m := by
  rw [applyLinks_closed ws (applyLinks ws m)]
  nth_rewrite 2 [applyLinks_closed ws m]
  nth_rewrite 1 [applyLinks_closed ws m]
  congr 1
  rw [List.filter_append, List.filter_filter]
  have h1 : (applyLinks ws []).filter (fun e => decide (e.1 ∉ ws.map Prod.fst)) = [] := by
    rw [List.filter_eq_nil_iff]
    intro e he
    rcases applyLinks_keys ws [] e he with h | h
    · simp [h]
    · cases h
  rw [h1, List.nil_append]
  apply List.filter_congr
  intro e _
  simp

theorem decode_encode : ∀ (n : LinkNode), decodeLinks (encodeLinks n) = some n := by
  intro n
  induction n with
  | nil => rfl
  | cons e rest ih =>
    obtain ⟨k, c, s⟩ := e
    simp [encodeLinks, decodeLinks, ih]

/-! ## The resolution of the directory tree -/

theorem childLinks_congr {f g : Nat → Option LinkNode} :
    ∀ (ks : List Nat) (ls : List (Nat × (Cid × Nat))),
      (∀ k ∈ ks, ∀ n, f k = some n → g k = some n) →
      childLinks f ks = some ls → childLinks g ks = some ls := by
  intro ks
  induction ks with
  | nil => intro ls _ h; simpa [childLinks] using h
  | cons k ks ih =>
    intro ls hfg h
    unfold childLinks at h
    cases hf : f k with
    | none => rw [hf] at h; simp at h
    | some n =>
      cases hc : childLinks f ks with
      | none => rw [hf, hc] at h; simp at h
      | some ls1 =>
        rw [hf, hc] at h
        have h1 := hfg k (List.mem_cons_self _ _) n hf
        have h2 := ih ls1 (fun k1 hk1 => hfg k1 (List.mem_cons_of_mem _ hk1)) hc
        unfold childLinks
        rw [h1, h2]
        exact h

theorem childLinks_eq {f g : Nat → Option LinkNode} :
    ∀ (ks : List Nat) (la lb : List (Nat × (Cid × Nat))),
      (∀ k ∈ ks, ∀ na nb, f k = some na → g k = some nb → nb = na) →
      childLinks f ks = some la → childLinks g ks = some lb → lb = la := by
  intro ks
  induction ks with
  | nil =>
    intro la lb _ ha hb
    simp only [childLinks, Option.some.injEq] at ha hb
    rw [← ha, ← hb]
  | cons k ks ih =>
    intro la lb hfg ha hb
    unfold childLinks at ha hb
    cases hf : f k with
    | none => rw [hf] at ha; simp at ha
    | some na =>
      cases hg : g k with
      | none => rw [hg] at hb; simp at hb
      | some nb =>
        cases hca : childLinks f ks with
        | none => rw [hf, hca] at ha; simp at ha
        | some la1 =>
          cases hcb : childLinks g ks with
          | none => rw [hg, hcb] at hb; simp at hb
          | some lb1 =>
            rw [hf, hca] at ha
            rw [hg, hcb] at hb
            simp only [Option.some.injEq] at ha hb
            have h1 := hfg k (List.mem_cons_self _ _) na nb hf hg
            have h2 := ih la1 lb1 (fun k1 hk1 => hfg k1 (List.mem_cons_of_mem _ hk1)) hca hcb
            rw [← ha, ← hb, h1, h2]

theorem resolveNode_succ (cache : List (Nat × DirectoryData LinkNode))
    (children : List (Nat × List Nat)) :
    ∀ (fuel id : Nat) (n : LinkNode),
      resolveNode cache children fuel id = some n →
      resolveNode cache children (fuel + 1) id = some n := by
  intro fuel
  induction fuel with
  | zero => intro id n h; simp [resolveNode] at h
  | succ fuel ih =>
    intro id n h
    rw [resolveNode] at h
    rw [resolveNode]
    cases hl : cache.lookup id with
    | none => rw [hl] at h; simp at h
    | some dirData =>
      rw [hl] at h
      dsimp only at h ⊢
      cases hc : childLinks (resolveNode cache children fuel) (mapGetList children id) with
      | none => rw [hc] at h; simp at h
      | some ls =>
        rw [hc] at h
        rw [childLinks_congr _ ls (fun k _ n1 hk => ih k n1 hk) hc]
        exact h

theorem resolveNode_mono (cache : List (Nat × DirectoryData LinkNode))
    (children : List (Nat × List Nat)) (id : Nat) (n : LinkNode) (f : Nat)
    (h : resolveNode cache children f id = some n) :
    ∀ g, f ≤ g → resolveNode cache children g id = some n := by
  intro g hg
  induction hg with
  | refl => exact h
  | step _ ih => exact resolveNode_succ cache children _ id n ih

/-- The resolved state of a directory does not depend on the fuel. -/
theorem resolveNode_det (cache : List (Nat × DirectoryData LinkNode))
    (children : List (Nat × List Nat)) (id : Nat) (a b : LinkNode) (f g : Nat)
    (ha : resolveNode cache children f id = some a)
    (hb : resolveNode cache children g id = some b) : a = b := by
  rcases Nat.le_total f g with h | h
  · have := resolveNode_mono cache children id a f ha g h
    rw [hb] at this
    exact (Option.some.inj this).symm
  · have := resolveNode_mono cache children id b g hb f h
    rw [ha] at this
    exact Option.some.inj this

/-- The entries returned by the pass: the entries of the cache, each with the
resolved state of its key. -/
theorem resolveAll_spec (cache : List (Nat × DirectoryData LinkNode))
    (children : List (Nat × List Nat)) (fuel : Nat) :
    ∀ (l out : List (Nat × DirectoryData LinkNode)),
      resolveAll cache children fuel l = some out →
      List.Forall₂ (fun e o => o.1 = e.1 ∧ o.2.directory = e.2.directory ∧
        resolveNode cache children fuel e.1 = some o.2.node) l out := by
  intro l
  induction l with
  | nil =>
    intro out h
    simp only [resolveAll, Option.some.injEq] at h
    subst h
    exact List.Forall₂.nil
  | cons e rest ih =>
    intro out h
    obtain ⟨id, dirData⟩ := e
    unfold resolveAll at h
    cases hn : resolveNode cache children fuel id with
    | none => rw [hn] at h; simp at h
    | some node =>
      cases hr : resolveAll cache children fuel rest with
      | none => rw [hn, hr] at h; simp at h
      | some out1 =>
        rw [hn, hr] at h
        simp only [Option.some.injEq] at h
        subst h
        exact List.Forall₂.cons ⟨rfl, rfl, hn⟩ (ih out1 hr)

/-! ## Exact effect of a successful directory transaction with `specDaggen` -/

/-- A committed transaction, possibly after retries: its body succeeded on the
catalog the operation started from, and the catalog left is the one of the body. -/
theorem DoRetry_Transaction_ok {σ : Type} (body : σ → Db → Res Fault σ) :
    ∀ (n : Nat) (s : σ) (db : Db) (s1 : σ) (db1 : Db),
      DoRetry (Transaction body) n s db = .ok s1 db1 →
      ∃ s0 db0 dbB, db0.cat = db.cat ∧ body s0 db0 = .ok s1 dbB ∧ db1.cat = dbB.cat := by
  have htx : ∀ s db s1 db1, Transaction body s db = .ok s1 db1 →
      ∃ dbB, body s db = .ok s1 dbB ∧ db1.cat = dbB.cat := by
    intro s db s1 db1 h
    unfold Transaction at h
    split at h
    · next s2 db2 heq =>
      split at h
      · cases h
      · next db3 hn =>
        cases h
        exact ⟨db2, heq, (Db.next_eq hn).1⟩
    · cases h
    · cases h
  have hfail : ∀ s db e s1 db1, Transaction body s db = .fail e s1 db1 → db1.cat = db.cat :=
    fun s db e s1 db1 h => DoRetry_Transaction_fail body 0 s db e s1 db1 (by simpa [DoRetry] using h)
  intro n
  induction n with
  | zero =>
    intro s db s1 db1 h
    obtain ⟨dbB, hb, hc⟩ := htx s db s1 db1 (by simpa [DoRetry] using h)
    exact ⟨s, db, dbB, rfl, hb, hc⟩
  | succ n ih =>
    intro s db s1 db1 h
    unfold DoRetry at h
    split at h
    · next s2 db2 heq =>
      obtain ⟨s0, db0, dbB, h0, hb, hc⟩ := ih s2 db2 s1 db1 h
      exact ⟨s0, db0, dbB, by rw [h0, hfail s db _ s2 db2 heq], hb, hc⟩
    · obtain ⟨dbB, hb, hc⟩ := htx s db s1 db1 h
      exact ⟨s, db, dbB, rfl, hb, hc⟩

/-- A directory that was not cached is cached with its unmarshalled state. -/
theorem loadDir_ok_node {D : Type} {dag : Daggen D} {d : Nat} {st st1 : WalkState D}
    {db db1 : Db} {dirData : DirectoryData D}
    (h : loadDir dag d st db = .ok dirData st1 db1) (hl : st.dirCache.lookup d = none) :
    dag.UnmarshallBinary dirData.directory.data = some dirData.node := by
  unfold loadDir at h
  rw [hl] at h
  dsimp only at h
  split at h
  · cases h
  · split at h
    · cases h
    · next dir hdir =>
      split at h
      · cases h
      · next node hnode =>
        cases h
        exact hnode

theorem mergeWrites_congr (res : PackResult) (r : JobRange) {cat1 cat2 : Catalog}
    (h : cat1.fileRanges = cat2.fileRanges) : mergeWrites res r cat1 = mergeWrites res r cat2 := by
  unfold mergeWrites
  cases hc : res.fileRangeCIDs.lookup r.id with
  | none => rfl
  | some c =>
    dsimp only
    rw [rangesOfFile_congr (setRangeCid_fileRanges_congr h r.id c) r.fileId]

/-- The update of the parent directory of a range, when it succeeds with
`specDaggen`. -/
theorem mergeRange_spec_ok {res : PackResult} {r : JobRange} {d : Nat}
    {dirData dirData2 : DirectoryData LinkNode} {db db2 : Db}
    (h : mergeRange specDaggen res r d dirData db = .ok dirData2 db2) :
    dirData2 = { dirData with node := applyLinks (mergeWrites res r db.cat).1 dirData.node } ∧
    db2.cat.files = applyFileCids (mergeWrites res r db.cat).2 db.cat.files ∧
    db2.cat.directories = db.cat.directories ∧
    ∃ c, res.fileRangeCIDs.lookup r.id = some c ∧
      db2.cat.fileRanges = (db.cat.setRangeCid r.id c).fileRanges := by
  unfold mergeRange at h
  split at h
  · cases h
  · next c hc =>
    split at h
    · cases h
    · next db1 hn =>
      have hn1 := Db.next_eq hn
      dsimp only at h
      split at h
      · next hw =>
        split at h
        · cases h
        · next node hnode =>
          cases h
          simp only [specDaggen, Option.some.injEq] at hnode
          subst hnode
          have hmw : mergeWrites res r db.cat =
              ([(fileKey (baseName r.file.path), (c, r.length))], []) := by
            unfold mergeWrites
            rw [hc]
            dsimp only
            rw [if_pos hw]
          rw [hmw]
          refine ⟨?_, ?_, ?_, c, hc, ?_⟩
          · simp [applyLinks]
          · simp [applyFileCids, hn1.1, Catalog.setRangeCid]
          · simp [hn1.1, Catalog.setRangeCid]
          · simp [hn1.1]
      · next hw =>
        have hw2 : r.wholeFile = false := by simpa using hw
        split at h
        · cases h
        · next db3 hn3 =>
          have h3 := Db.next_eq hn3
          simp only [Db.write_cat, Db.write_log] at h3
          split at h
          · next hall =>
            split at h
            · cases h
            · next node c1 hadd =>
              split at h
              · cases h
              · next db5 hn5 =>
                have h5 := Db.next_eq hn5
                simp only [Db.record_cat, Db.record_log] at h5
                cases h
                rw [h3.1, hn1.1] at hall hadd
                simp only [specDaggen, Option.some.injEq, Prod.mk.injEq] at hadd
                obtain ⟨hnode, hc1⟩ := hadd
                subst hnode
                subst hc1
                have hmw : mergeWrites res r db.cat =
                    ([(fileKey (baseName r.file.path),
                        (linksCid (linksOf ((db.cat.setRangeCid r.id c).rangesOfFile r.fileId)),
                         linksSize (linksOf ((db.cat.setRangeCid r.id c).rangesOfFile r.fileId))))],
                      [(r.fileId,
                        linksCid (linksOf ((db.cat.setRangeCid r.id c).rangesOfFile r.fileId)))]) := by
                  unfold mergeWrites
                  rw [hc]
                  dsimp only
                  rw [if_neg hw, if_pos hall]
                rw [hmw]
                refine ⟨?_, ?_, ?_, c, hc, ?_⟩
                · simp [applyLinks]
                · simp [applyFileCids, h5.1, h3.1, hn1.1, Catalog.setRangeCid, Catalog.setFileCid]
                · simp [h5.1, h3.1, hn1.1, Catalog.setRangeCid, Catalog.setFileCid]
                · simp [h5.1, h3.1, hn1.1, Catalog.setRangeCid, Catalog.setFileCid]
          · next hall =>
            cases h
            rw [h3.1, hn1.1] at hall
            have hmw : mergeWrites res r db.cat = ([], []) := by
              unfold mergeWrites
              rw [hc]
              dsimp only
              rw [if_neg hw, if_neg hall]
            rw [hmw]
            refine ⟨?_, ?_, ?_, c, hc, ?_⟩
            · simp [applyLinks]
            · simp [applyFileCids, h3.1, hn1.1, Catalog.setRangeCid]
            · simp [h3.1, hn1.1, Catalog.setRangeCid]
            · simp [h3.1, hn1.1]

/-- The write-back of the cache, when it succeeds with `specDaggen`. -/
theorem updateDirectories_spec_ok :
    ∀ (cache : List (Nat × DirectoryData LinkNode)) (db : Db) (s : Unit) (db1 : Db),
      updateDirectories specDaggen cache db = .ok s db1 → db1.cat = writeBack cache db.cat := by
  intro cache
  induction cache with
  | nil =>
    intro db s db1 h
    simp only [updateDirectories] at h
    cases h
    rfl
  | cons e rest ih =>
    intro db s db1 h
    obtain ⟨id, dirData⟩ := e
    unfold updateDirectories at h
    simp only [specDaggen] at h
    split at h
    · cases h
    · next db2 hn =>
      have hn2 := Db.next_eq hn
      have := ih _ _ _ h
      rw [this]
      simp only [Db.write_cat, hn2.1]
      rfl

/-- The parts of a successful body of the directory transaction with
`specDaggen`. -/
theorem dirTxBody_spec_ok {job : PackJob} {res : PackResult} {fuel : Nat} {s s1 : Unit}
    {db db1 : Db} (h : dirTxBody specDaggen job res fuel s db = .ok s1 db1) :
    ∃ st dbW out,
      walkRanges specDaggen res fuel job.fileRanges { dirCache := [], childrenCache := [] } db =
        .ok st dbW ∧
      resolveAll st.dirCache st.childrenCache (st.dirCache.length + 1) st.dirCache = some out ∧
      db1.cat = writeBack out dbW.cat := by
  unfold dirTxBody at h
  cases hw : walkRanges specDaggen res fuel job.fileRanges
      { dirCache := [], childrenCache := [] } db with
  | diverge => rw [hw] at h; cases h
  | fail e st dbW => rw [hw] at h; cases h
  | ok st dbW =>
    rw [hw] at h
    dsimp only at h
    split at h
    · cases h
    · next db2 hn =>
      have hn2 := Db.next_eq hn
      split at h
      · cases h
      · next root hroot =>
        split at h
        · cases h
        · next out hout =>
          refine ⟨st, dbW, out, rfl, ?_, ?_⟩
          · simpa [specDaggen] using hout
          · rw [updateDirectories_spec_ok _ _ _ _ h, hn2.1]

theorem writeBack_cons (e : Nat × DirectoryData LinkNode)
    (rest : List (Nat × DirectoryData LinkNode)) (cat : Catalog) :
    writeBack (e :: rest) cat =
      writeBack rest (cat.updateDirectory e.1 (linkNodeCid e.2.node) (encodeLinks e.2.node)) :=
  rfl

/-- The tables after the write-back of entries that hold the state `N k` for
each key `k`. -/
theorem writeBack_closed (N : Nat → LinkNode) :
    ∀ (out : List (Nat × DirectoryData LinkNode)) (cat : Catalog),
      (∀ e ∈ out, e.2.node = N e.1) →
      writeBack out cat =
        { cat with directories := cat.directories.map (fun row =>
            if row.id ∈ out.map Prod.fst then writtenRow (N row.id) row else row) } := by
  intro out
  induction out with
  | nil => intro cat _; simp [writeBack]
  | cons e rest ih =>
    intro cat hN
    rw [writeBack_cons, ih _ (fun e1 he1 => hN e1 (List.mem_cons_of_mem _ he1))]
    have he := hN e (List.mem_cons_self _ _)
    simp only [Catalog.updateDirectory, List.map_map]
    congr 1
    apply List.map_congr_left
    intro row _
    simp only [Function.comp_apply, List.map_cons, List.mem_cons]
    by_cases hid : row.id = e.1
    · rw [if_pos hid]
      simp only [hid, true_or, if_true]
      rw [he]
      by_cases hm : e.1 ∈ rest.map Prod.fst
      · rw [if_pos hm]; simp [writtenRow, hid]
      · rw [if_neg hm]; simp [writtenRow, hid]
    · rw [if_neg hid]
      simp only [hid, false_or]

/-! ## Two runs of the directory walk in step -/

theorem entryRel_lookup {dA dB : List Directory} :
    ∀ (cA cB : List (Nat × DirectoryData LinkNode)),
      List.Forall₂ (EntryRel dA dB) cA cB → ∀ d,
      (cA.lookup d = none ∧ cB.lookup d = none) ∨
      ∃ va vb, cA.lookup d = some va ∧ cB.lookup d = some vb ∧ EntryRel dA dB (d, va) (d, vb) := by
  intro cA
  induction cA with
  | nil =>
    intro cB h d
    cases h
    exact Or.inl ⟨rfl, rfl⟩
  | cons ea la ih =>
    intro cB h d
    obtain ⟨eb, lb, hab, hrest, rfl⟩ := List.forall₂_cons_left_iff.1 h
    obtain ⟨ka, va⟩ := ea
    obtain ⟨kb, vb⟩ := eb
    have hk : ka = kb := hab.1
    subst hk
    by_cases hd : d = ka
    · subst hd
      right
      exact ⟨va, vb, by simp [List.lookup], by simp [List.lookup], hab⟩
    · have hne : (d == ka) = false := by simpa using hd
      rcases ih lb hrest d with h1 | ⟨wa, wb, h1, h2, h3⟩
      · left
        simp only [List.lookup, hne]
        exact h1
      · right
        refine ⟨wa, wb, ?_, ?_, h3⟩
        · simp only [List.lookup, hne]; exact h1
        · simp only [List.lookup, hne]; exact h2

theorem entryRel_mapSet {dA dB : List Directory} {d : Nat} {va vb : DirectoryData LinkNode}
    (hv : EntryRel dA dB (d, va) (d, vb)) :
    ∀ (cA cB : List (Nat × DirectoryData LinkNode)),
      List.Forall₂ (EntryRel dA dB) cA cB →
      List.Forall₂ (EntryRel dA dB) (mapSet cA d va) (mapSet cB d vb) := by
  intro cA
  induction cA with
  | nil =>
    intro cB h
    cases h
    exact List.Forall₂.cons hv List.Forall₂.nil
  | cons ea la ih =>
    intro cB h
    obtain ⟨eb, lb, hab, hrest, rfl⟩ := List.forall₂_cons_left_iff.1 h
    obtain ⟨ka, wa⟩ := ea
    obtain ⟨kb, wb⟩ := eb
    have hk : ka = kb := hab.1
    subst hk
    unfold mapSet
    by_cases hd : ka = d
    · rw [if_pos hd, if_pos hd]
      exact List.Forall₂.cons hv hrest
    · rw [if_neg hd, if_neg hd]
      exact List.Forall₂.cons hab (ih lb hrest)

theorem entryRel_keys {dA dB : List Directory} :
    ∀ (cA cB : List (Nat × DirectoryData LinkNode)),
      List.Forall₂ (EntryRel dA dB) cA cB → cA.map Prod.fst = cB.map Prod.fst := by
  intro cA
  induction cA with
  | nil =>
    intro cB h
    cases h
    rfl
  | cons ea la ih =>
    intro cB h
    obtain ⟨eb, lb, hab, hrest, rfl⟩ := List.forall₂_cons_left_iff.1 h
    simp only [List.map_cons, ih lb hrest, hab.1]

theorem applyFileCids_append (ws vs : List (Nat × Cid)) (fs : List File) :
    applyFileCids (ws ++ vs) fs = applyFileCids vs (applyFileCids ws fs) := by
  unfold applyFileCids
  rw [List.foldl_append]

/-- Loading the same directory in both runs keeps them in step and yields
related entries. -/
theorem loadDir_sim {F : List FileRange} {dA dB : List Directory} {fA fB : List File}
    (hpar : ∀ d ra rb, dA.find? (fun row => decide (row.id = d)) = some ra →
      dB.find? (fun row => decide (row.id = d)) = some rb → ra.parentId = rb.parentId)
    {d : Nat} {sa sb sa1 sb1 : WalkState LinkNode} {dba dbb dba1 dbb1 : Db}
    {dda ddb : DirectoryData LinkNode}
    (hs : Sim F dA dB fA fB sa sb dba.cat dbb.cat)
    (ha : loadDir specDaggen d sa dba = .ok dda sa1 dba1)
    (hb : loadDir specDaggen d sb dbb = .ok ddb sb1 dbb1) :
    Sim F dA dB fA fB sa1 sb1 dba1.cat dbb1.cat ∧ EntryRel dA dB (d, dda) (d, ddb) := by
  obtain ⟨hcache, hch, hfa, hfb, hda, hdb, hfiles⟩ := hs
  obtain ⟨hcata, hcasea⟩ := loadDir_ok ha
  obtain ⟨hcatb, hcaseb⟩ := loadDir_ok hb
  rcases entryRel_lookup _ _ hcache d with ⟨hla, hlb⟩ | ⟨va, vb, hla, hlb, hrel⟩
  · rcases hcasea with ⟨h1, _⟩ | ⟨_, hfirsta, hca, hcha, _⟩
    · rw [hla] at h1; cases h1
    rcases hcaseb with ⟨h1, _⟩ | ⟨_, hfirstb, hcb, hchb, _⟩
    · rw [hlb] at h1; cases h1
    have hna := loadDir_ok_node ha hla
    have hnb := loadDir_ok_node hb hlb
    simp only [specDaggen] at hna hnb
    unfold Catalog.firstDirectory at hfirsta hfirstb
    rw [hda] at hfirsta
    rw [hdb] at hfirstb
    have hp := hpar d _ _ hfirsta hfirstb
    have hrel : EntryRel dA dB (d, dda) (d, ddb) := by
      refine ⟨rfl, hp, [], dda.node, ddb.node, ?_, ?_, rfl, rfl⟩
      · simp only [nodeOf, hfirsta, Option.some_bind]; exact hna
      · simp only [nodeOf, hfirstb, Option.some_bind]; exact hnb
    refine ⟨⟨?_, ?_, by rw [hcata]; exact hfa, by rw [hcatb]; exact hfb,
      by rw [hcata]; exact hda, by rw [hcatb]; exact hdb, by rw [hcata, hcatb]; exact hfiles⟩,
      hrel⟩
    · rw [hca, hcb]
      exact entryRel_mapSet hrel _ _ hcache
    · rw [hcha, hchb, hp, hch]
  · rcases hcasea with ⟨h1, h2, _⟩ | ⟨h1, _⟩
    swap
    · rw [hla] at h1; cases h1
    rcases hcaseb with ⟨h3, h4, _⟩ | ⟨h3, _⟩
    swap
    · rw [hlb] at h3; cases h3
    rw [hla] at h1
    rw [hlb] at h3
    cases h1
    cases h3
    subst h2
    subst h4
    exact ⟨⟨hcache, hch, by rw [hcata]; exact hfa, by rw [hcatb]; exact hfb,
      by rw [hcata]; exact hda, by rw [hcatb]; exact hdb, by rw [hcata, hcatb]; exact hfiles⟩,
      hrel⟩

/-- The walk of one range in both runs. -/
theorem walk_sim (res : PackResult) (r : JobRange) (base : Catalog)
    {dA dB : List Directory} {fA fB : List File}
    (hpar : ∀ d ra rb, dA.find? (fun row => decide (row.id = d)) = some ra →
      dB.find? (fun row => decide (row.id = d)) = some rb → ra.parentId = rb.parentId)
    (hnoop : ∀ c, res.fileRangeCIDs.lookup r.id = some c →
      (base.setRangeCid r.id c).fileRanges = base.fileRanges) :
    ∀ (fuel : Nat) (first : Bool) (da db : Option Nat) (sa sb sa1 sb1 : WalkState LinkNode)
      (dba dbb dba1 dbb1 : Db), da = db →
      Sim base.fileRanges dA dB fA fB sa sb dba.cat dbb.cat →
      walk specDaggen res r fuel first da sa dba = .ok sa1 dba1 →
      walk specDaggen res r fuel first db sb dbb = .ok sb1 dbb1 →
      Sim base.fileRanges dA dB fA fB sa1 sb1 dba1.cat dbb1.cat := by
  intro fuel
  induction fuel with
  | zero =>
    intro first da db sa sb sa1 sb1 dba dbb dba1 dbb1 hd hs ha hb
    subst hd
    cases da with
    | none =>
      simp only [walk] at ha hb
      cases ha
      cases hb
      exact hs
    | some d => simp [walk] at ha
  | succ fuel ih =>
    intro first da db sa sb sa1 sb1 dba dbb dba1 dbb1 hd hs ha hb
    subst hd
    cases da with
    | none =>
      simp only [walk] at ha hb
      cases ha
      cases hb
      exact hs
    | some d =>
      simp only [walk] at ha hb
      cases hla : loadDir specDaggen d sa dba with
      | fail e st1 db1 => rw [hla] at ha; cases ha
      | ok dda sa2 dba2 =>
        cases hlb : loadDir specDaggen d sb dbb with
        | fail e st1 db1 => rw [hlb] at hb; cases hb
        | ok ddb sb2 dbb2 =>
          rw [hla] at ha
          rw [hlb] at hb
          dsimp only at ha hb
          obtain ⟨hs2, hrel⟩ := loadDir_sim hpar hs hla hlb
          cases first with
          | false =>
            simp only [Bool.false_eq_true, if_false] at ha hb
            exact ih false _ _ _ _ _ _ _ _ _ _ hrel.2.1 hs2 ha hb
          | true =>
            simp only [if_true] at ha hb
            cases hma : mergeRange specDaggen res r d dda dba2 with
            | diverge => rw [hma] at ha; cases ha
            | fail e dd2 db2 => rw [hma] at ha; cases ha
            | ok dda3 dba3 =>
              cases hmb : mergeRange specDaggen res r d ddb dbb2 with
              | diverge => rw [hmb] at hb; cases hb
              | fail e dd2 db2 => rw [hmb] at hb; cases hb
              | ok ddb3 dbb3 =>
                rw [hma] at ha
                rw [hmb] at hb
                dsimp only at ha hb
                obtain ⟨hcache, hch, hfa, hfb, hda, hdb, wl, hwa, hwb⟩ := hs2
                obtain ⟨hna, hfla, hdira, c, hc, hfra⟩ := mergeRange_spec_ok hma
                obtain ⟨hnb, hflb, hdirb, c2, hc2, hfrb⟩ := mergeRange_spec_ok hmb
                rw [hc] at hc2
                cases hc2
                have hmw : mergeWrites res r dbb2.cat = mergeWrites res r dba2.cat :=
                  mergeWrites_congr res r (hfb.trans hfa.symm)
                rw [hmw] at hnb hflb
                obtain ⟨hk, hp, ws, na, nb, hnoa, hnob, hwsa, hwsb⟩ := hrel
                have hrel3 : EntryRel dA dB (d, dda3) (d, ddb3) := by
                  refine ⟨rfl, ?_, ws ++ (mergeWrites res r dba2.cat).1, na, nb, hnoa, hnob, ?_, ?_⟩
                  · rw [hna, hnb]; exact hp
                  · rw [hna, applyLinks_append]
                    simp only
                    rw [← hwsa]
                  · rw [hnb, applyLinks_append]
                    simp only
                    rw [← hwsb]
                have hs3 : Sim base.fileRanges dA dB fA fB
                    { sa2 with dirCache := mapSet sa2.dirCache d dda3 }
                    { sb2 with dirCache := mapSet sb2.dirCache d ddb3 } dba3.cat dbb3.cat := by
                  refine ⟨entryRel_mapSet hrel3 _ _ hcache, hch, ?_, ?_, by rw [hdira]; exact hda,
                    by rw [hdirb]; exact hdb, wl ++ (mergeWrites res r dba2.cat).2, ?_, ?_⟩
                  · rw [hfra, setRangeCid_fileRanges_congr hfa, hnoop c hc]
                  · rw [hfrb, setRangeCid_fileRanges_congr hfb, hnoop c hc]
                  · rw [hfla, applyFileCids_append, hwa]
                  · rw [hflb, applyFileCids_append, hwb]
                have hp3 : dda3.directory.parentId = ddb3.directory.parentId := hrel3.2.1
                exact ih false _ _ _ _ _ _ _ _ _ _ hp3 hs3 ha hb

/-- The range loop of the directory transaction in both runs. -/
theorem walkRanges_sim (res : PackResult) (fuel : Nat) (base : Catalog)
    {dA dB : List Directory} {fA fB : List File}
    (hpar : ∀ d ra rb, dA.find? (fun row => decide (row.id = d)) = some ra →
      dB.find? (fun row => decide (row.id = d)) = some rb → ra.parentId = rb.parentId) :
    ∀ (rs : List JobRange) (sa sb sa1 sb1 : WalkState LinkNode) (dba dbb dba1 dbb1 : Db),
      (∀ r ∈ rs, ∀ c, res.fileRangeCIDs.lookup r.id = some c →
        (base.setRangeCid r.id c).fileRanges = base.fileRanges) →
      Sim base.fileRanges dA dB fA fB sa sb dba.cat dbb.cat →
      walkRanges specDaggen res fuel rs sa dba = .ok sa1 dba1 →
      walkRanges specDaggen res fuel rs sb dbb = .ok sb1 dbb1 →
      Sim base.fileRanges dA dB fA fB sa1 sb1 dba1.cat dbb1.cat := by
  intro rs
  induction rs with
  | nil =>
    intro sa sb sa1 sb1 dba dbb dba1 dbb1 _ hs ha hb
    simp only [walkRanges] at ha hb
    cases ha
    cases hb
    exact hs
  | cons r rs ih =>
    intro sa sb sa1 sb1 dba dbb dba1 dbb1 hnoop hs ha hb
    unfold walkRanges at ha hb
    cases hwa : walk specDaggen res r fuel true r.file.directoryId sa dba with
    | diverge => rw [hwa] at ha; cases ha
    | fail e st1 db1 => rw [hwa] at ha; cases ha
    | ok sa2 dba2 =>
      cases hwb : walk specDaggen res r fuel true r.file.directoryId sb dbb with
      | diverge => rw [hwb] at hb; cases hb
      | fail e st1 db1 => rw [hwb] at hb; cases hb
      | ok sb2 dbb2 =>
        rw [hwa] at ha
        rw [hwb] at hb
        dsimp only at ha hb
        have hs2 := walk_sim res r base hpar (hnoop r (List.mem_cons_self _ _)) fuel true _ _
          _ _ _ _ _ _ _ _ rfl hs hwa hwb
        exact ih _ _ _ _ _ _ _ _ (fun r1 hr1 => hnoop r1 (List.mem_cons_of_mem _ hr1)) hs2 ha hb

/-! ## The catalog update applied twice -/

theorem forall₂_mem_right {α β : Type} {R : α → β → Prop} :
    ∀ (l : List α) (u : List β), List.Forall₂ R l u → ∀ o ∈ u, ∃ e ∈ l, R e o := by
  intro l
  induction l with
  | nil => intro u h o ho; cases h; cases ho
  | cons a l ih =>
    intro u h o ho
    obtain ⟨b, u1, hab, hrest, rfl⟩ := List.forall₂_cons_left_iff.1 h
    rcases List.mem_cons.1 ho with h1 | h1
    · subst h1; exact ⟨a, List.mem_cons_self _ _, hab⟩
    · obtain ⟨e, he, hr⟩ := ih u1 hrest o h1
      exact ⟨e, List.mem_cons_of_mem _ he, hr⟩

theorem forall₂_mem_left {α β : Type} {R : α → β → Prop} :
    ∀ (l : List α) (u : List β), List.Forall₂ R l u → ∀ e ∈ l, ∃ o ∈ u, R e o := by
  intro l
  induction l with
  | nil => intro u _ e he; cases he
  | cons a l ih =>
    intro u h e he
    obtain ⟨b, u1, hab, hrest, rfl⟩ := List.forall₂_cons_left_iff.1 h
    rcases List.mem_cons.1 he with h1 | h1
    · subst h1; exact ⟨b, List.mem_cons_self _ _, hab⟩
    · obtain ⟨o, ho, hr⟩ := ih u1 hrest e h1
      exact ⟨o, List.mem_cons_of_mem _ ho, hr⟩

theorem forall₂_map_eq {α β γ : Type} {R : α → β → Prop} (f : α → γ) (g : β → γ)
    (hfg : ∀ a b, R a b → f a = g b) :
    ∀ (l : List α) (u : List β), List.Forall₂ R l u → l.map f = u.map g := by
  intro l
  induction l with
  | nil => intro u h; cases h; rfl
  | cons a l ih =>
    intro u h
    obtain ⟨b, u1, hab, hrest, rfl⟩ := List.forall₂_cons_left_iff.1 h
    simp only [List.map_cons, ih u1 hrest, hfg a b hab]

theorem find_map_id (h : Directory → Directory) (hid : ∀ row, (h row).id = row.id) (d : Nat) :
    ∀ (ds : List Directory),
      (ds.map h).find? (fun row => decide (row.id = d)) =
        (ds.find? (fun row => decide (row.id = d))).map h := by
  intro ds
  induction ds with
  | nil => rfl
  | cons row ds ih =>
    simp only [List.map_cons, List.find?_cons, hid]
    by_cases hd : row.id = d
    · simp [hd]
    · simp [hd, ih]

theorem writeBack_files :
    ∀ (out : List (Nat × DirectoryData LinkNode)) (cat : Catalog),
      (writeBack out cat).files = cat.files ∧ (writeBack out cat).fileRanges = cat.fileRanges := by
  intro out
  induction out with
  | nil => intro cat; exact ⟨rfl, rfl⟩
  | cons e rest ih =>
    intro cat
    rw [writeBack_cons]
    exact ih _

theorem applyFileCids_closed :
    ∀ (ws : List (Nat × Cid)) (fs : List File),
      applyFileCids ws fs = fs.map (fun f => { f with cid := cidAfterWrites ws f.id f.cid }) := by
  intro ws
  induction ws with
  | nil => intro fs; simp [applyFileCids, cidAfterWrites]
  | cons w ws ih =>
    intro fs
    have hcons : applyFileCids (w :: ws) fs =
        applyFileCids ws
          (fs.map (fun f => if f.id = w.1 then { f with cid := some w.2 } else f)) := rfl
    rw [hcons, ih, List.map_map]
    apply List.map_congr_left
    intro f _
    simp only [Function.comp_apply]
    by_cases hf : f.id = w.1
    · simp [hf, cidAfterWrites]
    · simp [hf, cidAfterWrites]

/-- Several writes of `File.cid` either leave the cid of a file alone or set it to
a value that does not depend on the cid before. -/
theorem cidAfterWrites_cases :
    ∀ (ws : List (Nat × Cid)) (id : Nat),
      (∀ x, cidAfterWrites ws id x = x) ∨ (∃ c, ∀ x, cidAfterWrites ws id x = c) := by
  intro ws
  induction ws with
  | nil => intro id; exact Or.inl (fun _ => rfl)
  | cons w ws ih =>
    intro id
    have hcons : ∀ x, cidAfterWrites (w :: ws) id x =
        cidAfterWrites ws id (if id = w.1 then some w.2 else x) := fun _ => rfl
    by_cases hid : id = w.1
    · right
      exact ⟨cidAfterWrites ws id (some w.2), fun x => by rw [hcons, if_pos hid]⟩
    · rcases ih id with h | ⟨c, h⟩
      · left
        intro x
        rw [hcons, if_neg hid, h]
      · right
        exact ⟨c, fun x => by rw [hcons, if_neg hid, h]⟩

theorem applyRangeCids_tables (res : PackResult) (rs : List JobRange) (cat : Catalog) :
    (applyRangeCids res rs cat).directories = cat.directories ∧
    (applyRangeCids res rs cat).files =
      cat.files.map (fun f => { f with cid := fileCidAfter res rs f.id f.cid }) ∧
    (applyRangeCids res rs cat).fileRanges =
      cat.fileRanges.map (fun row => { row with cid := rangeCidAfter res rs row.id row.cid }) := by
  rw [applyRangeCids_eq]
  exact ⟨rfl, rfl, rfl⟩

/-- In two runs in step, the second on directory rows that hold the resolved
states of the first, each directory resolves to the same state. -/
theorem resolveNode_sim {dA dB : List Directory} {cA cB : List (Nat × DirectoryData LinkNode)}
    {ch : List (Nat × List Nat)} (F : Nat)
    (hrel : List.Forall₂ (EntryRel dA dB) cA cB)
    (hB : ∀ d nb, d ∈ cA.map Prod.fst → nodeOf dB d = some nb →
      resolveNode cA ch F d = some nb) :
    ∀ (f d : Nat) (nA nB : LinkNode),
      resolveNode cA ch f d = some nA → resolveNode cB ch f d = some nB → nB = nA := by
  intro f
  induction f with
  | zero => intro d nA nB ha _; simp [resolveNode] at ha
  | succ f ih =>
    intro d nA nB ha hb
    rw [resolveNode] at ha hb
    rcases entryRel_lookup _ _ hrel d with ⟨hla, _⟩ | ⟨va, vb, hla, hlb, hr⟩
    · rw [hla] at ha; simp at ha
    · rw [hla] at ha
      rw [hlb] at hb
      dsimp only at ha hb
      cases hca : childLinks (resolveNode cA ch f) (mapGetList ch d) with
      | none => rw [hca] at ha; simp at ha
      | some la =>
        cases hcb : childLinks (resolveNode cB ch f) (mapGetList ch d) with
        | none => rw [hcb] at hb; simp at hb
        | some lb =>
          rw [hca] at ha
          rw [hcb] at hb
          simp only [Option.some.injEq] at ha hb
          have hl : lb = la :=
            childLinks_eq _ la lb (fun k _ na nb h1 h2 => ih k na nb h1 h2) hca hcb
          obtain ⟨_, _, ws, na, nb, _, hnob, hwa, hwb⟩ := hr
          simp only at hwa hwb hnob
          have hmem : d ∈ cA.map Prod.fst := by
            have := List.mem_map_of_mem Prod.fst (lookup_mem _ _ _ hla)
            simpa using this
          have hfull := hB d nb hmem hnob
          have hA1 : resolveNode cA ch (f + 1) d = some nA := by
            rw [resolveNode, hla]
            dsimp only
            rw [hca]
            dsimp only
            rw [ha]
          have hnb : nA = nb := resolveNode_det cA ch d nA nb _ _ hA1 hfull
          rw [← hb, ← ha, hl, hwa, hwb, ← applyLinks_append, ← applyLinks_append]
          have hna : nb = applyLinks (ws ++ la) na := by
            rw [← hnb, ← ha, hwa, ← applyLinks_append]
          rw [hna, applyLinks_idem]

/-- The parts of a successful catalog update with `specDaggen`: the directory
transaction starts on the tables the first loop left, its walk and the
resolution succeed, and the resolved directories are written back. -/
theorem catalogUpdate_spec_ok (env : Env LinkNode) (henv : env.dag = specDaggen) (fuel : Nat)
    (job : PackJob) (res : PackResult) (db db1 : Db) (cars : List Car)
    (h : catalogUpdate env fuel job res db = .ok cars db1) :
    (∀ r ∈ job.fileRanges, ∃ c, res.fileRangeCIDs.lookup r.id = some c) ∧
    ∃ db0 st dbW out,
      db0.cat.files = (applyRangeCids res job.fileRanges db.cat).files ∧
      db0.cat.fileRanges = (applyRangeCids res job.fileRanges db.cat).fileRanges ∧
      db0.cat.directories = db.cat.directories ∧
      walkRanges specDaggen res fuel job.fileRanges { dirCache := [], childrenCache := [] } db0 =
        .ok st dbW ∧
      resolveAll st.dirCache st.childrenCache (st.dirCache.length + 1) st.dirCache = some out ∧
      db1.cat = writeBack out dbW.cat := by
  unfold catalogUpdate at h
  cases hr : rangeLoop env.retries res job.fileRanges db with
  | diverge => rw [hr] at h; cases h
  | fail e s dba => rw [hr] at h; cases h
  | ok s dba =>
    rw [hr] at h
    dsimp only at h
    have hcat := rangeLoop_ok_cat _ _ _ _ _ _ hr
    have hlook := rangeLoop_ok_lookup _ _ _ _ _ _ hr
    have hC : CarStable (fun cat => cat.files = dba.cat.files ∧
        cat.fileRanges = dba.cat.fileRanges ∧ cat.directories = dba.cat.directories) :=
      ⟨fun _ _ hJ => hJ, fun _ _ hJ => hJ⟩
    have hcar := carStage_All (K := fun _ => True) hC job res.carResults env.retries [] dba
      ⟨rfl, rfl, rfl⟩ trivial
    cases hc : DoRetry (Transaction (carTxBody job res.carResults)) env.retries [] dba with
    | diverge => rw [hc] at h; cases h
    | fail e s2 dbb => rw [hc] at h; cases h
    | ok cars2 dbb =>
      rw [hc] at h hcar
      dsimp only at h
      obtain ⟨⟨hf, hfr, hd⟩, _⟩ := hcar
      cases hdir : DoRetry (Transaction (dirTxBody env.dag job res fuel)) env.retries () dbb with
      | diverge => rw [hdir] at h; cases h
      | fail e s3 dbc => rw [hdir] at h; cases h
      | ok s3 dbc =>
        rw [hdir] at h
        cases h
        obtain ⟨s0, db0, dbB, h0, hbody, hfin⟩ := DoRetry_Transaction_ok _ _ _ _ _ _ hdir
        rw [henv] at hbody
        obtain ⟨st, dbW, out, hw, hres, hwb⟩ := dirTxBody_spec_ok hbody
        refine ⟨hlook, db0, st, dbW, out, ?_, ?_, ?_, hw, hres, by rw [hfin, hwb]⟩
        · rw [h0, hf, hcat]
        · rw [h0, hfr, hcat]
        · rw [h0, hd, hcat, (applyRangeCids_tables res job.fileRanges db.cat).1]

theorem applyRangeCids_fileRanges_idem (res : PackResult) (rs : List JobRange)
    (cat cat1 : Catalog) (h : cat1.fileRanges = (applyRangeCids res rs cat).fileRanges) :
    (applyRangeCids res rs cat1).fileRanges = (applyRangeCids res rs cat).fileRanges := by
  rw [(applyRangeCids_tables res rs cat1).2.2, h, (applyRangeCids_tables res rs cat).2.2,
    List.map_map]
  apply List.map_congr_left
  intro row _
  simp [rangeCidAfter_idem]

/-- The first loop followed by the writes of the walk, applied to the rows of
table `files` a second time, changes nothing. -/
theorem files_idem (res : PackResult) (rs : List JobRange) (wl : List (Nat × Cid))
    (fs : List File) :
    applyFileCids wl
        ((applyFileCids wl
            (fs.map (fun f => { f with cid := fileCidAfter res rs f.id f.cid }))).map
          (fun f => { f with cid := fileCidAfter res rs f.id f.cid })) =
      applyFileCids wl (fs.map (fun f => { f with cid := fileCidAfter res rs f.id f.cid })) := by
  simp only [applyFileCids_closed, List.map_map]
  apply List.map_congr_left
  intro f _
  simp only [Function.comp_apply]
  rcases cidAfterWrites_cases wl f.id with h | ⟨c, h⟩
  · simp only [h, fileCidAfter_idem]
  · simp only [h]

theorem writtenRow_idem (N : Nat → LinkNode) (keys : List Nat) (row : Directory) :
    (fun r : Directory => if r.id ∈ keys then writtenRow (N r.id) r else r)
        ((fun r : Directory => if r.id ∈ keys then writtenRow (N r.id) r else r) row) =
      (fun r : Directory => if r.id ∈ keys then writtenRow (N r.id) r else r) row := by
  by_cases hk : row.id ∈ keys
  · have hid : (writtenRow (N row.id) row).id = row.id := rfl
    simp only [hk, if_true, hid]
    rfl
  · simp only [hk, if_false]

/-- C7 (amended): with package `daggen` as modelled from the spec, the catalog
update of `Pack` after `AssembleCar` (the per-range cid updates, the CAR insertion
and the directory reconciliation) is idempotent on tables `files`, `file_ranges`
and `directories`: when it succeeds twice in a row with the same `PackResult`,
whatever faults are injected and retried in either application, the second
application leaves these three tables as the first one left them. -/
theorem catalogUpdate_idempotent (env : Env LinkNode) (henv : env.dag = specDaggen) (fuel : Nat)
    (job : PackJob) (res : PackResult) (db db1 db2 : Db) (faults : List (Option Fault))
    (cars1 cars2 : List Car)
    (h1 : catalogUpdate env fuel job res db = Res.ok cars1 db1)
    (h2 : catalogUpdate env fuel job res { db1 with faults := faults } = Res.ok cars2 db2) :
    db2.cat.files = db1.cat.files ∧ db2.cat.fileRanges = db1.cat.fileRanges ∧
    db2.cat.directories = db1.cat.directories := by
  obtain ⟨hlook, d0a, sa, dWa, outA, hfa0, hfra0, hda0, hwa, hra, hfina⟩ :=
    catalogUpdate_spec_ok env henv fuel job res db db1 cars1 h1
  obtain ⟨_, d0b, sb, dWb, outB, hfb0, hfrb0, hdb0, hwb, hrb, hfinb⟩ :=
    catalogUpdate_spec_ok env henv fuel job res _ db2 cars2 h2
  simp only at hfb0 hfrb0 hdb0
  have hnoop : ∀ r ∈ job.fileRanges, ∀ c, res.fileRangeCIDs.lookup r.id = some c →
      ((applyRangeCids res job.fileRanges db.cat).setRangeCid r.id c).fileRanges =
        (applyRangeCids res job.fileRanges db.cat).fileRanges :=
    fun r hr c hc => applyRangeCids_noop res job.fileRanges db.cat hlook r hr c hc
  -- the first run on its own
  have hparA : ∀ d ra rb, db.cat.directories.find? (fun row => decide (row.id = d)) = some ra →
      db.cat.directories.find? (fun row => decide (row.id = d)) = some rb →
      ra.parentId = rb.parentId := by
    intro d ra rb ha hb
    rw [ha] at hb
    cases hb
    rfl
  have hsimA := walkRanges_sim res fuel (applyRangeCids res job.fileRanges db.cat) hparA
    job.fileRanges _ _ _ _ _ _ _ _ hnoop
    (⟨List.Forall₂.nil, rfl, hfra0, hfra0, hda0, hda0, [], hfa0, hfa0⟩ :
      Sim (applyRangeCids res job.fileRanges db.cat).fileRanges db.cat.directories
        db.cat.directories (applyRangeCids res job.fileRanges db.cat).files
        (applyRangeCids res job.fileRanges db.cat).files
        { dirCache := [], childrenCache := [] } { dirCache := [], childrenCache := [] }
        d0a.cat d0a.cat) hwa hwa
  obtain ⟨_, _, hWfr, _, hWd, _, _⟩ := hsimA
  -- the resolved states of the first run
  have hspecA := resolveAll_spec _ _ _ _ _ hra
  have hkeysA : outA.map Prod.fst = sa.dirCache.map Prod.fst :=
    (forall₂_map_eq Prod.fst Prod.fst (fun a b h => h.1.symm) _ _ hspecA).symm
  have hresA : ∀ k ∈ sa.dirCache.map Prod.fst,
      resolveNode sa.dirCache sa.childrenCache (sa.dirCache.length + 1) k =
        some ((resolveNode sa.dirCache sa.childrenCache (sa.dirCache.length + 1) k).getD []) := by
    intro k hk
    obtain ⟨e, he, hek⟩ := List.mem_map.1 hk
    obtain ⟨o, _, _, _, ho⟩ := forall₂_mem_left _ _ hspecA e he
    rw [← hek, ho]
    rfl
  have hNA : ∀ o ∈ outA, o.2.node =
      (resolveNode sa.dirCache sa.childrenCache (sa.dirCache.length + 1) o.1).getD [] := by
    intro o ho
    obtain ⟨e, _, hk, _, hres⟩ := forall₂_mem_right _ _ hspecA o ho
    rw [hk, hres]
    rfl
  have hD1 : db1.cat.directories = db.cat.directories.map (fun row =>
      if row.id ∈ sa.dirCache.map Prod.fst then
        writtenRow ((resolveNode sa.dirCache sa.childrenCache (sa.dirCache.length + 1)
          row.id).getD []) row
      else row) := by
    rw [hfina, writeBack_closed (fun k => (resolveNode sa.dirCache sa.childrenCache
      (sa.dirCache.length + 1) k).getD []) outA dWa.cat hNA, hkeysA]
    simp only
    rw [hWd]
  have hid : ∀ row : Directory, ((fun row : Directory =>
      if row.id ∈ sa.dirCache.map Prod.fst then
        writtenRow ((resolveNode sa.dirCache sa.childrenCache (sa.dirCache.length + 1)
          row.id).getD []) row
      else row) row).id = row.id := by
    intro row
    dsimp only
    split <;> rfl
  have hfiles1 : db1.cat.files = dWa.cat.files := by
    rw [hfina]; exact (writeBack_files outA dWa.cat).1
  have hfr1 : db1.cat.fileRanges = (applyRangeCids res job.fileRanges db.cat).fileRanges := by
    rw [hfina, (writeBack_files outA dWa.cat).2, hWfr]
  -- the two runs in step
  have hpar : ∀ d ra rb, db.cat.directories.find? (fun row => decide (row.id = d)) = some ra →
      db1.cat.directories.find? (fun row => decide (row.id = d)) = some rb →
      ra.parentId = rb.parentId := by
    intro d ra rb ha hb
    rw [hD1, find_map_id _ hid d, ha] at hb
    simp only [Option.map_some', Option.some.injEq] at hb
    rw [← hb]
    split <;> rfl
  have hfrb : d0b.cat.fileRanges = (applyRangeCids res job.fileRanges db.cat).fileRanges := by
    rw [hfrb0]
    exact applyRangeCids_fileRanges_idem res job.fileRanges db.cat db1.cat hfr1
  have hsim := walkRanges_sim res fuel (applyRangeCids res job.fileRanges db.cat) hpar
    job.fileRanges _ _ _ _ _ _ _ _ hnoop
    (⟨List.Forall₂.nil, rfl, hfra0, hfrb, hda0, hdb0, [], hfa0, hfb0⟩ :
      Sim (applyRangeCids res job.fileRanges db.cat).fileRanges db.cat.directories
        db1.cat.directories (applyRangeCids res job.fileRanges db.cat).files
        (applyRangeCids res job.fileRanges db1.cat).files
        { dirCache := [], childrenCache := [] } { dirCache := [], childrenCache := [] }
        d0a.cat d0b.cat) hwa hwb
  obtain ⟨hcache, hch, _, hWfrB, _, hWdB, wl, hflA, hflB⟩ := hsim
  have hkeysAB : sa.dirCache.map Prod.fst = sb.dirCache.map Prod.fst := entryRel_keys _ _ hcache
  have hlen : sb.dirCache.length = sa.dirCache.length := hcache.length_eq.symm
  have hB : ∀ d nb, d ∈ sa.dirCache.map Prod.fst → nodeOf db1.cat.directories d = some nb →
      resolveNode sa.dirCache sa.childrenCache (sa.dirCache.length + 1) d = some nb := by
    intro d nb hmem hno
    rw [hresA d hmem]
    unfold nodeOf at hno
    rw [hD1, find_map_id _ hid d] at hno
    cases hf : db.cat.directories.find? (fun row => decide (row.id = d)) with
    | none => rw [hf] at hno; simp at hno
    | some row =>
      rw [hf] at hno
      have hrow : row.id = d := by simpa using List.find?_some hf
      simp only [Option.map_some', Option.some_bind, hrow, hmem, if_true, writtenRow,
        decode_encode] at hno
      exact hno
  have hsimres := resolveNode_sim (sa.dirCache.length + 1) hcache hB
  have hspecB := resolveAll_spec _ _ _ _ _ hrb
  have hkeysB : outB.map Prod.fst = sb.dirCache.map Prod.fst :=
    (forall₂_map_eq Prod.fst Prod.fst (fun a b h => h.1.symm) _ _ hspecB).symm
  have hNB : ∀ o ∈ outB, o.2.node =
      (resolveNode sa.dirCache sa.childrenCache (sa.dirCache.length + 1) o.1).getD [] := by
    intro o ho
    obtain ⟨e, he, hk, _, hres⟩ := forall₂_mem_right _ _ hspecB o ho
    have hmem : e.1 ∈ sa.dirCache.map Prod.fst := by
      rw [hkeysAB]; exact List.mem_map_of_mem _ he
    have hA := hresA e.1 hmem
    rw [hlen, ← hch] at hres
    have := hsimres _ _ _ _ hA hres
    rw [this, hk]
  refine ⟨?_, ?_, ?_⟩
  · rw [hfinb, (writeBack_files outB dWb.cat).1, hflB, hfiles1, hflA,
      (applyRangeCids_tables res job.fileRanges db1.cat).2.1, hfiles1, hflA,
      (applyRangeCids_tables res job.fileRanges db.cat).2.1]
    exact files_idem res job.fileRanges wl db.cat.files
  · rw [hfinb, (writeBack_files outB dWb.cat).2, hWfrB, hfr1]
  · rw [hfinb, writeBack_closed (fun k => (resolveNode sa.dirCache sa.childrenCache
      (sa.dirCache.length + 1) k).getD []) outB dWb.cat hNB, hkeysB, ← hkeysAB]
    simp only
    rw [hWdB, hD1, List.map_map]
    apply List.map_congr_left
    intro row _
    exact writtenRow_idem (fun k => (resolveNode sa.dirCache sa.childrenCache
      (sa.dirCache.length + 1) k).getD []) (sa.dirCache.map Prod.fst) row

/-- Witness of `catalogUpdate_idempotent`: the catalog update applied twice to the
example catalog for the whole-file range of `sub/a` and both ranges of `b`, the
first time with a transient fault that is retried.  The first application
changes the three tables, the second inserts the car again and leaves the three
tables as they are. -/
theorem catalogUpdate_idempotent_witness :
    ∃ cars1 db1 cars2 db2,
      catalogUpdate (exEnv (exResult [exCarResult ['x']])) 4 (exJob [rangeA, rangeB1, rangeB2])
        (exResult [exCarResult ['x']]) (exDb [some Fault.transient]) = Res.ok cars1 db1 ∧
      catalogUpdate (exEnv (exResult [exCarResult ['x']])) 4 (exJob [rangeA, rangeB1, rangeB2])
        (exResult [exCarResult ['x']]) { db1 with faults := [] } = Res.ok cars2 db2 ∧
      db1.cat.files ≠ exCatalog.files ∧ db1.cat.fileRanges ≠ exCatalog.fileRanges ∧
      db1.cat.directories ≠ exCatalog.directories ∧
      db1.cat.cars.length = 1 ∧ db2.cat.cars.length = 2 ∧
      (db2.cat.files = db1.cat.files ∧ db2.cat.fileRanges = db1.cat.fileRanges ∧
        db2.cat.directories = db1.cat.directories) :=
  ⟨_, _, _, _, rfl, rfl, by decide, by decide, by decide, by decide, by decide,
    catalogUpdate_idempotent (exEnv (exResult [exCarResult ['x']])) rfl 4
      (exJob [rangeA, rangeB1, rangeB2]) (exResult [exCarResult ['x']])
      (exDb [some Fault.transient]) _ _ [] _ _ rfl rfl⟩

end Singularity
